import Mathlib

/-!
Verification development for the csapp-lab dynamic storage allocators
(src/malloclab/2mm-myseg.c and src/malloclab/mm.c).

The heap is modelled as a list of blocks in address order (prologue first,
epilogue last).  Each block record carries the header fields (size, alloc
bit, prev-alloc bit, prev-small bit), the raw word stored in the footer
slot, and the free-list / BST link words stored in the first payload words
(successor, predecessor, left child, right child, parent).  Addresses are
byte addresses with the heap base at 0, exactly as the C code computes
them; link offsets relative to the heap base therefore coincide with
addresses.  Payload bytes other than the link and footer slots are not
tracked (the allocator never reads them).

All operations are total executable functions transliterated from the C
sources; loops that chase pointers take an explicit fuel argument (the C
code relies on well-formedness of the structures for termination).
-/

set_option maxRecDepth 8000
set_option maxHeartbeats 2000000

namespace Alloc

/-- Structurally recursive decision procedure for List.Chain (so that
concrete invariant instances evaluate by decide). -/
def chainDec {α : Type} (R : α → α → Prop) (d : ∀ a b, Decidable (R a b)) :
    ∀ (a : α) (l : List α), Decidable (List.Chain R a l)
  | _, [] => isTrue List.Chain.nil
  | a, b :: l =>
    match d a b, chainDec R d b l with
    | isTrue hr, isTrue hc => isTrue (List.Chain.cons hr hc)
    | isFalse hr, _ => isFalse fun h => hr (List.chain_cons.mp h).1
    | _, isFalse hc => isFalse fun h => hc (List.chain_cons.mp h).2

instance (priority := 2000) instChainDec {α : Type} (R : α → α → Prop)
    [d : DecidableRel R] (a : α) (l : List α) : Decidable (List.Chain R a l) :=
  chainDec R d a l

instance (priority := 2000) instChainDec' {α : Type} (R : α → α → Prop)
    [d : DecidableRel R] : ∀ l : List α, Decidable (List.Chain' R l)
  | [] => isTrue trivial
  | a :: l => chainDec R d a l

/-! ## Model of src/malloclab/2mm-myseg.c -/

namespace Seg

/-- Basic constants of 2mm-myseg.c (lines 70-76). -/
def HWSIZE : Nat := 4

/-- Word size in bytes. -/
def WSIZE : Nat := 8

/-- Double word size in bytes. -/
def DSIZE : Nat := 16

/-- Extend heap by this amount of bytes. -/
def CHUNKSIZE : Nat := 256

/-- Minimum block size in bytes (2mm-myseg.c line 74). -/
def MIN_SIZE : Nat := 8

/-- Number of free lists. -/
def LISTNUM : Nat := 5

/-- Bins for size up to 32 bytes hold one size each (2mm-myseg.c line 76). -/
def THRESHOLD : Nat := 32

/-- One heap block.  The header word of the C code is split into the four
fields size/alloc/prevAlloc/prevSmall; ftr is the raw word stored in the
footer slot (the last 4 bytes of the block) and succ/pred/left/right/parent
are the link words stored at payload offsets 0, 4, 8, 16, 24.  For a block
of size 8 the footer slot coincides with the successor slot; reads and
writes of the footer of such a block therefore go through succ (see
lastWord and put_ftr). -/
structure Blk where
  size : Nat := 0
  alloc : Bool := false
  prevAlloc : Bool := false
  prevSmall : Bool := false
  ftr : Nat := 0
  succ : Nat := 0
  pred : Nat := 0
  left : Nat := 0
  right : Nat := 0
  parent : Nat := 0
deriving Repr, DecidableEq, Inhabited

/-- Allocator state: the blocks of the heap in address order (the first
element is the prologue, the last the epilogue header), the free_lists
array (LISTNUM pointers, 0 meaning NULL; entry LISTNUM-1 is the BST root)
and a flag telling whether mem_sbrk succeeds. -/
structure Heap where
  blocks : List Blk
  freeLists : List Nat
  sbrkOk : Bool := true
deriving Repr, DecidableEq

/-- Payload address of the prologue block: mm_init places the free_lists
array (5 times 8 bytes) and one padding word before the prologue header,
so the prologue payload sits at byte 48 of the heap. -/
def baseBp : Nat := 48

/-- Resolve a payload address to a block index, scanning the block list
and accumulating sizes (the model counterpart of following headers). -/
def resolveFrom : List Blk → Nat → Nat → Option Nat
  | [], _, _ => none
  | b :: bs, cur, a =>
    if a = cur then some 0
    else
      match resolveFrom bs (cur + b.size) a with
      | some i => some (i + 1)
      | none => none

/-- Resolve a payload address inside a heap. -/
def resolve (h : Heap) (a : Nat) : Option Nat := resolveFrom h.blocks baseBp a

/-- Payload address of the block with the given index. -/
def addrOfIdx (h : Heap) (i : Nat) : Nat :=
  baseBp + ((h.blocks.take i).map Blk.size).sum

/-- Block stored at a payload address (default block if the address does
not resolve; the C code would read garbage there). -/
def blkAt (h : Heap) (a : Nat) : Blk :=
  match resolve h a with
  | some i => h.blocks.getD i default
  | none => default

/-- Update the block at a payload address (no-op if the address does not
resolve). -/
def updAt (h : Heap) (a : Nat) (f : Blk → Blk) : Heap :=
  match resolve h a with
  | some i => { h with blocks := h.blocks.set i (f (h.blocks.getD i default)) }
  | none => h

/-- get_size(hdrp(bp)). -/
def get_size (h : Heap) (a : Nat) : Nat := (blkAt h a).size

/-- get_alloc(hdrp(bp)). -/
def get_alloc (h : Heap) (a : Nat) : Bool := (blkAt h a).alloc

/-- get_prev_alloc(hdrp(bp)). -/
def get_prev_alloc (h : Heap) (a : Nat) : Bool := (blkAt h a).prevAlloc

/-- get_prev_small(hdrp(bp)). -/
def get_prev_small (h : Heap) (a : Nat) : Bool := (blkAt h a).prevSmall

/-- next_blkp(bp) = bp + size of the block at bp. -/
def next_blkp (h : Heap) (a : Nat) : Nat := a + get_size h a

/-- Raw word stored in the last 4 bytes of a block (the footer slot; for a
block of size 8 this is the successor slot). -/
def lastWord (b : Blk) : Nat := if b.size = 8 then b.succ else b.ftr

/-- Word read at address a - 4 - 4, i.e. the last word of the block that
physically precedes the block at a. -/
def wordBefore (h : Heap) (a : Nat) : Nat :=
  match resolve h a with
  | some (i + 1) => lastWord (h.blocks.getD i default)
  | _ => 0

/-- Size field of a raw boundary-tag word: the word with its low 3 bits
cleared. -/
def sizebits (w : Nat) : Nat := w - w % 8

/-- prev_blkp(bp): if the prev_small bit is set the previous block has the
minimum size, otherwise its size is read from the footer word just below
this header. -/
def prev_blkp (h : Heap) (a : Nat) : Nat :=
  if (blkAt h a).prevSmall then a - MIN_SIZE
  else a - sizebits (wordBefore h a)

/-- Address one past the last heap byte, i.e. mem_heap_hi() + 1.  This is
also the payload address of the epilogue. -/
def heapEnd (h : Heap) : Nat := baseBp + (h.blocks.map Blk.size).sum

/-- in_heap(p) of 2mm-myseg.c: p <= mem_heap_hi() + 1 (and p >= heap base,
trivially true for natural addresses). -/
def in_heap (h : Heap) (p : Nat) : Bool := decide (p ≤ heapEnd h)

/-- Read a free_lists entry. -/
def binGet (h : Heap) (i : Nat) : Nat := h.freeLists.getD i 0

/-- Write a free_lists entry. -/
def binSet (h : Heap) (i : Nat) (v : Nat) : Heap :=
  { h with freeLists := h.freeLists.set i v }

/-- set_pred(bp, v): store the predecessor link (offset = address since
the heap base is 0). -/
def set_pred (h : Heap) (a v : Nat) : Heap := updAt h a fun b => { b with pred := v }

/-- set_succ(bp, v). -/
def set_succ (h : Heap) (a v : Nat) : Heap := updAt h a fun b => { b with succ := v }

/-- set_left(bp, v). -/
def set_left (h : Heap) (a v : Nat) : Heap := updAt h a fun b => { b with left := v }

/-- set_right(bp, v). -/
def set_right (h : Heap) (a v : Nat) : Heap := updAt h a fun b => { b with right := v }

/-- set_parent(bp, v). -/
def set_parent (h : Heap) (a v : Nat) : Heap := updAt h a fun b => { b with parent := v }

/-- put(ftrp(bp), v): write the footer word of the block at bp.  For a
block of size 8 the footer slot is the successor slot. -/
def put_ftr (h : Heap) (a v : Nat) : Heap :=
  updAt h a fun b => if b.size = 8 then { b with succ := v } else { b with ftr := v }

/-- get_pred(bp) (0 = NULL). -/
def get_pred (h : Heap) (a : Nat) : Nat := (blkAt h a).pred

/-- get_succ(bp). -/
def get_succ (h : Heap) (a : Nat) : Nat := (blkAt h a).succ

/-- get_left(bp). -/
def get_left (h : Heap) (a : Nat) : Nat := (blkAt h a).left

/-- get_right(bp). -/
def get_right (h : Heap) (a : Nat) : Nat := (blkAt h a).right

/-- get_parent(bp). -/
def get_parent (h : Heap) (a : Nat) : Nat := (blkAt h a).parent

/-- get_index(size): list index for a block size. -/
def get_index (size : Nat) : Nat :=
  if size ≤ THRESHOLD then (size - WSIZE) / WSIZE else LISTNUM - 1

/-- replace_child(parent, cur, child): when parent is NULL the BST root
(free_lists[LISTNUM-1]) is replaced. -/
def replace_child (h : Heap) (parent cur child : Nat) : Heap :=
  if parent ≠ 0 then
    if cur = get_left h parent then set_left h parent child
    else set_right h parent child
  else binSet h (LISTNUM - 1) child

/-- insert_free(bp, index): insert a small free block at the head of a
free list.  Bin 0 (8-byte blocks) is singly linked. -/
def insert_free (h : Heap) (bp : Nat) (index : Nat) : Heap :=
  if 0 < index then
    let listp := binGet h index
    let h1 := set_pred h bp 0
    let h2 := set_succ h1 bp 0
    if listp ≠ 0 then
      let h3 := set_succ h2 bp listp
      let h4 := set_pred h3 listp bp
      binSet h4 index bp
    else binSet h2 index bp
  else
    let head := binGet h 0
    let h1 := set_succ h bp head
    binSet h1 0 bp

/-- Loop body of bst_insert: descend from x, remembering the last visited
node in y. -/
def bst_insert_loop (bp size : Nat) : Heap → Nat → Nat → Nat → Heap
  | h, 0, _, _ => h
  | h, _ + 1, 0, y =>
    if y = 0 then binSet h (LISTNUM - 1) bp
    else if size < get_size h y then
      let h1 := set_left h y bp
      set_parent h1 bp y
    else
      let h1 := set_right h y bp
      set_parent h1 bp y
  | h, fuel + 1, x, _ =>
    let curr := get_size h x
    if size = curr then
      let l := get_left h x
      let r := get_right h x
      let p := get_parent h x
      let h1 := set_succ h bp x
      let h2 := set_pred h1 x bp
      let h3 := set_left h2 bp l
      let h4 := if l ≠ 0 then set_parent h3 l bp else h3
      let h5 := set_right h4 bp r
      let h6 := if r ≠ 0 then set_parent h5 r bp else h5
      let h7 := set_parent h6 bp p
      let h8 := replace_child h7 p x bp
      let h9 := set_parent h8 x 0
      let h10 := set_left h9 x 0
      set_right h10 x 0
    else if size < curr then bst_insert_loop bp size h fuel (get_left h x) x
    else bst_insert_loop bp size h fuel (get_right h x) x

/-- bst_insert(bp): insert a large free block into the BST. -/
def bst_insert (h : Heap) (bp : Nat) : Heap :=
  let size := get_size h bp
  let h1 := set_succ h bp 0
  let h2 := set_pred h1 bp 0
  let h3 := set_parent h2 bp 0
  let h4 := set_left h3 bp 0
  let h5 := set_right h4 bp 0
  bst_insert_loop bp size h5 (h5.blocks.length + 1) (binGet h5 (LISTNUM - 1)) 0

/-- Walk of the singly linked bin 0 performed by delete_free for index 0. -/
def delete_free0_loop (bp : Nat) : Heap → Nat → Nat → Nat → Heap
  | h, 0, _, _ => h
  | h, fuel + 1, head, prev =>
    if head = bp then
      if prev = 0 then binSet h 0 (get_succ h head)
      else set_succ h prev (get_succ h bp)
    else delete_free0_loop bp h fuel (get_succ h head) head

/-- delete_free(bp, index): remove a small free block from its list. -/
def delete_free (h : Heap) (bp : Nat) (index : Nat) : Heap :=
  if 0 < index then
    let listp := binGet h index
    let pred := get_pred h bp
    let succ := get_succ h bp
    let listp' := if pred = 0 then succ else listp
    let h1 := if pred ≠ 0 then set_succ h pred succ else h
    let h2 := if succ ≠ 0 then set_pred h1 succ pred else h1
    let h3 := set_pred h2 bp 0
    let h4 := set_succ h3 bp 0
    binSet h4 index listp'
  else delete_free0_loop bp h (h.blocks.length + 1) (binGet h 0) 0

/-- tree_minimum(node): follow left children. -/
def tree_minimum_loop (h : Heap) : Nat → Nat → Nat
  | 0, n => n
  | fuel + 1, n => if get_left h n ≠ 0 then tree_minimum_loop h fuel (get_left h n) else n

/-- bst_delete(bp): remove a large free block from the BST. -/
def bst_delete (h : Heap) (bp : Nat) : Heap :=
  if get_pred h bp = 0 then
    let next := get_succ h bp
    if next ≠ 0 then
      let l := get_left h bp
      let r := get_right h bp
      let p := get_parent h bp
      let h1 := set_pred h next 0
      let h2 := set_left h1 next l
      let h3 := if l ≠ 0 then set_parent h2 l next else h2
      let h4 := set_right h3 next r
      let h5 := if r ≠ 0 then set_parent h4 r next else h4
      let h6 := set_parent h5 next p
      replace_child h6 p bp next
    else
      let l := get_left h bp
      let r := get_right h bp
      let p := get_parent h bp
      if l ≠ 0 ∧ r ≠ 0 then
        let minimum := tree_minimum_loop h (h.blocks.length + 1) r
        if minimum = r then
          let h1 := set_left h r l
          let h2 := set_parent h1 l r
          let h3 := set_parent h2 r p
          replace_child h3 p bp r
        else
          let mr := get_right h minimum
          let mp := get_parent h minimum
          let h1 := if mr ≠ 0 then set_parent h mr mp else h
          let h2 := replace_child h1 mp minimum mr
          let h3 := set_left h2 minimum l
          let h4 := set_parent h3 l minimum
          let h5 := set_right h4 minimum r
          let h6 := set_parent h5 r minimum
          let h7 := set_parent h6 minimum p
          replace_child h7 p bp minimum
      else if l = 0 ∧ r ≠ 0 then
        let h1 := set_parent h r p
        replace_child h1 p bp r
      else if l ≠ 0 ∧ r = 0 then
        let h1 := set_parent h l p
        replace_child h1 p bp l
      else
        if p ≠ 0 then replace_child h p bp 0
        else binSet h (LISTNUM - 1) 0
  else
    let h1 := set_succ h (get_pred h bp) (get_succ h bp)
    if get_succ h bp ≠ 0 then set_pred h1 (get_succ h bp) (get_pred h bp) else h1

/-- insert_free_lists(bp): dispatch on the size class and then clear the
prev_alloc bit (and set the prev_small bit) in the header of the next
physical block. -/
def insert_free_lists (h : Heap) (bp : Nat) : Heap :=
  let size := get_size h bp
  let index := get_index size
  let h1 := if index < LISTNUM - 1 then insert_free h bp index else bst_insert h bp
  let nextA := next_blkp h1 bp
  let ps : Bool := decide (get_size h1 bp ≤ MIN_SIZE)
  updAt h1 nextA fun b => { b with prevAlloc := false, prevSmall := ps }

/-- delete_free_lists(bp): dispatch on the size class and then set the
prev_alloc bit (and the prev_small bit) in the header of the next physical
block. -/
def delete_free_lists (h : Heap) (bp : Nat) : Heap :=
  let size := get_size h bp
  let index := get_index size
  let h1 := if index < LISTNUM - 1 then delete_free h bp index else bst_delete h bp
  let nextA := next_blkp h1 bp
  let ps : Bool := decide (get_size h1 bp ≤ MIN_SIZE)
  updAt h1 nextA fun b => { b with prevAlloc := true, prevSmall := ps }

/-- Model of the header write put(hdrp(bp), pack(newSize, 0, ., .)) where
newSize spans this block and the next one: the two list entries are
replaced by a single free block keeping the prev bits of the first and the
last payload word of the second. -/
def merge_with_next (h : Heap) (a : Nat) (newSize : Nat) : Heap :=
  match resolve h a with
  | some i =>
    let b := h.blocks.getD i default
    let c := h.blocks.getD (i + 1) default
    { h with blocks := h.blocks.take i ++
        ({ b with size := newSize, alloc := false, ftr := lastWord c } :: h.blocks.drop (i + 2)) }
  | none => h

/-- Model of a header write spanning this block and the next two. -/
def merge_with_next2 (h : Heap) (a : Nat) (newSize : Nat) : Heap :=
  match resolve h a with
  | some i =>
    let b := h.blocks.getD i default
    let c := h.blocks.getD (i + 2) default
    { h with blocks := h.blocks.take i ++
        ({ b with size := newSize, alloc := false, ftr := lastWord c } :: h.blocks.drop (i + 3)) }
  | none => h

/-- coalesce(bp) of 2mm-myseg.c: merge the block with its free physical
neighbours; in the merging cases the merged block is reinserted into the
free lists.  Returns the pointer to the coalesced block and the new heap.
In the fourth case the C code recomputes prev_blkp(bp), which lands on the
previously computed prev address (the stale header of the absorbed block
still describes the old predecessor); the model uses that address
directly. -/
def coalesce (h : Heap) (bp : Nat) : Nat × Heap :=
  let prev_alloc := get_prev_alloc h bp
  let next_alloc := get_alloc h (next_blkp h bp)
  let size := get_size h bp
  if prev_alloc && next_alloc then (bp, h)
  else if prev_alloc && !next_alloc then
    let h1 := delete_free_lists h bp
    let h2 := delete_free_lists h1 (next_blkp h1 bp)
    let size2 := size + get_size h2 (next_blkp h2 bp)
    let h3 := merge_with_next h2 bp size2
    let h4 := put_ftr h3 bp size2
    (bp, insert_free_lists h4 bp)
  else if !prev_alloc && next_alloc then
    let prev := prev_blkp h bp
    let h1 := delete_free_lists h bp
    let h2 := delete_free_lists h1 prev
    let size2 := size + get_size h2 prev
    let h3 := merge_with_next h2 prev size2
    let h4 := put_ftr h3 prev size2
    (prev, insert_free_lists h4 prev)
  else
    let prev := prev_blkp h bp
    let h1 := delete_free_lists h bp
    let h2 := delete_free_lists h1 prev
    let h3 := delete_free_lists h2 (next_blkp h2 bp)
    let size2 := size + get_size h3 prev + get_size h3 (next_blkp h3 bp)
    let h4 := merge_with_next2 h3 prev size2
    let h5 := put_ftr h4 prev size2
    (prev, insert_free_lists h5 prev)

/-- place(bp, asize): allocate asize bytes at the free block bp, splitting
off the remainder when it is at least MIN_SIZE.  In the split case the
residual block keeps the raw footer word of the original block in its
footer slot until the explicit footer write; the link words of the
residual start out unconstrained (the C leaves stale payload bytes there)
and are modelled as 0 since every path initialises them before reading. -/
def place (h : Heap) (bp : Nat) (asize0 : Nat) : Heap :=
  let free_size := get_size h bp
  let remain := free_size - asize0
  let asize := if remain < MIN_SIZE then free_size else asize0
  let h1 := delete_free_lists h bp
  if remain ≥ MIN_SIZE then
    match resolve h1 bp with
    | some i =>
      let b := h1.blocks.getD i default
      let ab : Blk := { b with size := asize, alloc := true }
      let rb : Blk := { size := remain, alloc := false, prevAlloc := true,
                        prevSmall := decide (asize ≤ MIN_SIZE), ftr := b.ftr }
      let h2 : Heap := { h1 with blocks := h1.blocks.take i ++ (ab :: rb :: h1.blocks.drop (i + 1)) }
      let nextA := bp + asize
      let h3 := if remain > MIN_SIZE then put_ftr h2 nextA remain else h2
      insert_free_lists h3 nextA
    | none => h1
  else
    updAt h1 bp fun b => { b with alloc := true }

/-- Inner loop of find_fit: scan one free list, returning an exact fit
immediately and otherwise tracking the best (smallest) fitting block. -/
def find_fit_chain (h : Heap) (asize : Nat) :
    Nat → Nat → Option (Nat × Nat) → Sum Nat (Option (Nat × Nat))
  | 0, _, best => .inr best
  | fuel + 1, bp, best =>
    if bp = 0 then .inr best
    else
      let s := get_size h bp
      if s ≥ asize then
        if s = asize then .inl bp
        else
          let best' :=
            match best with
            | none => some (bp, s)
            | some (b, m) => if s < m then (bp, s) else (b, m)
          find_fit_chain h asize fuel (get_succ h bp) best'
      else find_fit_chain h asize fuel (get_succ h bp) best

/-- bst_search(node, size): best-fit descent of the BST. -/
def bst_search (h : Heap) (asize : Nat) : Nat → Nat → Option Nat
  | 0, _ => none
  | fuel + 1, node =>
    if node = 0 then none
    else
      let cur := get_size h node
      if asize = cur then some node
      else if asize < cur then
        match bst_search h asize fuel (get_left h node) with
        | some f => some f
        | none => some node
      else bst_search h asize fuel (get_right h node)

/-- Outer loop of find_fit over the segregated bins. -/
def find_fit_loop (h : Heap) (asize : Nat) : Nat → Nat → Option Nat
  | 0, _ => bst_search h asize (h.blocks.length + 1) (binGet h (LISTNUM - 1))
  | fuel + 1, index =>
    if index < LISTNUM - 1 then
      match find_fit_chain h asize (h.blocks.length + 1) (binGet h index) none with
      | .inl bp => some bp
      | .inr (some bs) => some bs.1
      | .inr none => find_fit_loop h asize fuel (index + 1)
    else bst_search h asize (h.blocks.length + 1) (binGet h (LISTNUM - 1))

/-- find_fit(asize) of 2mm-myseg.c. -/
def find_fit (h : Heap) (asize : Nat) : Option Nat :=
  find_fit_loop h asize LISTNUM (get_index asize)

/-- extend_heap(words): grow the heap, turning the old epilogue into a
free block and writing a new epilogue, then insert and coalesce.  Returns
none when mem_sbrk fails. -/
def extend_heap (h : Heap) (words : Nat) : Option (Nat × Heap) :=
  let size := if words % 2 = 1 then (words + 1) * WSIZE else words * WSIZE
  if !h.sbrkOk then none
  else
    let bp := heapEnd h
    let epi := h.blocks.getLast?.getD default
    let nf0 : Blk := { size := size, alloc := false,
                       prevAlloc := epi.prevAlloc, prevSmall := epi.prevSmall }
    let ps : Bool := decide (¬ size > MIN_SIZE)
    let nf := if size > MIN_SIZE then { nf0 with ftr := size } else nf0
    let nepi : Blk := { size := 0, alloc := true, prevAlloc := false, prevSmall := ps }
    let h2 : Heap := { h with blocks := h.blocks.dropLast ++ [nf, nepi] }
    let h3 := insert_free_lists h2 bp
    some (coalesce h3 bp)

/-- malloc(size) of 2mm-myseg.c.  Returns the payload pointer (none for
NULL) and the new heap. -/
def malloc (h : Heap) (size : Nat) : Option Nat × Heap :=
  if size = 0 then (none, h)
  else
    let asize := if size ≤ HWSIZE then MIN_SIZE
                 else WSIZE * ((size + HWSIZE + (WSIZE - 1)) / WSIZE)
    match find_fit h asize with
    | some bp => (some bp, place h bp asize)
    | none =>
      let extendsize := max asize CHUNKSIZE
      match extend_heap h (extendsize / WSIZE) with
      | none => (none, h)
      | some (bp, h2) => (some bp, place h2 bp asize)

/-- Result of an operation that may terminate the process: 2mm-myseg.c
free prints a diagnostic and calls exit(1) on a non-NULL pointer outside
the heap. -/
inductive Outcome where
  | ok (h : Heap)
  | exited
deriving Repr, DecidableEq

/-- free(ptr) of 2mm-myseg.c: NULL is ignored, a pointer outside the heap
terminates the process, otherwise the header is rewritten as free (the
prev bits are preserved), a footer is written when the size exceeds
MIN_SIZE, and the block is inserted and coalesced.  The alloc bit of the
target header is never consulted. -/
def free (h : Heap) (ptr : Nat) : Outcome :=
  if ptr = 0 then .ok h
  else if !in_heap h ptr then .exited
  else
    let size := get_size h ptr
    let h1 := updAt h ptr fun b => { b with alloc := false }
    let h2 := if get_size h1 ptr > MIN_SIZE then put_ftr h1 ptr size else h1
    let h3 := insert_free_lists h2 ptr
    .ok (coalesce h3 ptr).2

/-- realloc(oldptr, size) of 2mm-myseg.c: always allocates a fresh block,
copies the data (payload bytes are not tracked by the model) and frees the
old block; there is no in-place path. -/
def realloc (h : Heap) (oldptr : Nat) (size : Nat) : Option Nat × Outcome :=
  if size = 0 then (none, free h oldptr)
  else if oldptr = 0 then
    let r := malloc h size
    (r.1, .ok r.2)
  else
    let r := malloc h size
    match r.1 with
    | none => (none, .ok h)
    | some np => (some np, free r.2 oldptr)

/-- Result of calloc: the returned pointer, the heap, and whether the
unconditional memset wrote through a NULL pointer (which happens exactly
when malloc failed and the byte count is non-zero). -/
structure CallocResult where
  res : Option Nat
  heap : Heap
  wroteNull : Bool
deriving Repr, DecidableEq

/-- calloc(nmemb, size) of 2mm-myseg.c: malloc followed by an
unconditional memset of the returned pointer. -/
def calloc (h : Heap) (nmemb size : Nat) : CallocResult :=
  let bytes := nmemb * size
  let r := malloc h bytes
  { res := r.1, heap := r.2, wroteNull := r.1.isNone && decide (bytes ≠ 0) }

/-- Heap right after the sbrk and header writes of mm_init, before the
initial extend_heap: prologue (size 8, allocated; its footer word
pack(8,1,1,0) = 11 sits in the slot shared with succ) and epilogue with
prev_alloc = 1, prev_small = 1. -/
def init0 : Heap :=
  { blocks := [{ size := 8, alloc := true, prevAlloc := true, prevSmall := false, succ := 11 },
               { size := 0, alloc := true, prevAlloc := true, prevSmall := true }],
    freeLists := [0, 0, 0, 0, 0],
    sbrkOk := true }

/-- mm_init of 2mm-myseg.c: set up prologue and epilogue and extend the
heap by CHUNKSIZE bytes. -/
def mm_init : Option Heap :=
  (extend_heap init0 (CHUNKSIZE / WSIZE)).map (·.2)

end Seg

/-! ## Model of src/malloclab/mm.c -/

namespace MM

/-- Basic constants of mm.c (lines 169-177). -/
def HWSIZE : Nat := 4

/-- Word size in bytes. -/
def WSIZE : Nat := 8

/-- Double word size in bytes. -/
def DSIZE : Nat := 16

/-- Extend heap by this amount of bytes. -/
def CHUNK_SIZE : Nat := 64

/-- Minimum block size in bytes (mm.c line 173). -/
def MIN_SIZE : Nat := 16

/-- Number of segregated list bins. -/
def BIN_SIZE : Nat := 5

/-- Threshold between seg-list and BST (mm.c line 175). -/
def THRESHOLD : Nat := 40

/-- One mm.c heap block.  mm.c has no prev_small bit; free blocks always
carry a footer.  ftr is the raw word in the footer slot; succ/pred are
the 4-byte offsets at payload offsets 0 and 4, left/right/parent the
8-byte pointers at offsets 8, 16, 24.  The prologue (size 8) stores its
footer word in its single payload word; the model keeps it in ftr, which
is sound because that word is only ever read as a footer. -/
structure Blk where
  size : Nat := 0
  alloc : Bool := false
  prevAlloc : Bool := false
  ftr : Nat := 0
  succ : Nat := 0
  pred : Nat := 0
  left : Nat := 0
  right : Nat := 0
  parent : Nat := 0
deriving Repr, DecidableEq, Inhabited

/-- mm.c allocator state: blocks in address order (prologue first,
epilogue last), the bins_offset array, the BST root pointer and the
mem_sbrk success flag. -/
structure Heap where
  blocks : List Blk
  bins : List Nat
  root : Nat := 0
  sbrkOk : Bool := true
deriving Repr, DecidableEq

/-- Payload address of the prologue: mm_init places the bins array (5
words of 4 bytes) before the prologue header at byte 20, so the prologue
payload is at byte 24. -/
def baseBp : Nat := 24

/-- Resolve a payload address to a block index. -/
def resolveFrom : List Blk → Nat → Nat → Option Nat
  | [], _, _ => none
  | b :: bs, cur, a =>
    if a = cur then some 0
    else
      match resolveFrom bs (cur + b.size) a with
      | some i => some (i + 1)
      | none => none

/-- Resolve a payload address inside a heap. -/
def resolve (h : Heap) (a : Nat) : Option Nat := resolveFrom h.blocks baseBp a

/-- Block stored at a payload address. -/
def blkAt (h : Heap) (a : Nat) : Blk :=
  match resolve h a with
  | some i => h.blocks.getD i default
  | none => default

/-- Update the block at a payload address. -/
def updAt (h : Heap) (a : Nat) (f : Blk → Blk) : Heap :=
  match resolve h a with
  | some i => { h with blocks := h.blocks.set i (f (h.blocks.getD i default)) }
  | none => h

/-- get_size(hdrp(bp)). -/
def get_size (h : Heap) (a : Nat) : Nat := (blkAt h a).size

/-- get_alloc(hdrp(bp)). -/
def get_alloc (h : Heap) (a : Nat) : Bool := (blkAt h a).alloc

/-- get_prev_alloc(hdrp(bp)). -/
def get_prev_alloc (h : Heap) (a : Nat) : Bool := (blkAt h a).prevAlloc

/-- next_blkp(bp). -/
def next_blkp (h : Heap) (a : Nat) : Nat := a + get_size h a

/-- Size field of a raw boundary-tag word. -/
def sizebits (w : Nat) : Nat := w - w % 8

/-- Word read at bp - 8: the footer word of the physically preceding
block. -/
def wordBefore (h : Heap) (a : Nat) : Nat :=
  match resolve h a with
  | some (i + 1) => (h.blocks.getD i default).ftr
  | _ => 0

/-- prev_blkp(bp) of mm.c: always reads the footer below the header. -/
def prev_blkp (h : Heap) (a : Nat) : Nat := a - sizebits (wordBefore h a)

/-- Address one past the last heap byte (mem_heap_hi() + 1), equal to the
epilogue payload address. -/
def heapEnd (h : Heap) : Nat := baseBp + (h.blocks.map Blk.size).sum

/-- in_heap(p) of mm.c: p <= mem_heap_hi() and p >= mem_heap_lo(). -/
def in_heap (h : Heap) (p : Nat) : Bool := decide (p + 1 ≤ heapEnd h)

/-- aligned(p): 8-byte alignment check. -/
def aligned (p : Nat) : Bool := decide (p % 8 = 0)

/-- Read a bins_offset entry (offsets coincide with addresses since the
heap base is 0). -/
def binGet (h : Heap) (i : Nat) : Nat := h.bins.getD i 0

/-- Write a bins_offset entry. -/
def binSet (h : Heap) (i : Nat) (v : Nat) : Heap := { h with bins := h.bins.set i v }

/-- set_pred_offset(bp, v). -/
def set_pred (h : Heap) (a v : Nat) : Heap := updAt h a fun b => { b with pred := v }

/-- set_succ_offset(bp, v). -/
def set_succ (h : Heap) (a v : Nat) : Heap := updAt h a fun b => { b with succ := v }

/-- set_left_child(bp, v). -/
def set_left (h : Heap) (a v : Nat) : Heap := updAt h a fun b => { b with left := v }

/-- set_right_child(bp, v). -/
def set_right (h : Heap) (a v : Nat) : Heap := updAt h a fun b => { b with right := v }

/-- set_parent(bp, v). -/
def set_parent (h : Heap) (a v : Nat) : Heap := updAt h a fun b => { b with parent := v }

/-- put(ftrp(bp), v). -/
def put_ftr (h : Heap) (a v : Nat) : Heap := updAt h a fun b => { b with ftr := v }

/-- prev_free_block(bp). -/
def get_pred (h : Heap) (a : Nat) : Nat := (blkAt h a).pred

/-- next_free_block(bp). -/
def get_succ (h : Heap) (a : Nat) : Nat := (blkAt h a).succ

/-- get_left_child(bp). -/
def get_left (h : Heap) (a : Nat) : Nat := (blkAt h a).left

/-- get_right_child(bp). -/
def get_right (h : Heap) (a : Nat) : Nat := (blkAt h a).right

/-- get_parent(bp). -/
def get_parent (h : Heap) (a : Nat) : Nat := (blkAt h a).parent

/-- replace_child(parent, cur_chld, new_chld): when parent is NULL the
global root is replaced. -/
def replace_child (h : Heap) (parent cur child : Nat) : Heap :=
  if parent = 0 then { h with root := child }
  else
    if cur = get_left h parent then set_left h parent child
    else set_right h parent child

/-- insert_into_seglist(bp, size): prepend at the head of the bin (mm.c
bins are all doubly linked). -/
def insert_into_seglist (h : Heap) (bp size : Nat) : Heap :=
  let index := size / WSIZE - 1
  let listp := binGet h index
  if listp ≠ 0 then
    let h1 := set_pred h bp 0
    let h2 := set_succ h1 bp listp
    let h3 := set_pred h2 listp bp
    binSet h3 index bp
  else
    let h1 := set_pred h bp 0
    let h2 := set_succ h1 bp 0
    binSet h2 index bp

/-- Loop of insert_into_bst: descend from curr_node remembering the last
visited node in temp. -/
def insert_bst_loop (bp size : Nat) : Heap → Nat → Nat → Nat → Heap
  | h, 0, _, _ => h
  | h, _ + 1, 0, temp =>
    let h1 := set_parent h bp temp
    if size < get_size h1 temp then set_left h1 temp bp
    else set_right h1 temp bp
  | h, fuel + 1, x, _ =>
    let currSize := get_size h x
    if size < currSize then insert_bst_loop bp size h fuel (get_left h x) x
    else if size > currSize then insert_bst_loop bp size h fuel (get_right h x) x
    else
      let h1 := set_succ h bp x
      let h2 := set_pred h1 x bp
      let l := get_left h2 x
      let h3 := set_left h2 bp l
      let h4 := if l ≠ 0 then set_parent h3 l bp else h3
      let r := get_right h4 x
      let h5 := set_right h4 bp r
      let h6 := if r ≠ 0 then set_parent h5 r bp else h5
      let p := get_parent h6 x
      let h7 := set_parent h6 bp p
      let h8 := replace_child h7 p x bp
      let h9 := set_left h8 x 0
      let h10 := set_right h9 x 0
      set_parent h10 x 0

/-- insert_into_bst(bp, size). -/
def insert_into_bst (h : Heap) (bp size : Nat) : Heap :=
  let h1 := set_succ h bp 0
  let h2 := set_pred h1 bp 0
  let h3 := set_left h2 bp 0
  let h4 := set_right h3 bp 0
  let h5 := set_parent h4 bp 0
  if h5.root = 0 then { h5 with root := bp }
  else insert_bst_loop bp size h5 (h5.blocks.length + 1) h5.root 0

/-- insert_free_block(bp): dispatch on the size class. -/
def insert_free_block (h : Heap) (bp : Nat) : Heap :=
  let size := get_size h bp
  if size ≤ THRESHOLD then insert_into_seglist h bp size
  else insert_into_bst h bp size

/-- delete_from_seglist(bp, size). -/
def delete_from_seglist (h : Heap) (bp size : Nat) : Heap :=
  let index := size / WSIZE - 1
  let listp := binGet h index
  let pred := get_pred h bp
  let succ := get_succ h bp
  if pred = 0 then
    let h1 := if succ ≠ 0 then set_pred h succ 0 else h
    binSet h1 index succ
  else if succ = 0 then
    let h1 := set_succ h pred 0
    binSet h1 index listp
  else
    let h1 := set_succ h pred succ
    let h2 := set_pred h1 succ pred
    binSet h2 index listp

/-- Walk used by delete_from_bst to find the minimum of the right
subtree, remembering the parent of the minimum in temp. -/
def bst_min_loop (h : Heap) : Nat → Nat → Nat → Nat × Nat
  | 0, n, temp => (n, temp)
  | fuel + 1, n, temp =>
    if get_left h n ≠ 0 then bst_min_loop h fuel (get_left h n) n
    else (n, temp)

/-- delete_from_bst(bp). -/
def delete_from_bst (h : Heap) (bp : Nat) : Heap :=
  let pred := get_pred h bp
  let succ := get_succ h bp
  if pred ≠ 0 then
    let h1 := set_succ h pred succ
    if succ ≠ 0 then set_pred h1 succ pred else h1
  else
    let l := get_left h bp
    let r := get_right h bp
    let p := get_parent h bp
    if succ ≠ 0 then
      let h1 := set_pred h succ 0
      let h2 := set_left h1 succ l
      let h3 := if l ≠ 0 then set_parent h2 l succ else h2
      let h4 := set_right h3 succ r
      let h5 := if r ≠ 0 then set_parent h4 r succ else h4
      let h6 := set_parent h5 succ p
      replace_child h6 p bp succ
    else
      if l = 0 ∧ r = 0 then
        if p = 0 then { h with root := 0 }
        else replace_child h p bp 0
      else if l = 0 ∧ r ≠ 0 then
        let h1 := set_parent h r p
        replace_child h1 p bp r
      else if l ≠ 0 ∧ r = 0 then
        let h1 := set_parent h l p
        replace_child h1 p bp l
      else
        if get_left h r = 0 then
          let h1 := set_left h r l
          let h2 := set_parent h1 l r
          let h3 := set_parent h2 r p
          replace_child h3 p bp r
        else
          let mt := bst_min_loop h (h.blocks.length + 1) r r
          let m := mt.1
          let temp := mt.2
          let mr := get_right h m
          let h1 := set_left h temp mr
          let h2 := if mr ≠ 0 then set_parent h1 mr temp else h1
          let h3 := set_left h2 m l
          let h4 := set_right h3 m r
          let h5 := set_parent h4 m p
          let h6 := set_parent h5 l m
          let h7 := set_parent h6 r m
          replace_child h7 p bp m

/-- delete_free_block(bp). -/
def delete_free_block (h : Heap) (bp : Nat) : Heap :=
  let size := get_size h bp
  if size ≤ THRESHOLD then delete_from_seglist h bp size
  else delete_from_bst h bp

/-- Merge of the block at a with the following block, modelling the
header write put(hdrp(a), pack(newSize, alloc)); pack of mm.c clears the
prev-alloc bit.  The merged block keeps the raw word of the swallowed
block in its footer slot. -/
def merge_with_next (h : Heap) (a : Nat) (newSize : Nat) (alloc : Bool) : Heap :=
  match resolve h a with
  | some i =>
    let b := h.blocks.getD i default
    let c := h.blocks.getD (i + 1) default
    { h with blocks := h.blocks.take i ++
        ({ b with size := newSize, alloc := alloc, prevAlloc := false, ftr := c.ftr }
          :: h.blocks.drop (i + 2)) }
  | none => h

/-- Merge of the block at a with the following two blocks. -/
def merge_with_next2 (h : Heap) (a : Nat) (newSize : Nat) : Heap :=
  match resolve h a with
  | some i =>
    let b := h.blocks.getD i default
    let c := h.blocks.getD (i + 2) default
    { h with blocks := h.blocks.take i ++
        ({ b with size := newSize, alloc := false, prevAlloc := false, ftr := c.ftr }
          :: h.blocks.drop (i + 3)) }
  | none => h

/-- set_prev_alloc(hdrp(bp), v). -/
def set_prev_alloc (h : Heap) (a : Nat) (v : Bool) : Heap :=
  updAt h a fun b => { b with prevAlloc := v }

/-- coalesce(bp) of mm.c.  In case 3 the merged footer is written through
ftrp(bp) before the header of prev is enlarged, and in case 4 through
ftrp(next); the model performs these footer writes on the still separate
blocks and then merges, which produces the same final words. -/
def coalesce (h : Heap) (bp : Nat) : Nat × Heap :=
  let prev := prev_blkp h bp
  let next := next_blkp h bp
  let prev_alloc := get_prev_alloc h bp
  let next_alloc := get_alloc h next
  let size := get_size h bp
  if prev_alloc && next_alloc then
    (bp, set_prev_alloc h next false)
  else if prev_alloc && !next_alloc then
    let h1 := delete_free_block h next
    let size2 := size + get_size h1 next
    let h2 := merge_with_next h1 bp size2 false
    let h3 := put_ftr h2 bp size2
    (bp, set_prev_alloc h3 bp true)
  else if !prev_alloc && next_alloc then
    let h1 := delete_free_block h prev
    let size2 := size + get_size h1 prev
    let h2 := put_ftr h1 bp size2
    let h3 := merge_with_next h2 prev size2 false
    (prev, set_prev_alloc h3 prev true)
  else
    let h1 := delete_free_block h next
    let h2 := delete_free_block h1 prev
    let size2 := size + get_size h2 prev + sizebits (blkAt h2 next).ftr
    let h3 := put_ftr h2 next size2
    let h4 := merge_with_next2 h3 prev size2
    (prev, set_prev_alloc h4 prev true)

/-- extend_heap(hwords) of mm.c. -/
def extend_heap (h : Heap) (hwords : Nat) : Option (Nat × Heap) :=
  let size := if hwords % 2 = 1 then (hwords + 1) * HWSIZE else hwords * HWSIZE
  if !h.sbrkOk then none
  else
    let bp := heapEnd h
    let epi := h.blocks.getLast?.getD default
    let nf : Blk := { size := size, alloc := false, prevAlloc := epi.prevAlloc, ftr := size }
    let nepi : Blk := { size := 0, alloc := true, prevAlloc := false }
    let h2 : Heap := { h with blocks := h.blocks.dropLast ++ [nf, nepi] }
    let r := coalesce h2 bp
    some (r.1, insert_free_block r.2 r.1)

/-- place(bp, asize) of mm.c: the free block is removed from the index
(unless place is called on an allocated block from realloc), an allocated
header and footer are written, and a remainder of at least MIN_SIZE is
split off as a new free block, otherwise the successor prev-alloc bit is
set. -/
def place (h : Heap) (bp : Nat) (asize : Nat) : Heap :=
  let free_size := get_size h bp
  let remaining := free_size - asize
  let is_realloc := get_alloc h bp
  let prev_alloc := get_prev_alloc h bp
  let h1 := if !is_realloc then delete_free_block h bp else h
  if remaining ≥ MIN_SIZE then
    match resolve h1 bp with
    | some i =>
      let b := h1.blocks.getD i default
      let ab : Blk :=
        { b with size := asize, alloc := true, prevAlloc := prev_alloc, ftr := asize + 1 }
      let rb : Blk :=
        { size := remaining, alloc := false, prevAlloc := true, ftr := remaining }
      let h2 : Heap := { h1 with blocks := h1.blocks.take i ++ (ab :: rb :: h1.blocks.drop (i + 1)) }
      insert_free_block h2 (bp + asize)
    | none => h1
  else
    let h2 := updAt h1 bp fun b =>
      { b with alloc := true, prevAlloc := prev_alloc, ftr := free_size + 1 }
    set_prev_alloc h2 (next_blkp h2 bp) true

/-- bst_search(node, size) of mm.c: best-fit descent. -/
def bst_search (h : Heap) (asize : Nat) : Nat → Nat → Option Nat
  | 0, _ => none
  | fuel + 1, node =>
    if node = 0 then none
    else
      let cur := get_size h node
      if asize = cur then some node
      else if asize < cur then
        match bst_search h asize fuel (get_left h node) with
        | some f => some f
        | none => some node
      else bst_search h asize fuel (get_right h node)

/-- find_fit(asize) of mm.c: for asize below THRESHOLD only the bin of
that exact size class is consulted, then the BST. -/
def find_fit (h : Heap) (asize : Nat) : Option Nat :=
  if asize < THRESHOLD then
    let index := asize / WSIZE - 1
    let listp := binGet h index
    if listp ≠ 0 then some listp
    else bst_search h asize (h.blocks.length + 1) h.root
  else bst_search h asize (h.blocks.length + 1) h.root

/-- malloc(size) of mm.c. -/
def malloc (h : Heap) (size : Nat) : Option Nat × Heap :=
  if size = 0 then (none, h)
  else
    let asize := if size ≤ WSIZE then MIN_SIZE
                 else WSIZE * ((size + HWSIZE + (WSIZE - 1)) / WSIZE)
    match find_fit h asize with
    | some bp => (some bp, place h bp asize)
    | none =>
      let extend_size := max asize CHUNK_SIZE
      match extend_heap h (extend_size / HWSIZE) with
      | none => (none, h)
      | some (bp, h2) => (some bp, place h2 bp asize)

/-- free(ptr) of mm.c: NULL, out-of-heap and misaligned pointers are
silently ignored; otherwise the header and footer are rewritten as free
(the prev-alloc bit is saved and restored around the header write), the
successor prev-alloc bit is cleared, and the block is coalesced and
inserted.  The alloc bit of the target is never consulted. -/
def free (h : Heap) (ptr : Nat) : Heap :=
  if ptr = 0 || !in_heap h ptr || !aligned ptr then h
  else
    let size := get_size h ptr
    let prev_alloc := get_prev_alloc h ptr
    let h1 := updAt h ptr fun b => { b with alloc := false, prevAlloc := false }
    let h2 := put_ftr h1 ptr size
    let h3 := set_prev_alloc h2 ptr prev_alloc
    let h4 := set_prev_alloc h3 (next_blkp h3 ptr) false
    let r := coalesce h4 ptr
    insert_free_block r.2 r.1

/-- realloc(oldptr, size) of mm.c: free for size 0, malloc for NULL, the
old block itself when the adjusted size fits, in-place absorption of a
free successor when possible, otherwise malloc plus copy plus free. -/
def realloc (h : Heap) (oldptr : Nat) (size : Nat) : Option Nat × Heap :=
  if size = 0 then (none, free h oldptr)
  else if oldptr = 0 then malloc h size
  else
    let old_size := get_size h oldptr
    let asize := if size < WSIZE then MIN_SIZE
                 else WSIZE * ((size + HWSIZE + (WSIZE - 1)) / WSIZE)
    if asize ≤ old_size then (some oldptr, h)
    else
      let tryInPlace :=
        !get_alloc h (next_blkp h oldptr) &&
        decide (asize < get_size h (next_blkp h oldptr) + old_size)
      if tryInPlace then
        let new_size := get_size h (next_blkp h oldptr) + old_size
        let prev_alloc := get_prev_alloc h oldptr
        let h1 := delete_free_block h (next_blkp h oldptr)
        let h2 := merge_with_next h1 oldptr new_size true
        let h3 := put_ftr h2 oldptr (new_size + 1)
        let h4 := set_prev_alloc h3 oldptr prev_alloc
        (some oldptr, place h4 oldptr asize)
      else
        let r := malloc h size
        match r.1 with
        | none => (none, h)
        | some np => (some np, free r.2 oldptr)

/-- Result of mm.c calloc, recording whether the unconditional memset
wrote through a NULL pointer. -/
structure CallocResult where
  res : Option Nat
  heap : Heap
  wroteNull : Bool
deriving Repr, DecidableEq

/-- calloc(nmemb, size) of mm.c: malloc followed by an unconditional
memset of the returned pointer. -/
def calloc (h : Heap) (nmemb size : Nat) : CallocResult :=
  let bytes := nmemb * size
  let r := malloc h bytes
  { res := r.1, heap := r.2, wroteNull := r.1.isNone && decide (bytes ≠ 0) }

/-- Heap produced by mm_init of mm.c: prologue (size 8, allocated, footer
word pack(8,1) = 9) and epilogue with prev_alloc set; mm.c performs no
initial heap extension. -/
def mm_init : Heap :=
  { blocks := [{ size := 8, alloc := true, prevAlloc := false, ftr := 9 },
               { size := 0, alloc := true, prevAlloc := true }],
    bins := [0, 0, 0, 0, 0],
    root := 0,
    sbrkOk := true }

end MM

/-! ## Header projection and heap invariants for the 2mm-myseg.c model -/

namespace Seg

/-- Header data of a block: the four header fields together with the raw
footer word.  Free-list link words are not part of the header data. -/
structure Hdr where
  size : Nat
  alloc : Bool
  prevAlloc : Bool
  prevSmall : Bool
  ftr : Nat
deriving Repr, DecidableEq, Inhabited

/-- Header data of a block. -/
def hdrOf (b : Blk) : Hdr :=
  { size := b.size, alloc := b.alloc, prevAlloc := b.prevAlloc,
    prevSmall := b.prevSmall, ftr := b.ftr }

/-- Header projection of a heap. -/
def hproj (h : Heap) : List Hdr := h.blocks.map hdrOf

/-- Raw header word of a block: size plus alloc, prev-alloc and
prev-small bits. -/
def hdrWord (b : Blk) : Nat :=
  b.size + (if b.alloc then 1 else 0) + (if b.prevAlloc then 2 else 0) +
    (if b.prevSmall then 4 else 0)

/-- The prologue block as written by mm_init: size 8, allocated.  Only
these header facts are part of the invariant; the payload word (holding
the prologue footer) is never rewritten. -/
def proOk (b : Blk) : Prop := b.size = 8 ∧ b.alloc = true

/-- Size wellformedness of a real block: at least MIN_SIZE and a
multiple of 8. -/
def okSize (b : Blk) : Prop := 8 ≤ b.size ∧ b.size % 8 = 0

/-- Footer wellformedness: a free block larger than MIN_SIZE stores
pack(size, 0, 0, 0) = size in its footer slot. -/
def ftrOk (b : Blk) : Prop := b.alloc = false → 8 < b.size → b.ftr = b.size

/-- Boundary-tag relation between physically adjacent blocks: the
prev-alloc bit mirrors the alloc bit of the predecessor, the prev-small
bit records whether the predecessor has the minimum size, and two
adjacent blocks are never both free. -/
def adjOk (b c : Blk) : Prop :=
  c.prevAlloc = b.alloc ∧ c.prevSmall = decide (b.size = 8) ∧
    (b.alloc = true ∨ c.alloc = true)

/-- Real (non-sentinel) blocks of a heap. -/
def midB (h : Heap) : List Blk := (h.blocks.drop 1).dropLast

/-- Epilogue block of a heap. -/
def epiB (h : Heap) : Blk := h.blocks.getLast?.getD default

/-- Heap invariant of the 2mm-myseg.c allocator: prologue and epilogue
sentinels bracket real blocks of wellformed sizes with wellformed
footers, the boundary-tag relation holds between all adjacent blocks,
and the free_lists array has its five entries. -/
def Wf (h : Heap) : Prop :=
  proOk (h.blocks.headD default) ∧
  2 ≤ h.blocks.length ∧
  (epiB h).size = 0 ∧ (epiB h).alloc = true ∧
  (∀ b ∈ midB h, okSize b ∧ ftrOk b) ∧
  h.blocks.Chain' adjOk ∧
  h.freeLists.length = 5

instance decAdjOk (b c : Blk) : Decidable (adjOk b c) := by unfold adjOk; infer_instance

instance decProOk (b : Blk) : Decidable (proOk b) := by unfold proOk; infer_instance

instance decOkSize (b : Blk) : Decidable (okSize b) := by unfold okSize; infer_instance

instance decFtrOk (b : Blk) : Decidable (ftrOk b) := by unfold ftrOk; infer_instance

instance decWf (h : Heap) : Decidable (Wf h) := by unfold Wf; infer_instance

/-- Whether an address resolves to a real (non-sentinel) block. -/
def isMid (h : Heap) (a : Nat) : Bool :=
  match resolve h a with
  | some i => decide (1 ≤ i) && decide (i + 1 < h.blocks.length)
  | none => false

/-- Overwrite the alloc bit of the block at an address (used to state
that free never reads it). -/
def setAlloc (h : Heap) (a : Nat) (v : Bool) : Heap :=
  updAt h a fun b => { b with alloc := v }

/-- Adjusted block size computed by malloc for a request of n bytes. -/
def adjusted (n : Nat) : Nat :=
  if n ≤ HWSIZE then MIN_SIZE else WSIZE * ((n + HWSIZE + (WSIZE - 1)) / WSIZE)

/-- Soundness of one find_fit result: whenever find_fit h asize returns
a pointer, that pointer is a real free block of size at least asize.  On
a heap whose Free Index is intact this always holds; the property is
decidable for each concrete heap and request. -/
def FitOk (h : Heap) (asize : Nat) : Prop :=
  match find_fit h asize with
  | some a => isMid h a = true ∧ get_alloc h a = false ∧ asize ≤ get_size h a
  | none => True

instance (h : Heap) (asize : Nat) : Decidable (FitOk h asize) := by
  unfold FitOk
  cases find_fit h asize <;> infer_instance

/-- Sum of the sizes of a list of blocks. -/
def sumSz (l : List Blk) : Nat := (l.map Blk.size).sum

/-- Sum of the sizes of a list of headers. -/
def sumSzH (l : List Hdr) : Nat := (l.map Hdr.size).sum

/-- Header-level effect of the trailing header update of
insert_free_lists / delete_free_lists: rewrite the prev-alloc and
prev-small bits of the header at the given resolved position (the
prev-small bit records whether the given size is at most MIN_SIZE). -/
def prevSet (e : Hdr) (al ps : Bool) : Hdr :=
  { e with prevAlloc := al, prevSmall := ps }

/-- Header of a merged free block: new size, free, raw footer-slot word
of the absorbed block (overwritten by the subsequent footer write). -/
def mergedHdr (e : Hdr) (ns w : Nat) : Hdr :=
  { e with size := ns, alloc := false, ftr := w }

/-- Header with the footer word replaced. -/
def ftrSet (e : Hdr) (v : Nat) : Hdr := { e with ftr := v }

/-- Header with the alloc bit cleared (the header rewrite of free). -/
def allocClear (e : Hdr) : Hdr := { e with alloc := false }

/-- Header with the alloc bit set (the no-split path of place). -/
def allocMark (e : Hdr) : Hdr := { e with alloc := true }

/-- Header of the allocated part of a split block (place). -/
def sizedAlloc (e : Hdr) (ns : Nat) : Hdr := { e with size := ns, alloc := true }

/-- Header of the residual free block created by place: fresh header
with prev-alloc set (the block before it was just allocated), prev-small
recording whether the allocated part has the minimum size, and the raw
footer-slot word inherited from the split block. -/
def remHdr (r : Nat) (ps : Bool) (w : Nat) : Hdr :=
  { size := r, alloc := false, prevAlloc := true, prevSmall := ps, ftr := w }

/-- Header of the new free block written by extend_heap: it inherits the
prev bits of the old epilogue and (for the sizes extend_heap produces,
always above MIN_SIZE) carries a footer equal to its size. -/
def extHdr (e : Hdr) (sz : Nat) : Hdr :=
  { size := sz, alloc := false, prevAlloc := e.prevAlloc,
    prevSmall := e.prevSmall, ftr := sz }

/-- The fresh epilogue header written by extend_heap. -/
def epiHdr (ps : Bool) : Hdr :=
  { size := 0, alloc := true, prevAlloc := false, prevSmall := ps, ftr := 0 }

/-- The heap right after the sbrk of extend_heap (for the case
sz > MIN_SIZE, which holds for every size extend_heap requests): the old
epilogue is replaced by the new free block (with footer) and a fresh
epilogue. -/
def extended (h : Heap) (sz : Nat) : Heap :=
  { h with blocks := h.blocks.dropLast ++
      [{ size := sz, alloc := false,
         prevAlloc := (h.blocks.getLast?.getD default).prevAlloc,
         prevSmall := (h.blocks.getLast?.getD default).prevSmall, ftr := sz },
       { size := 0, alloc := true, prevAlloc := false,
         prevSmall := decide (¬ sz > MIN_SIZE) }] }

def prevUpd (l : List Hdr) (oi : Option Nat) (al : Bool) (sz : Nat) : List Hdr :=
  match oi with
  | some i => l.set i (prevSet (l.getD i default) al (decide (sz ≤ MIN_SIZE)))
  | none => l

/-- Boundary-tag bit equalities between two adjacent headers: the
prev-alloc bit of the second mirrors the alloc bit of the first, the
prev-small bit records whether the first has the minimum size. -/
def adjBitsH (b c : Hdr) : Prop :=
  c.prevAlloc = b.alloc ∧ c.prevSmall = decide (b.size = 8)

/-- Full boundary-tag relation between adjacent headers: the bit
equalities plus the no-two-adjacent-free-blocks condition. -/
def adjOkH (b c : Hdr) : Prop := adjBitsH b c ∧ (b.alloc = true ∨ c.alloc = true)

/-- Size wellformedness of a header. -/
def okSizeH (e : Hdr) : Prop := 8 ≤ e.size ∧ e.size % 8 = 0

/-- Footer wellformedness of a header. -/
def ftrOkH (e : Hdr) : Prop := e.alloc = false → 8 < e.size → e.ftr = e.size

/-- Prologue header facts. -/
def proOkH (e : Hdr) : Prop := e.size = 8 ∧ e.alloc = true

/-- Epilogue header facts. -/
def epiOkH (e : Hdr) : Prop := e.size = 0 ∧ e.alloc = true

/-- The heap invariant at the level of the header projection: prologue
and epilogue sentinels, wellformed sizes and footers of the real
blocks, and the boundary-tag relation along the whole heap. -/
def WfH (l : List Hdr) : Prop :=
  proOkH (l.headD default) ∧
  2 ≤ l.length ∧
  epiOkH (l.getLast?.getD default) ∧
  (∀ e ∈ (l.drop 1).dropLast, okSizeH e ∧ ftrOkH e) ∧
  l.Chain' adjOkH

instance decAdjBitsH (b c : Hdr) : Decidable (adjBitsH b c) := by
  unfold adjBitsH; infer_instance

instance decAdjOkH (b c : Hdr) : Decidable (adjOkH b c) := by
  unfold adjOkH; infer_instance

instance decWfH (l : List Hdr) : Decidable (WfH l) := by
  unfold WfH proOkH epiOkH okSizeH ftrOkH; infer_instance

/-- Two heaps that differ only in link words and free-list contents:
identical header projections and free-list arrays of equal length.  All
free-list and BST index operations relate a heap to their result this
way. -/
def SameHdr (h h' : Heap) : Prop :=
  hproj h' = hproj h ∧ h'.freeLists.length = h.freeLists.length

end Seg

/-! ## Adjusted size of the mm.c realloc -/

namespace MM

/-- Raw header word of an mm.c block: size plus the alloc bit (0x1, from
pack) and the prev-alloc bit (0x2, from set_prev_alloc).  mm.c never
sets any other header bit: there is no prev-small bit. -/
def hdrWord (b : Blk) : Nat :=
  b.size + (if b.alloc then 1 else 0) + (if b.prevAlloc then 2 else 0)

/-- Adjusted block size computed by realloc of mm.c for a request of n
bytes. -/
def adjustedR (n : Nat) : Nat :=
  if n < WSIZE then MIN_SIZE else WSIZE * ((n + HWSIZE + (WSIZE - 1)) / WSIZE)

/-- Overwrite the alloc bit of the block at an address (used to state
that free never reads it). -/
def setAlloc (h : Heap) (a : Nat) (v : Bool) : Heap :=
  updAt h a fun b => { b with alloc := v }

end MM

/-! ## Abstract model of the size-keyed BST of same-size lists

The BST lives in the payload words of large free blocks; for the
structural claims it is modelled as an inductive tree whose nodes carry
the block address, the chained same-size blocks (the node is the head of
that list), the size key, and the stored parent pointer.  The operations
are structural transliterations of bst_insert / bst_delete / bst_search
of 2mm-myseg.c, which are the same algorithms as insert_into_bst /
delete_from_bst / bst_search of mm.c (equal-size head splice with the
old head pushed onto the chain, deletion by right-child promotion when
the right child has no left child, otherwise promotion of the minimum
of the right subtree with the trailing-parent threading). -/

inductive BTreeT where
  | nil
  | node (l : BTreeT) (addr : Nat) (chain : List Nat) (size : Nat) (parent : Nat) (r : BTreeT)
deriving Repr, DecidableEq

namespace BTreeT

/-- Rewrite the parent pointer of the root node (set_parent on the root
of a subtree). -/
def reparent : BTreeT → Nat → BTreeT
  | .nil, _ => .nil
  | .node l a ch s _ r, p => .node l a ch s p r

/-- Sizes of the tree nodes in in-order. -/
def sizesT : BTreeT → List Nat
  | .nil => []
  | .node l _ _ s _ r => sizesT l ++ s :: sizesT r

/-- All (address, size) entries of the tree: every node contributes its
head address and its chained same-size blocks. -/
def entriesT : BTreeT → List (Nat × Nat)
  | .nil => []
  | .node l a ch s _ r => entriesT l ++ (a :: ch).map (·, s) ++ entriesT r

/-- Ordered binary search tree on sizes: left subtree strictly smaller,
right subtree strictly greater. -/
def OrderedT : BTreeT → Prop
  | .nil => True
  | .node l _ _ s _ r =>
    OrderedT l ∧ OrderedT r ∧ (∀ x ∈ sizesT l, x < s) ∧ (∀ x ∈ sizesT r, s < x)

instance decOrderedT : (t : BTreeT) → Decidable (OrderedT t)
  | .nil => isTrue trivial
  | .node l a ch s p r =>
    haveI := decOrderedT l
    haveI := decOrderedT r
    inferInstanceAs (Decidable (OrderedT l ∧ OrderedT r ∧ _ ∧ _))

/-- Every parent pointer equals the address of the parent node (the
expected parent of the root is given, 0 at the top level). -/
def ParentOkT : BTreeT → Nat → Prop
  | .nil, _ => True
  | .node l a _ _ p r, e => p = e ∧ ParentOkT l a ∧ ParentOkT r a

instance decParentOkT : (t : BTreeT) → (e : Nat) → Decidable (ParentOkT t e)
  | .nil, _ => isTrue trivial
  | .node l a ch s p r, e =>
    haveI := decParentOkT l a
    haveI := decParentOkT r a
    inferInstanceAs (Decidable (p = e ∧ ParentOkT l a ∧ ParentOkT r a))

/-- bst_insert of 2mm-myseg.c as a structural operation: descend by
size; on size equality the new block becomes the node (taking over the
tree links, the children are reparented to it) and the old head is
pushed onto the chain; on reaching a leaf position attach a fresh node
whose parent is the last visited node. -/
def bstInsertT : BTreeT → Nat → Nat → Nat → BTreeT
  | .nil, bp, size, pa => .node .nil bp [] size pa .nil
  | .node l a ch s p r, bp, size, _ =>
    if size = s then .node (reparent l bp) bp (a :: ch) s p (reparent r bp)
    else if size < s then .node (bstInsertT l bp size a) a ch s p r
    else .node l a ch s p (bstInsertT r bp size a)

/-- Splice out the minimum node of a tree, replacing it by its right
child reparented to the parent of the minimum (the temp threading of
bst_delete); returns the remaining tree and the address, chain and size
of the removed minimum. -/
def removeMinT : BTreeT → Nat → BTreeT × (Nat × List Nat × Nat)
  | .nil, _ => (.nil, (0, [], 0))
  | .node .nil a ch s _ r, pa => (reparent r pa, (a, ch, s))
  | .node l a ch s p r, _ =>
    let x := removeMinT l a
    (.node x.1 a ch s p r, x.2)

/-- bst_delete of 2mm-myseg.c as a structural operation: find the node
of the given size; a chained block is unlinked from the list; a head
with a successor is replaced by the successor (which takes over the tree
links, children reparented); a sole node is removed by the standard BST
deletion, promoting the minimum of the right subtree when both children
exist. -/
def bstRemoveT : BTreeT → Nat → Nat → BTreeT
  | .nil, _, _ => .nil
  | .node l a ch s p r, bp, size =>
    if size < s then .node (bstRemoveT l bp size) a ch s p r
    else if s < size then .node l a ch s p (bstRemoveT r bp size)
    else
      if bp ≠ a then .node l a (ch.erase bp) s p r
      else
        match ch with
        | succ :: rest => .node (reparent l succ) succ rest s p (reparent r succ)
        | [] =>
          match l, r with
          | .nil, .nil => .nil
          | .nil, .node rl ra rch rs _ rr => .node rl ra rch rs p rr
          | .node ll la lch ls _ lr, .nil => .node ll la lch ls p lr
          | .node ll la lch ls lp lr, .node .nil ra rch rs _ rr =>
            .node (reparent (.node ll la lch ls lp lr) ra) ra rch rs p rr
          | .node ll la lch ls lp lr, .node rl ra rch rs rp rr =>
            let x := removeMinT (.node rl ra rch rs rp rr) 0
            .node (reparent (.node ll la lch ls lp lr) x.2.1) x.2.1 x.2.2.1 x.2.2.2 p
              (reparent x.1 x.2.1)

/-- bst_search of 2mm-myseg.c as a structural operation: best-fit
descent, returning the address and size of the found node. -/
def bstSearchT : BTreeT → Nat → Option (Nat × Nat)
  | .nil, _ => none
  | .node l a _ s _ r, sz =>
    if sz = s then some (a, s)
    else if sz < s then
      match bstSearchT l sz with
      | some f => some f
      | none => some (a, s)
    else bstSearchT r sz

end BTreeT

/-! ## Abstract model of the 2mm-myseg.c Free Index and find_fit

The Free Index consists of the four small bins (doubly or singly linked
lists of blocks of one exact size each) and the BST.  For the best-fit
claim the bins are modelled as lists of (address, size) entries and the
tree as a BTreeT; find_fit is transliterated from 2mm-myseg.c line by
line: scan the bins from the size class of the request upwards,
returning an exact match immediately and otherwise the best block of the
first bin that fits, then search the BST. -/

namespace SegIdx

/-- The Free Index: the four small bins and the BST. -/
structure Idx where
  bins : List (List (Nat × Nat))
  tree : BTreeT
deriving Repr, DecidableEq

/-- Inner loop of find_fit: scan one list, returning an exact fit (inl)
immediately, otherwise the final best (inr). -/
def scanBin (asize : Nat) : List (Nat × Nat) → Option (Nat × Nat) →
    Sum (Nat × Nat) (Option (Nat × Nat))
  | [], best => .inr best
  | e :: rest, best =>
    if e.2 ≥ asize then
      if e.2 = asize then .inl e
      else
        match best with
        | none => scanBin asize rest (some e)
        | some b => if e.2 < b.2 then scanBin asize rest (some e) else scanBin asize rest (some b)
    else scanBin asize rest best

/-- Outer loop of find_fit over the bins, then the BST. -/
def findFitLoop (idx : Idx) (asize : Nat) : Nat → Nat → Option (Nat × Nat)
  | 0, _ => BTreeT.bstSearchT idx.tree asize
  | fuel + 1, i =>
    if i < 4 then
      match scanBin asize (idx.bins.getD i []) none with
      | .inl e => some e
      | .inr (some b) => some b
      | .inr none => findFitLoop idx asize fuel (i + 1)
    else BTreeT.bstSearchT idx.tree asize

/-- find_fit of 2mm-myseg.c over the abstract Free Index. -/
def findFit (idx : Idx) (asize : Nat) : Option (Nat × Nat) :=
  findFitLoop idx asize 5 (Seg.get_index asize)

/-- All entries of the Free Index. -/
def entries (idx : Idx) : List (Nat × Nat) :=
  (idx.bins.take 4).flatten ++ BTreeT.entriesT idx.tree

/-- Wellformedness of the Free Index: four bins, bin i holding only
blocks of size 8(i+1); the tree ordered with all sizes above
THRESHOLD. -/
def IdxWf (idx : Idx) : Prop :=
  idx.bins.length = 4 ∧
  (∀ i < 4, ∀ e ∈ idx.bins.getD i [], e.2 = 8 * (i + 1)) ∧
  BTreeT.OrderedT idx.tree ∧
  (∀ s ∈ BTreeT.sizesT idx.tree, Seg.THRESHOLD < s)

instance (idx : Idx) : Decidable (IdxWf idx) := by
  unfold IdxWf
  infer_instance

end SegIdx

/-! ## Concrete heaps used as inputs of witnesses and counterexamples -/

namespace Ex

/-- The 2mm-myseg.c heap after mm_init (prologue, one free 256-byte
block, epilogue); each heap below is written as a literal, and a
reachability theorem further down checks the operation chain that
produces it. -/
def seg0 : Seg.Heap :=
  ⟨[⟨8, true, true, false, 0, 11, 0, 0, 0, 0⟩,
    ⟨256, false, true, true, 256, 0, 0, 0, 0, 0⟩,
    ⟨0, true, false, false, 0, 0, 0, 0, 0, 0⟩],
   [0, 0, 0, 0, 56], true⟩

/-- seg0 after malloc(12): an allocated 16-byte block at 56. -/
def seg1 : Seg.Heap :=
  ⟨[⟨8, true, true, false, 0, 11, 0, 0, 0, 0⟩,
    ⟨16, true, true, true, 256, 0, 0, 0, 0, 0⟩,
    ⟨240, false, true, false, 240, 0, 0, 0, 0, 0⟩,
    ⟨0, true, false, false, 0, 0, 0, 0, 0, 0⟩],
   [0, 0, 0, 0, 72], true⟩

/-- seg1 after malloc(12): two allocated 16-byte blocks in front of the
remaining free block. -/
def seg2 : Seg.Heap :=
  ⟨[⟨8, true, true, false, 0, 11, 0, 0, 0, 0⟩,
    ⟨16, true, true, true, 256, 0, 0, 0, 0, 0⟩,
    ⟨16, true, true, false, 240, 0, 0, 0, 0, 0⟩,
    ⟨224, false, true, false, 224, 0, 0, 0, 0, 0⟩,
    ⟨0, true, false, false, 0, 0, 0, 0, 0, 0⟩],
   [0, 0, 0, 0, 88], true⟩

/-- seg2 after free of the second block at 72 (it coalesces with the
free remainder): an allocated 16-byte block at 56 followed by a free
240-byte block at 72. -/
def seg3 : Seg.Heap :=
  ⟨[⟨8, true, true, false, 0, 11, 0, 0, 0, 0⟩,
    ⟨16, true, true, true, 256, 0, 0, 0, 0, 0⟩,
    ⟨240, false, true, false, 240, 0, 0, 0, 0, 0⟩,
    ⟨0, true, false, false, 0, 0, 0, 0, 0, 0⟩],
   [0, 0, 0, 0, 72], true⟩

/-- seg3 after releasing the block at 56 (it coalesces with both free
space and the prologue side): a second release of 56 is a double
free. -/
def seg4 : Seg.Heap :=
  ⟨[⟨8, true, true, false, 0, 11, 0, 0, 0, 0⟩,
    ⟨256, false, true, true, 256, 0, 0, 0, 0, 0⟩,
    ⟨0, true, false, false, 0, 0, 0, 0, 0, 0⟩],
   [0, 0, 0, 0, 56], true⟩

/-- The 2mm-myseg.c heap after allocating the whole initial free block
(malloc(248) consumes all 256 bytes), with mem_sbrk failing from now
on. -/
def segOOM : Seg.Heap :=
  ⟨[⟨8, true, true, false, 0, 11, 0, 0, 0, 0⟩,
    ⟨256, true, true, true, 256, 0, 0, 0, 0, 0⟩,
    ⟨0, true, true, false, 0, 0, 0, 0, 0, 0⟩],
   [0, 0, 0, 0, 0], false⟩

/-- mm.c heap after malloc(17): place split the fresh 64-byte extension
into an allocated 24-byte block (whose footer word pack(24,1) = 25 was
written by place) and a free 40-byte block in bin 4. -/
def mm1 : MM.Heap :=
  ⟨[⟨8, true, false, 9, 0, 0, 0, 0, 0⟩,
    ⟨24, true, true, 25, 0, 0, 0, 0, 0⟩,
    ⟨40, false, true, 40, 0, 0, 0, 0, 0⟩,
    ⟨0, true, false, 0, 0, 0, 0, 0, 0⟩],
   [0, 0, 0, 0, 56], 0, true⟩

/-- mm1 after malloc(17): the second allocation misses the 40-byte bin
block (find_fit consults only bin 2 and the empty BST), extends the heap
again and leaves an 80-byte block in the BST. -/
def mm2 : MM.Heap :=
  ⟨[⟨8, true, false, 9, 0, 0, 0, 0, 0⟩,
    ⟨24, true, true, 25, 0, 0, 0, 0, 0⟩,
    ⟨24, true, true, 25, 0, 0, 0, 0, 0⟩,
    ⟨80, false, true, 80, 0, 0, 0, 0, 0⟩,
    ⟨0, true, false, 0, 0, 0, 0, 0, 0⟩],
   [0, 0, 0, 0, 0], 80, true⟩

/-- mm2 after free of the first pointer (32): a free 24-byte block in
bin 2 while the BST holds the 80-byte block. -/
def mmC1 : MM.Heap :=
  ⟨[⟨8, true, false, 9, 0, 0, 0, 0, 0⟩,
    ⟨24, false, true, 24, 0, 0, 0, 0, 0⟩,
    ⟨24, true, false, 25, 0, 0, 0, 0, 0⟩,
    ⟨80, false, true, 80, 0, 0, 0, 0, 0⟩,
    ⟨0, true, false, 0, 0, 0, 0, 0, 0⟩],
   [0, 0, 32, 0, 0], 80, true⟩

/-- mm.c heap right after mm_init with mem_sbrk failing from now on: no
free block exists, so every allocation fails. -/
def mmOOM : MM.Heap := { MM.mm_init with sbrkOk := false }

/-- mm.c heap after malloc(8): a minimum-size allocated block at 32. -/
def mmA : MM.Heap :=
  ⟨[⟨8, true, false, 9, 0, 0, 0, 0, 0⟩,
    ⟨16, true, true, 17, 0, 0, 0, 0, 0⟩,
    ⟨48, false, true, 48, 0, 0, 0, 0, 0⟩,
    ⟨0, true, false, 0, 0, 0, 0, 0, 0⟩],
   [0, 0, 0, 0, 0], 48, true⟩

/-- mmA after malloc(8). -/
def mmB : MM.Heap :=
  ⟨[⟨8, true, false, 9, 0, 0, 0, 0, 0⟩,
    ⟨16, true, true, 17, 0, 0, 0, 0, 0⟩,
    ⟨16, true, true, 17, 0, 0, 0, 0, 0⟩,
    ⟨32, false, true, 32, 0, 0, 0, 0, 0⟩,
    ⟨0, true, false, 0, 0, 0, 0, 0, 0⟩],
   [0, 0, 0, 64, 0], 0, true⟩

/-- Concrete wellformed Free Index used by the best-fit witness: one
16-byte block in bin 1 and a 40-byte block in the BST. -/
def idx0 : SegIdx.Idx :=
  ⟨[[], [(100, 16)], [], []], .node .nil 200 [] 40 0 .nil⟩

/-- mmB after free of the first pointer: mm.c free wrote a full footer
(word 16) on the freed minimum-size 16-byte block at 32. -/
def mmMinFree : MM.Heap :=
  ⟨[⟨8, true, false, 9, 0, 0, 0, 0, 0⟩,
    ⟨16, false, true, 16, 0, 0, 0, 0, 0⟩,
    ⟨16, true, false, 17, 0, 0, 0, 0, 0⟩,
    ⟨32, false, true, 32, 0, 0, 0, 0, 0⟩,
    ⟨0, true, false, 0, 0, 0, 0, 0, 0⟩],
   [0, 32, 0, 64, 0], 0, true⟩

end Ex

/-! ## Generic list lemmas used by the proofs -/

theorem listSet_getD_self {α : Type} (l : List α) (i : Nat) (d : α) :
    l.set i (l.getD i d) = l := by
  induction l generalizing i with
  | nil => simp
  | cons x xs ih =>
    cases i with
    | zero => simp [List.getD]
    | succ n => simp only [List.getD] at ih ⊢; simpa using ih n

theorem listGetD_map {α β : Type} (f : α → β) (l : List α) (i : Nat) (d : α) :
    (l.map f).getD i (f d) = f (l.getD i d) := by
  induction l generalizing i with
  | nil => simp [List.getD]
  | cons x xs ih =>
    cases i with
    | zero => simp [List.getD]
    | succ n => simp only [List.getD, List.map] at ih ⊢; simpa using ih n

theorem listGetD_append_len {α : Type} (l₁ l₂ : List α) (b d : α) :
    (l₁ ++ b :: l₂).getD l₁.length d = b := by
  induction l₁ with
  | nil => simp [List.getD]
  | cons x xs ih => simpa [List.getD] using ih

theorem listGetD_append_len1 {α : Type} (l₁ l₂ : List α) (b c d : α) :
    (l₁ ++ b :: c :: l₂).getD (l₁.length + 1) d = c := by
  induction l₁ with
  | nil => simp [List.getD]
  | cons x xs ih => simpa [List.getD] using ih

theorem listSet_append_len {α : Type} (l₁ l₂ : List α) (b v : α) :
    (l₁ ++ b :: l₂).set l₁.length v = l₁ ++ v :: l₂ := by
  induction l₁ with
  | nil => simp
  | cons x xs ih => simpa using ih

theorem listDrop_append_len {α : Type} (l₁ l₂ : List α) (b : α) :
    (l₁ ++ b :: l₂).drop (l₁.length + 1) = l₂ := by
  induction l₁ with
  | nil => simp
  | cons x xs ih => simpa using ih

theorem listTake_append_len {α : Type} (l₁ l₂ : List α) (b : α) :
    (l₁ ++ b :: l₂).take l₁.length = l₁ := by
  induction l₁ with
  | nil => simp
  | cons x xs ih => simpa using ih

theorem listGetD_set_self {α : Type} (l : List α) (i : Nat) (a d : α) (hi : i < l.length) :
    (l.set i a).getD i d = a := by
  induction l generalizing i with
  | nil => simp at hi
  | cons x xs ih =>
    cases i with
    | zero => simp [List.getD]
    | succ n =>
      simp only [List.getD, List.set] at ih ⊢
      simpa using ih n (by simpa using hi)

/-! ## Resolution lemmas for the 2mm-myseg.c model -/

namespace Seg

theorem resolveFrom_congr (xs ys : List Blk) (cur a : Nat)
    (hs : xs.map Blk.size = ys.map Blk.size) : resolveFrom xs cur a = resolveFrom ys cur a := by
  induction xs generalizing ys cur with
  | nil => cases ys with
    | nil => rfl
    | cons y ys => simp at hs
  | cons x xs ih =>
    cases ys with
    | nil => simp at hs
    | cons y ys =>
      simp only [List.map, List.cons.injEq] at hs
      simp only [resolveFrom, hs.1, ih ys _ hs.2]

theorem resolveFrom_none_of_lt (l : List Blk) (cur a : Nat) (h : a < cur) :
    resolveFrom l cur a = none := by
  induction l generalizing cur with
  | nil => rfl
  | cons x xs ih =>
    simp only [resolveFrom]
    rw [if_neg (by omega)]
    rw [ih (cur + x.size) (by omega)]

theorem resolveFrom_lt_length (l : List Blk) (cur a i : Nat)
    (h : resolveFrom l cur a = some i) : i < l.length := by
  induction l generalizing cur i with
  | nil => simp [resolveFrom] at h
  | cons x xs ih =>
    simp only [resolveFrom] at h
    split at h
    · cases h; simp
    · cases hr : resolveFrom xs (cur + x.size) a with
      | none => rw [hr] at h; cases h
      | some j =>
        rw [hr] at h
        cases h
        simpa using Nat.succ_lt_succ (ih _ _ hr)

theorem resolve_zero (h : Heap) : resolve h 0 = none :=
  resolveFrom_none_of_lt _ _ _ (by norm_num [baseBp])

theorem resolve_some_lt (h : Heap) (a i : Nat) (hr : resolve h a = some i) :
    i < h.blocks.length := resolveFrom_lt_length _ _ _ _ hr

/-- The block sizes of a heap. -/
theorem sizes_updAt (h : Heap) (a : Nat) (f : Blk → Blk) (hf : ∀ b, (f b).size = b.size) :
    (updAt h a f).blocks.map Blk.size = h.blocks.map Blk.size := by
  unfold updAt
  cases hr : resolve h a with
  | none => rfl
  | some i =>
    simp only [List.map_set]
    have := listGetD_map Blk.size h.blocks i default
    rw [hf, ← this, listSet_getD_self]

theorem resolve_congr (h h2 : Heap) (hs : h2.blocks.map Blk.size = h.blocks.map Blk.size) :
    ∀ a, resolve h2 a = resolve h a := fun a => resolveFrom_congr _ _ _ _ hs

theorem heapEnd_congr (h h2 : Heap) (hs : h2.blocks.map Blk.size = h.blocks.map Blk.size) :
    heapEnd h2 = heapEnd h := by
  unfold heapEnd; rw [hs]

theorem blkAt_updAt_same (h : Heap) (a : Nat) (f : Blk → Blk)
    (hf : ∀ b, (f b).size = b.size) :
    blkAt (updAt h a f) a = match resolve h a with
      | some i => f (h.blocks.getD i default)
      | none => default := by
  cases hr : resolve h a with
  | none =>
    unfold blkAt updAt
    rw [hr]
    simp only [hr]
  | some i =>
    have hres : resolve (updAt h a f) a = some i := by
      rw [resolve_congr h (updAt h a f) (sizes_updAt h a f hf) a, hr]
    unfold blkAt
    rw [hres]
    unfold updAt
    rw [hr]
    simp only
    exact listGetD_set_self _ _ _ _ (resolve_some_lt h a i hr)

theorem updAt_updAt_same (h : Heap) (a : Nat) (f g : Blk → Blk)
    (hf : ∀ b, (f b).size = b.size) :
    updAt (updAt h a f) a g = updAt h a fun b => g (f b) := by
  unfold updAt
  cases hr : resolve h a with
  | none => simp only [hr]
  | some i =>
    have hs := sizes_updAt h a f hf
    unfold updAt at hs
    rw [hr] at hs
    have : resolveFrom (h.blocks.set i (f (h.blocks.getD i default))) baseBp a = some i := by
      have := resolveFrom_congr (h.blocks.set i (f (h.blocks.getD i default))) h.blocks baseBp a hs
      rw [this]
      exact hr
    simp only [hr, resolve, this]
    congr 1
    rw [List.set_set]
    congr 1
    exact congrArg g (listGetD_set_self _ _ _ _ (resolve_some_lt h a i hr))

end Seg

/-! ## Resolution lemmas for the mm.c model -/

namespace MM

theorem resolveFrom_congrM (xs ys : List Blk) (cur a : Nat)
    (hs : xs.map Blk.size = ys.map Blk.size) : resolveFrom xs cur a = resolveFrom ys cur a := by
  induction xs generalizing ys cur with
  | nil => cases ys with
    | nil => rfl
    | cons y ys => simp at hs
  | cons x xs ih =>
    cases ys with
    | nil => simp at hs
    | cons y ys =>
      simp only [List.map, List.cons.injEq] at hs
      simp only [resolveFrom, hs.1, ih ys _ hs.2]

theorem resolveFrom_none_of_ltM (l : List Blk) (cur a : Nat) (h : a < cur) :
    resolveFrom l cur a = none := by
  induction l generalizing cur with
  | nil => rfl
  | cons x xs ih =>
    simp only [resolveFrom]
    rw [if_neg (by omega)]
    rw [ih (cur + x.size) (by omega)]

theorem resolveFrom_lt_lengthM (l : List Blk) (cur a i : Nat)
    (h : resolveFrom l cur a = some i) : i < l.length := by
  induction l generalizing cur i with
  | nil => simp [resolveFrom] at h
  | cons x xs ih =>
    simp only [resolveFrom] at h
    split at h
    · cases h; simp
    · cases hr : resolveFrom xs (cur + x.size) a with
      | none => rw [hr] at h; cases h
      | some j =>
        rw [hr] at h
        cases h
        simpa using Nat.succ_lt_succ (ih _ _ hr)

theorem resolve_zeroM (h : Heap) : resolve h 0 = none :=
  resolveFrom_none_of_ltM _ _ _ (by norm_num [baseBp])

theorem resolve_some_ltM (h : Heap) (a i : Nat) (hr : resolve h a = some i) :
    i < h.blocks.length := resolveFrom_lt_lengthM _ _ _ _ hr

theorem sizes_updAtM (h : Heap) (a : Nat) (f : Blk → Blk) (hf : ∀ b, (f b).size = b.size) :
    (updAt h a f).blocks.map Blk.size = h.blocks.map Blk.size := by
  unfold updAt
  cases hr : resolve h a with
  | none => rfl
  | some i =>
    simp only [List.map_set]
    have := listGetD_map Blk.size h.blocks i default
    rw [hf, ← this, listSet_getD_self]

theorem resolve_congrM (h h2 : Heap) (hs : h2.blocks.map Blk.size = h.blocks.map Blk.size) :
    ∀ a, resolve h2 a = resolve h a := fun a => resolveFrom_congrM _ _ _ _ hs

theorem heapEnd_congrM (h h2 : Heap) (hs : h2.blocks.map Blk.size = h.blocks.map Blk.size) :
    heapEnd h2 = heapEnd h := by
  unfold heapEnd; rw [hs]

theorem blkAt_updAt_sameM (h : Heap) (a : Nat) (f : Blk → Blk)
    (hf : ∀ b, (f b).size = b.size) :
    blkAt (updAt h a f) a = match resolve h a with
      | some i => f (h.blocks.getD i default)
      | none => default := by
  cases hr : resolve h a with
  | none =>
    unfold blkAt updAt
    rw [hr]
    simp only [hr]
  | some i =>
    have hres : resolve (updAt h a f) a = some i := by
      rw [resolve_congrM h (updAt h a f) (sizes_updAtM h a f hf) a, hr]
    unfold blkAt
    rw [hres]
    unfold updAt
    rw [hr]
    simp only
    exact listGetD_set_self _ _ _ _ (resolve_some_ltM h a i hr)

theorem updAt_updAt_sameM (h : Heap) (a : Nat) (f g : Blk → Blk)
    (hf : ∀ b, (f b).size = b.size) :
    updAt (updAt h a f) a g = updAt h a fun b => g (f b) := by
  unfold updAt
  cases hr : resolve h a with
  | none => simp only [hr]
  | some i =>
    have hs := sizes_updAtM h a f hf
    unfold updAt at hs
    rw [hr] at hs
    have : resolveFrom (h.blocks.set i (f (h.blocks.getD i default))) baseBp a = some i := by
      have := resolveFrom_congrM (h.blocks.set i (f (h.blocks.getD i default))) h.blocks baseBp a hs
      rw [this]
      exact hr
    simp only [hr, resolve, this]
    congr 1
    rw [List.set_set]
    congr 1
    exact congrArg g (listGetD_set_self _ _ _ _ (resolve_some_ltM h a i hr))

end MM

/-! ## The release path never consults the alloc bit -/

namespace Seg

theorem free_setAlloc_aux (h : Heap) (a : Nat) (v w : Bool) :
    free (setAlloc h a v) a = free (setAlloc h a w) a := by
  cases hr : resolve h a with
  | none =>
    unfold setAlloc updAt
    rw [hr]
  | some i =>
    have hsz : ∀ u : Bool,
        (setAlloc h a u).blocks.map Blk.size = h.blocks.map Blk.size := fun u =>
      sizes_updAt h a _ (fun b => rfl)
    have hheap : ∀ u : Bool, heapEnd (setAlloc h a u) = heapEnd h := fun u =>
      heapEnd_congr h _ (hsz u)
    have hblk : ∀ u : Bool,
        blkAt (setAlloc h a u) a = { h.blocks.getD i default with alloc := u } := by
      intro u
      unfold setAlloc
      rw [blkAt_updAt_same h a (fun b => { b with alloc := u }) (fun b => rfl), hr]
    have hupd : ∀ u : Bool,
        updAt (setAlloc h a u) a (fun b => { b with alloc := false }) =
          updAt h a (fun b => { b with alloc := false }) := by
      intro u
      unfold setAlloc
      rw [updAt_updAt_same h a (fun b => { b with alloc := u })
        (fun b => { b with alloc := false }) (fun b => rfl)]
    unfold free
    by_cases ha0 : a = 0
    · subst ha0
      exact absurd hr (by rw [resolve_zero]; simp)
    · rw [if_neg ha0, if_neg ha0]
      have hin : ∀ u : Bool, in_heap (setAlloc h a u) a = in_heap h a := by
        intro u; unfold in_heap; rw [hheap u]
      rw [hin v, hin w]
      cases hih : in_heap h a
      · rw [if_pos (by simp), if_pos (by simp)]
      · rw [if_neg (by simp), if_neg (by simp)]
        unfold get_size
        rw [hblk v, hblk w, hupd v, hupd w]

end Seg

namespace MM

theorem free_setAlloc_auxM (h : Heap) (a : Nat) (v w : Bool)
    (hih : in_heap h a = true) (hal : aligned a = true) :
    free (setAlloc h a v) a = free (setAlloc h a w) a := by
  cases hr : resolve h a with
  | none =>
    unfold setAlloc updAt
    rw [hr]
  | some i =>
    have hsz : ∀ u : Bool,
        (setAlloc h a u).blocks.map Blk.size = h.blocks.map Blk.size := fun u =>
      sizes_updAtM h a _ (fun b => rfl)
    have hheap : ∀ u : Bool, heapEnd (setAlloc h a u) = heapEnd h := fun u =>
      heapEnd_congrM h _ (hsz u)
    have hblk : ∀ u : Bool,
        blkAt (setAlloc h a u) a = { h.blocks.getD i default with alloc := u } := by
      intro u
      unfold setAlloc
      rw [blkAt_updAt_sameM h a (fun b => { b with alloc := u }) (fun b => rfl), hr]
    have hupd : ∀ u : Bool,
        updAt (setAlloc h a u) a (fun b => { b with alloc := false, prevAlloc := false }) =
          updAt h a (fun b => { b with alloc := false, prevAlloc := false }) := by
      intro u
      unfold setAlloc
      rw [updAt_updAt_sameM h a (fun b => { b with alloc := u })
        (fun b => { b with alloc := false, prevAlloc := false }) (fun b => rfl)]
    unfold free
    by_cases ha0 : a = 0
    · subst ha0
      exact absurd hr (by rw [resolve_zeroM]; simp)
    · have hin : ∀ u : Bool, in_heap (setAlloc h a u) a = in_heap h a := by
        intro u; unfold in_heap; rw [hheap u]
      rw [hin v, hin w, hih]
      rw [if_neg (by simp [ha0, hal]), if_neg (by simp [ha0, hal])]
      unfold get_size get_prev_alloc
      rw [hblk v, hblk w, hupd v, hupd w]

end MM

/-! ## Reachability of the concrete example heaps

Each example heap literal is produced by the stated chain of allocator
operations from the initial state. -/

theorem seg0_reached : Seg.mm_init = some Ex.seg0 := by decide

theorem seg1_reached : Seg.malloc Ex.seg0 12 = (some 56, Ex.seg1) := by decide

theorem seg2_reached : Seg.malloc Ex.seg1 12 = (some 72, Ex.seg2) := by decide

theorem seg3_reached : Seg.free Ex.seg2 72 = Seg.Outcome.ok Ex.seg3 := by decide

theorem seg4_reached : Seg.free Ex.seg3 56 = Seg.Outcome.ok Ex.seg4 := by decide

theorem segOOM_reached :
    Seg.malloc Ex.seg0 248 = (some 56, { Ex.segOOM with sbrkOk := true }) := by decide

theorem mm1_reached : MM.malloc MM.mm_init 17 = (some 32, Ex.mm1) := by decide

theorem mm2_reached : MM.malloc Ex.mm1 17 = (some 56, Ex.mm2) := by decide

theorem mmC1_reached : MM.free Ex.mm2 32 = Ex.mmC1 := by decide

theorem mmA_reached : MM.malloc MM.mm_init 8 = (some 32, Ex.mmA) := by decide

theorem mmB_reached : MM.malloc Ex.mmA 8 = (some 48, Ex.mmB) := by decide

theorem mmMinFree_reached : MM.free Ex.mmB 32 = Ex.mmMinFree := by decide

/-! ## Claim theorems settled by concrete computation and the lemmas above -/

/-- C9: when mem_sbrk fails, allocate returns the null sentinel and
leaves the heap unchanged, and resize on allocation failure leaves the
original block intact — but zeroed_allocate does not return cleanly: both
callocs call memset on the malloc result unconditionally, so on
allocation failure with a non-zero byte count they write through the
null pointer.  Evaluated at the failing input: a heap with no free block
and a failing sbrk, calloc(1, 9). -/
theorem calloc_failure_writes_through_null :
    (Seg.malloc Ex.segOOM 9).1 = none ∧ (Seg.malloc Ex.segOOM 9).2 = Ex.segOOM ∧
    (Seg.calloc Ex.segOOM 1 9).res = none ∧
    (Seg.calloc Ex.segOOM 1 9).heap = Ex.segOOM ∧
    (Seg.calloc Ex.segOOM 1 9).wroteNull = true ∧
    (Seg.realloc Ex.segOOM 56 20).1 = none ∧
    (Seg.realloc Ex.segOOM 56 20).2 = Seg.Outcome.ok Ex.segOOM ∧
    (MM.malloc Ex.mmOOM 9).1 = none ∧ (MM.malloc Ex.mmOOM 9).2 = Ex.mmOOM ∧
    (MM.calloc Ex.mmOOM 1 9).res = none ∧
    (MM.calloc Ex.mmOOM 1 9).heap = Ex.mmOOM ∧
    (MM.calloc Ex.mmOOM 1 9).wroteNull = true :=
  ⟨by decide, by decide, by decide, by decide, by decide, by decide, by decide,
   by decide, by decide, by decide, by decide, by decide⟩

/-- C7: the claim fails on 2mm-myseg.c, whose realloc has no in-place
path.  At the concrete input: the heap seg3 holds an allocated 16-byte
block at 56; resize(56, 12) has adjusted size 16 ≤ 16 = current size,
yet it returns a different pointer and changes the heap. -/
theorem seg_realloc_is_never_in_place :
    Seg.get_alloc Ex.seg3 56 = true ∧
    Seg.adjusted 12 ≤ Seg.get_size Ex.seg3 56 ∧
    (Seg.realloc Ex.seg3 56 12).1 ≠ some 56 ∧
    (Seg.realloc Ex.seg3 56 12).2 ≠ Seg.Outcome.ok Ex.seg3 :=
  ⟨by decide, by decide, by decide, by decide⟩

/-- C7 (amended): in mm.c, resize(p, n) with non-zero p and n whose
adjusted size is at most the current block size returns p itself and
leaves the heap state unchanged. -/
theorem mm_realloc_in_place_noop (h : MM.Heap) (p n : Nat) (hp : p ≠ 0) (hn : n ≠ 0)
    (hfit : MM.adjustedR n ≤ MM.get_size h p) :
    MM.realloc h p n = (some p, h) := by
  unfold MM.realloc
  unfold MM.adjustedR at hfit
  rw [if_neg hn, if_neg hp]
  simp only [hfit, if_true]

/-- C7 (witness): the in-place no-op applied at a concrete heap. -/
theorem mm_realloc_in_place_noop_witness :
    MM.realloc Ex.mm1 32 17 = (some 32, Ex.mm1) :=
  mm_realloc_in_place_noop Ex.mm1 32 17 (by decide) (by decide) (by decide)

/-- C8: the claim fails on 2mm-myseg.c: release of a non-null pointer
outside the heap is not a silent no-op — it prints a diagnostic and
terminates the process (exit(1)).  Concrete input: the pointer 8 bytes
past the heap end of the initial heap. -/
theorem seg_free_out_of_heap_exits :
    Seg.heapEnd Ex.seg0 + 8 ≠ 0 ∧
    Seg.in_heap Ex.seg0 (Seg.heapEnd Ex.seg0 + 8) = false ∧
    Seg.free Ex.seg0 (Seg.heapEnd Ex.seg0 + 8) = Seg.Outcome.exited :=
  ⟨by decide, by decide, by decide⟩

/-- C8 (amended): in mm.c, release with a null, out-of-heap or
misaligned pointer returns without modifying the heap; in 2mm-myseg.c,
release(null) is a no-op but release of a non-null pointer outside the
heap terminates the process, and no alignment check is performed. -/
theorem invalid_release_behavior :
    (∀ (h : MM.Heap) (p : Nat),
        p = 0 ∨ MM.in_heap h p = false ∨ MM.aligned p = false → MM.free h p = h) ∧
    (∀ h : Seg.Heap, Seg.free h 0 = Seg.Outcome.ok h) ∧
    (∀ (h : Seg.Heap) (p : Nat), p ≠ 0 → Seg.in_heap h p = false →
        Seg.free h p = Seg.Outcome.exited) := by
  refine ⟨fun h p hp => ?_, fun h => by simp [Seg.free], fun h p hp hih => ?_⟩
  · unfold MM.free
    rcases hp with h0 | h0 | h0 <;> simp [h0]
  · unfold Seg.free
    rw [if_neg hp]
    simp [hih]

/-- C8 (witness): the three guard behaviors at concrete inputs. -/
theorem invalid_release_behavior_witness :
    MM.free Ex.mm1 7 = Ex.mm1 ∧
    Seg.free Ex.seg0 0 = Seg.Outcome.ok Ex.seg0 ∧
    Seg.free Ex.seg0 400 = Seg.Outcome.exited :=
  ⟨invalid_release_behavior.1 Ex.mm1 7 (Or.inr (Or.inr (by decide))),
   invalid_release_behavior.2.1 Ex.seg0,
   invalid_release_behavior.2.2 Ex.seg0 400 (by decide) (by decide)⟩

/-- C1: the claim fails on mm.c, whose find_fit consults only the bin of
the exact size class and the BST.  Concrete reachable state (mm_init;
malloc(17); malloc(17); free of the first pointer): the Free Index holds
a free 24-byte block (at 32, in bin 2) and a free 80-byte block (BST),
yet find_fit(16) returns the 80-byte block instead of the smaller
fitting 24-byte block. -/
theorem mm_find_fit_not_best_fit :
    MM.get_alloc Ex.mmC1 32 = false ∧ MM.get_size Ex.mmC1 32 = 24 ∧
    (16 : Nat) ≤ 24 ∧ (24 : Nat) < 80 ∧
    MM.find_fit Ex.mmC1 16 = some 80 ∧ MM.get_size Ex.mmC1 80 = 80 :=
  ⟨by decide, by decide, by decide, by decide, by decide, by decide⟩

/-- C4: the claim fails on mm.c, whose minimum block size is 16 bytes,
not 8 (mm.c line 173); 2mm-myseg.c uses 8. -/
theorem mm_min_size_is_16 :
    MM.MIN_SIZE = 16 ∧ MM.MIN_SIZE ≠ 8 ∧ Seg.MIN_SIZE = 8 := by decide

/-- C5: the claim fails as stated: the footer of a free block is not
bit-identical to its header.  Concrete reachable state seg3: the free
240-byte block at 72 has header word 242 (prev-alloc bit set) but footer
word 240 (2mm-myseg.c writes pack(size, 0, 0, 0) as the footer). -/
theorem seg_footer_not_bit_identical :
    Seg.get_alloc Ex.seg3 72 = false ∧ 8 < Seg.get_size Ex.seg3 72 ∧
    Seg.hdrWord (Seg.blkAt Ex.seg3 72) = 242 ∧ (Seg.blkAt Ex.seg3 72).ftr = 240 ∧
    Seg.hdrWord (Seg.blkAt Ex.seg3 72) ≠ (Seg.blkAt Ex.seg3 72).ftr :=
  ⟨by decide, by decide, by decide, by decide, by decide⟩

/-- C10: release never inspects the alloc bit of the target header: in
both allocators, the result of free is unchanged when the alloc bit of
the target block is flipped beforehand (for mm.c, for any pointer that
passes the in-heap and alignment guard), and a second release of the
same pointer re-executes the whole free path: freeing the already freed
block at 56 of seg4 modifies the state again. -/
theorem release_ignores_alloc_bit :
    (∀ (h : Seg.Heap) (a : Nat) (v w : Bool),
        Seg.free (Seg.setAlloc h a v) a = Seg.free (Seg.setAlloc h a w) a) ∧
    (∀ (h : MM.Heap) (a : Nat) (v w : Bool),
        MM.in_heap h a = true → MM.aligned a = true →
        MM.free (MM.setAlloc h a v) a = MM.free (MM.setAlloc h a w) a) ∧
    Seg.get_alloc Ex.seg4 56 = false ∧
    Seg.free Ex.seg4 56 ≠ Seg.Outcome.ok Ex.seg4 :=
  ⟨Seg.free_setAlloc_aux, fun h a v w hih hal => MM.free_setAlloc_auxM h a v w hih hal,
   by decide, by decide⟩

/-- C10 (witness): the alloc-bit independence applied at concrete
inputs. -/
theorem release_ignores_alloc_bit_witness :
    Seg.free (Seg.setAlloc Ex.seg3 56 true) 56 = Seg.free (Seg.setAlloc Ex.seg3 56 false) 56 ∧
    MM.free (MM.setAlloc Ex.mm1 32 true) 32 = MM.free (MM.setAlloc Ex.mm1 32 false) 32 :=
  ⟨release_ignores_alloc_bit.1 Ex.seg3 56 true false,
   release_ignores_alloc_bit.2.1 Ex.mm1 32 true false (by decide) (by decide)⟩

/-! ## Best-fit search over the BST -/

namespace BTreeT

theorem entriesT_size_mem (t : BTreeT) (e : Nat × Nat) (he : e ∈ entriesT t) :
    e.2 ∈ sizesT t := by
  induction t with
  | nil => simp [entriesT] at he
  | node l a ch s p r ihl ihr =>
    simp only [entriesT, List.mem_append] at he
    simp only [sizesT, List.mem_append, List.mem_cons]
    rcases he with (he | he) | he
    · exact Or.inl (ihl he)
    · simp only [List.mem_map] at he
      obtain ⟨x, _, hx⟩ := he
      right; left
      rw [← hx]
    · exact Or.inr (Or.inr (ihr he))

theorem bstSearchT_none (t : BTreeT) (A : Nat) (hOrd : OrderedT t)
    (hn : bstSearchT t A = none) : ∀ s ∈ sizesT t, s < A := by
  induction t with
  | nil => simp [sizesT]
  | node l a ch s p r ihl ihr =>
    obtain ⟨hOl, hOr, hls, hrs⟩ := hOrd
    simp only [bstSearchT] at hn
    by_cases h1 : A = s
    · rw [if_pos h1] at hn; cases hn
    · rw [if_neg h1] at hn
      by_cases h2 : A < s
      · rw [if_pos h2] at hn
        cases hsl : bstSearchT l A with
        | some f => rw [hsl] at hn; cases hn
        | none => rw [hsl] at hn; cases hn
      · rw [if_neg h2] at hn
        have hsA : s < A := by omega
        intro x hx
        simp only [sizesT, List.mem_append, List.mem_cons] at hx
        rcases hx with hx | hx | hx
        · exact lt_trans (hls x hx) hsA
        · omega
        · exact ihr hOr hn x hx

theorem bstSearchT_sound (t : BTreeT) (A : Nat) (hOrd : OrderedT t) (e : Nat × Nat)
    (hs : bstSearchT t A = some e) :
    e ∈ entriesT t ∧ A ≤ e.2 ∧ ∀ s2 ∈ sizesT t, A ≤ s2 → e.2 ≤ s2 := by
  induction t with
  | nil => simp [bstSearchT] at hs
  | node l a ch s p r ihl ihr =>
    obtain ⟨hOl, hOr, hls, hrs⟩ := hOrd
    simp only [bstSearchT] at hs
    by_cases h1 : A = s
    · rw [if_pos h1] at hs
      cases hs
      refine ⟨?_, le_of_eq h1, ?_⟩
      · simp [entriesT]
      · intro s2 _ _; omega
    · rw [if_neg h1] at hs
      by_cases h2 : A < s
      · rw [if_pos h2] at hs
        cases hsl : bstSearchT l A with
        | some f =>
          rw [hsl] at hs
          cases hs
          obtain ⟨hmem, hfit, hmin⟩ := ihl hOl hsl
          refine ⟨by simp [entriesT, hmem], hfit, ?_⟩
          intro s2 hs2 hA2
          simp only [sizesT, List.mem_append, List.mem_cons] at hs2
          rcases hs2 with hx | hx | hx
          · exact hmin s2 hx hA2
          · have : e.2 ∈ sizesT l := entriesT_size_mem l e hmem
            have := hls e.2 this
            omega
          · have : e.2 ∈ sizesT l := entriesT_size_mem l e hmem
            have h3 := hls e.2 this
            have h4 := hrs s2 hx
            omega
        | none =>
          rw [hsl] at hs
          cases hs
          have hall := bstSearchT_none l A hOl hsl
          refine ⟨by simp [entriesT], by omega, ?_⟩
          intro s2 hs2 hA2
          simp only [sizesT, List.mem_append, List.mem_cons] at hs2
          rcases hs2 with hx | hx | hx
          · exact absurd hA2 (by have := hall s2 hx; omega)
          · omega
          · have := hrs s2 hx; omega
      · rw [if_neg h2] at hs
        have hsA : s < A := by omega
        obtain ⟨hmem, hfit, hmin⟩ := ihr hOr hs
        refine ⟨by simp [entriesT, hmem], hfit, ?_⟩
        intro s2 hs2 hA2
        simp only [sizesT, List.mem_append, List.mem_cons] at hs2
        rcases hs2 with hx | hx | hx
        · have := hls s2 hx; omega
        · omega
        · exact hmin s2 hx hA2

end BTreeT

/-! ## Best-fit of the 2mm-myseg.c find_fit over the Free Index -/

namespace SegIdx

theorem scanBin_inl (A : Nat) (bin : List (Nat × Nat)) (best : Option (Nat × Nat))
    (e : Nat × Nat) (h : scanBin A bin best = .inl e) : e ∈ bin ∧ e.2 = A := by
  induction bin generalizing best with
  | nil => simp [scanBin] at h
  | cons x rest ih =>
    simp only [scanBin] at h
    by_cases h1 : x.2 ≥ A
    · rw [if_pos h1] at h
      by_cases h2 : x.2 = A
      · rw [if_pos h2] at h
        cases h
        exact ⟨List.mem_cons_self _ _, h2⟩
      · rw [if_neg h2] at h
        cases best with
        | none =>
          obtain ⟨hm, he⟩ := ih _ h
          exact ⟨List.mem_cons_of_mem x hm, he⟩
        | some b =>
          have h' : (if x.2 < b.2 then scanBin A rest (some x)
              else scanBin A rest (some b)) = Sum.inl e := h
          by_cases h3 : x.2 < b.2
          · rw [if_pos h3] at h'
            obtain ⟨hm, he⟩ := ih _ h'
            exact ⟨List.mem_cons_of_mem x hm, he⟩
          · rw [if_neg h3] at h'
            obtain ⟨hm, he⟩ := ih _ h'
            exact ⟨List.mem_cons_of_mem x hm, he⟩
    · rw [if_neg h1] at h
      obtain ⟨hm, he⟩ := ih _ h
      exact ⟨List.mem_cons_of_mem x hm, he⟩

theorem scanBin_all_lt (A : Nat) (bin : List (Nat × Nat)) (best : Option (Nat × Nat))
    (hlt : ∀ e ∈ bin, e.2 < A) : scanBin A bin best = .inr best := by
  induction bin generalizing best with
  | nil => rfl
  | cons x rest ih =>
    have hx := hlt x (List.mem_cons_self x rest)
    simp only [scanBin]
    rw [if_neg (by omega)]
    exact ih _ fun e he => hlt e (List.mem_cons_of_mem x he)

theorem scanBin_keep (A c : Nat) (bin : List (Nat × Nat)) (b : Nat × Nat)
    (hc : ∀ e ∈ bin, e.2 = c) (hAc : A < c) (hb : b.2 = c) :
    scanBin A bin (some b) = .inr (some b) := by
  induction bin with
  | nil => rfl
  | cons x rest ih =>
    have hx := hc x (List.mem_cons_self x rest)
    simp only [scanBin]
    rw [if_pos (by omega), if_neg (by omega), if_neg (by omega)]
    exact ih fun e he => hc e (List.mem_cons_of_mem x he)

theorem scanBin_exact (A : Nat) (x : Nat × Nat) (rest : List (Nat × Nat))
    (best : Option (Nat × Nat)) (hx : x.2 = A) : scanBin A (x :: rest) best = .inl x := by
  simp only [scanBin]
  rw [if_pos (by omega), if_pos hx]

theorem scanBin_first (A c : Nat) (x : Nat × Nat) (rest : List (Nat × Nat))
    (hc : ∀ e ∈ x :: rest, e.2 = c) (hAc : A < c) :
    scanBin A (x :: rest) none = .inr (some x) := by
  have hx := hc x (List.mem_cons_self x rest)
  simp only [scanBin]
  rw [if_pos (by omega), if_neg (by omega)]
  exact scanBin_keep A c rest x (fun e he => hc e (List.mem_cons_of_mem x he)) hAc hx

theorem mem_entries_of_bin (idx : Idx) (hlen : idx.bins.length = 4) (j : Nat) (hj : j < 4)
    (e : Nat × Nat) (he : e ∈ idx.bins.getD j []) : e ∈ entries idx := by
  unfold entries
  rw [List.mem_append]
  left
  rw [List.mem_flatten]
  refine ⟨idx.bins.getD j [], ?_, he⟩
  have hj' : j < idx.bins.length := by omega
  rw [List.getD_eq_getElem idx.bins [] hj']
  have : idx.bins.take 4 = idx.bins := by
    rw [← hlen]; exact List.take_length idx.bins
  rw [this]
  exact idx.bins.getElem_mem hj'

theorem mem_entries_of_tree (idx : Idx) (e : Nat × Nat) (he : e ∈ BTreeT.entriesT idx.tree) :
    e ∈ entries idx := by
  unfold entries
  rw [List.mem_append]
  exact Or.inr he

theorem mem_entries_elim (idx : Idx) (hlen : idx.bins.length = 4) (e : Nat × Nat)
    (he : e ∈ entries idx) :
    (∃ j, j < 4 ∧ e ∈ idx.bins.getD j []) ∨ e ∈ BTreeT.entriesT idx.tree := by
  unfold entries at he
  rw [List.mem_append] at he
  rcases he with he | he
  · left
    rw [List.mem_flatten] at he
    obtain ⟨l, hl, hel⟩ := he
    have : idx.bins.take 4 = idx.bins := by
      rw [← hlen]; exact List.take_length idx.bins
    rw [this] at hl
    rw [List.mem_iff_getElem] at hl
    obtain ⟨j, hj, hlj⟩ := hl
    refine ⟨j, by omega, ?_⟩
    rw [List.getD_eq_getElem idx.bins [] hj, hlj]
    exact hel
  · exact Or.inr he

theorem findFitLoop_spec (idx : Idx) (A : Nat) (hwf : IdxWf idx) :
    ∀ fuel i, 4 ≤ fuel + i → i ≤ 4 →
    (∀ j, j < i → j < 4 → ∀ e ∈ idx.bins.getD j [], e.2 < A) →
    (∀ j, i ≤ j → j < 4 → A ≤ 8 * (j + 1)) →
    (∀ e, findFitLoop idx A fuel i = some e →
        e ∈ entries idx ∧ A ≤ e.2 ∧ ∀ e2 ∈ entries idx, A ≤ e2.2 → e.2 ≤ e2.2) ∧
    (findFitLoop idx A fuel i = none → ∀ e ∈ entries idx, e.2 < A) := by
  obtain ⟨hlen, hbins, hord, hlarge⟩ := hwf
  intro fuel
  induction fuel with
  | zero =>
    intro i hfi hi4 hsmall hge
    have hi : i = 4 := by omega
    subst hi
    simp only [findFitLoop]
    constructor
    · intro e hfind
      obtain ⟨hmem, hfit, hmin⟩ := BTreeT.bstSearchT_sound idx.tree A hord e hfind
      refine ⟨mem_entries_of_tree idx e hmem, hfit, ?_⟩
      intro e2 he2 hA2
      rcases mem_entries_elim idx hlen e2 he2 with ⟨j, hj, hjmem⟩ | htree
      · exact absurd hA2 (by have := hsmall j hj hj e2 hjmem; omega)
      · exact hmin e2.2 (BTreeT.entriesT_size_mem _ _ htree) hA2
    · intro hfind e he
      rcases mem_entries_elim idx hlen e he with ⟨j, hj, hjmem⟩ | htree
      · exact hsmall j hj hj e hjmem
      · exact BTreeT.bstSearchT_none idx.tree A hord hfind e.2
          (BTreeT.entriesT_size_mem _ _ htree)
  | succ fuel ih =>
    intro i hfi hi4 hsmall hge
    by_cases hi : i < 4
    · have hc : ∀ e ∈ idx.bins.getD i [], e.2 = 8 * (i + 1) := hbins i hi
      have hAle : A ≤ 8 * (i + 1) := hge i le_rfl hi
      simp only [findFitLoop]
      rw [if_pos hi]
      cases hbin : idx.bins.getD i [] with
      | nil =>
        have hrec := ih (i + 1) (by omega) (by omega)
          (fun j hj hj4 e he => by
            rcases Nat.lt_or_ge j i with hji | hji
            · exact hsmall j hji hj4 e he
            · have hje : j = i := by omega
              subst hje
              rw [hbin] at he
              simp at he)
          (fun j hj hj4 => hge j (by omega) hj4)
        exact hrec
      | cons x rest =>
        rw [hbin] at hc
        have hxmem : x ∈ idx.bins.getD i [] := by
          rw [hbin]; exact List.mem_cons_self x rest
        by_cases hAe : A = 8 * (i + 1)
        · have hx : x.2 = A := by
            rw [hc x (List.mem_cons_self x rest), hAe]
          rw [scanBin_exact A x rest none hx]
          constructor
          · intro e hfind
            cases hfind
            refine ⟨mem_entries_of_bin idx hlen i hi x hxmem, by omega, ?_⟩
            intro e2 _ hA2
            omega
          · intro hfind; cases hfind
        · have hAlt : A < 8 * (i + 1) := by omega
          rw [scanBin_first A (8 * (i + 1)) x rest hc hAlt]
          constructor
          · intro e hfind
            cases hfind
            have hx2 : x.2 = 8 * (i + 1) := hc x (List.mem_cons_self x rest)
            refine ⟨mem_entries_of_bin idx hlen i hi x hxmem, by omega, ?_⟩
            intro e2 he2 hA2
            rcases mem_entries_elim idx hlen e2 he2 with ⟨j, hj, hjmem⟩ | htree
            · have he2s := hbins j hj e2 hjmem
              rcases Nat.lt_or_ge j i with hji | hji
              · exact absurd hA2 (by have := hsmall j hji hj e2 hjmem; omega)
              · omega
            · have ht2 : Seg.THRESHOLD < e2.2 :=
                hlarge e2.2 (BTreeT.entriesT_size_mem _ _ htree)
              have h32 : 8 * (i + 1) ≤ 32 := by omega
              unfold Seg.THRESHOLD at ht2
              omega
          · intro hfind; cases hfind
    · have hi4' : i = 4 := by omega
      subst hi4'
      simp only [findFitLoop]
      rw [if_neg (by omega)]
      constructor
      · intro e hfind
        obtain ⟨hmem, hfit, hmin⟩ := BTreeT.bstSearchT_sound idx.tree A hord e hfind
        refine ⟨mem_entries_of_tree idx e hmem, hfit, ?_⟩
        intro e2 he2 hA2
        rcases mem_entries_elim idx hlen e2 he2 with ⟨j, hj, hjmem⟩ | htree
        · exact absurd hA2 (by have := hsmall j hj hj e2 hjmem; omega)
        · exact hmin e2.2 (BTreeT.entriesT_size_mem _ _ htree) hA2
      · intro hfind e he
        rcases mem_entries_elim idx hlen e he with ⟨j, hj, hjmem⟩ | htree
        · exact hsmall j hj hj e hjmem
        · exact BTreeT.bstSearchT_none idx.tree A hord hfind e.2
            (BTreeT.entriesT_size_mem _ _ htree)

end SegIdx

/-- C1 (amended): the find_fit of 2mm-myseg.c is best-fit over the Free
Index: for every wellformed index and adjusted request size A (a
multiple of 8, at least MIN_SIZE), if find_fit returns a block then that
block is in the index, fits, and has the smallest size among all fitting
index entries; find_fit returns null only when no index entry of size at
least A exists.  (The find_fit of mm.c violates this — see the
counterexample theorem.) -/
theorem seg_find_fit_is_best_fit (idx : SegIdx.Idx) (A : Nat) (hwf : SegIdx.IdxWf idx)
    (h8 : 8 ≤ A) (hm : A % 8 = 0) :
    (∀ e, SegIdx.findFit idx A = some e →
        e ∈ SegIdx.entries idx ∧ A ≤ e.2 ∧
          ∀ e2 ∈ SegIdx.entries idx, A ≤ e2.2 → e.2 ≤ e2.2) ∧
    (SegIdx.findFit idx A = none → ∀ e ∈ SegIdx.entries idx, e.2 < A) := by
  unfold SegIdx.findFit
  have hbins := hwf.2.1
  by_cases hA32 : A ≤ Seg.THRESHOLD
  · have hidx : Seg.get_index A = (A - 8) / 8 := by
      unfold Seg.get_index Seg.WSIZE
      rw [if_pos hA32]
    rw [hidx]
    unfold Seg.THRESHOLD at hA32
    refine SegIdx.findFitLoop_spec idx A hwf 5 ((A - 8) / 8) (by omega) (by omega) ?_ ?_
    · intro j hj hj4 e he
      have := hbins j hj4 e he
      omega
    · intro j hj hj4
      omega
  · have hidx : Seg.get_index A = 4 := by
      unfold Seg.get_index Seg.LISTNUM
      rw [if_neg hA32]
    rw [hidx]
    unfold Seg.THRESHOLD at hA32
    refine SegIdx.findFitLoop_spec idx A hwf 5 4 (by omega) (by omega) ?_ ?_
    · intro j hj hj4 e he
      have := hbins j hj4 e he
      omega
    · intro j hj hj4
      omega

/-- C1 (witness): best-fit applied at a concrete wellformed index: a
16-byte block in bin 1 and a 40-byte tree block; find_fit(8) returns the
16-byte block, the smallest fitting entry. -/
theorem seg_find_fit_is_best_fit_witness :
    (100, 16) ∈ SegIdx.entries Ex.idx0 ∧ 8 ≤ 16 ∧
      ∀ e2 ∈ SegIdx.entries Ex.idx0, 8 ≤ e2.2 → 16 ≤ e2.2 :=
  (seg_find_fit_is_best_fit Ex.idx0 8 (by decide) (by decide) (by decide)).1
    (100, 16) (by decide)

/-! ## Preservation of the BST invariants by insert and delete -/

namespace BTreeT

theorem sizesT_reparent (t : BTreeT) (p : Nat) : sizesT (reparent t p) = sizesT t := by
  cases t <;> rfl

theorem orderedT_reparent (t : BTreeT) (p : Nat) : OrderedT (reparent t p) ↔ OrderedT t := by
  cases t <;> exact Iff.rfl

theorem parentOkT_reparent (t : BTreeT) (e p : Nat) (h : ParentOkT t e) :
    ParentOkT (reparent t p) p := by
  cases t with
  | nil => trivial
  | node l a ch s q r => exact ⟨rfl, h.2.1, h.2.2⟩

theorem sizesT_insert_mem (t : BTreeT) (bp sz e x : Nat)
    (hx : x ∈ sizesT (bstInsertT t bp sz e)) : x ∈ sizesT t ∨ x = sz := by
  induction t generalizing e with
  | nil =>
    simp only [bstInsertT, sizesT, List.mem_append, List.mem_cons] at hx
    rcases hx with hx | hx | hx
    · simp [sizesT] at hx
    · exact Or.inr hx
    · simp [sizesT] at hx
  | node l a ch s p r ihl ihr =>
    simp only [bstInsertT] at hx
    by_cases h1 : sz = s
    · rw [if_pos h1] at hx
      simp only [sizesT, sizesT_reparent, List.mem_append, List.mem_cons] at hx
      exact Or.inl (by simp only [sizesT, List.mem_append, List.mem_cons]; exact hx)
    · rw [if_neg h1] at hx
      by_cases h2 : sz < s
      · rw [if_pos h2] at hx
        simp only [sizesT, List.mem_append, List.mem_cons] at hx ⊢
        rcases hx with hx | hx | hx
        · rcases ihl a hx with hm | hm
          · exact Or.inl (Or.inl hm)
          · exact Or.inr hm
        · exact Or.inl (Or.inr (Or.inl hx))
        · exact Or.inl (Or.inr (Or.inr hx))
      · rw [if_neg h2] at hx
        simp only [sizesT, List.mem_append, List.mem_cons] at hx ⊢
        rcases hx with hx | hx | hx
        · exact Or.inl (Or.inl hx)
        · exact Or.inl (Or.inr (Or.inl hx))
        · rcases ihr a hx with hm | hm
          · exact Or.inl (Or.inr (Or.inr hm))
          · exact Or.inr hm

theorem orderedT_insert (t : BTreeT) (bp sz e : Nat) (h : OrderedT t) :
    OrderedT (bstInsertT t bp sz e) := by
  induction t generalizing e with
  | nil => exact ⟨trivial, trivial, by simp [sizesT], by simp [sizesT]⟩
  | node l a ch s p r ihl ihr =>
    obtain ⟨hOl, hOr, hls, hrs⟩ := h
    simp only [bstInsertT]
    by_cases h1 : sz = s
    · rw [if_pos h1]
      refine ⟨(orderedT_reparent l bp).mpr hOl, (orderedT_reparent r bp).mpr hOr, ?_, ?_⟩
      · rw [sizesT_reparent]; exact hls
      · rw [sizesT_reparent]; exact hrs
    · rw [if_neg h1]
      by_cases h2 : sz < s
      · rw [if_pos h2]
        refine ⟨ihl a hOl, hOr, ?_, hrs⟩
        intro x hx
        rcases sizesT_insert_mem l bp sz a x hx with hm | hm
        · exact hls x hm
        · omega
      · rw [if_neg h2]
        refine ⟨hOl, ihr a hOr, hls, ?_⟩
        intro x hx
        rcases sizesT_insert_mem r bp sz a x hx with hm | hm
        · exact hrs x hm
        · omega

theorem parentOkT_insert (t : BTreeT) (bp sz e : Nat) (h : ParentOkT t e) :
    ParentOkT (bstInsertT t bp sz e) e := by
  induction t generalizing e with
  | nil => exact ⟨rfl, trivial, trivial⟩
  | node l a ch s p r ihl ihr =>
    obtain ⟨hp, hl, hr⟩ := h
    simp only [bstInsertT]
    by_cases h1 : sz = s
    · rw [if_pos h1]
      exact ⟨hp, parentOkT_reparent l a bp hl, parentOkT_reparent r a bp hr⟩
    · rw [if_neg h1]
      by_cases h2 : sz < s
      · rw [if_pos h2]
        exact ⟨hp, ihl a hl, hr⟩
      · rw [if_neg h2]
        exact ⟨hp, hl, ihr a hr⟩

theorem removeMinT_spec (t : BTreeT) : ∀ pa, t ≠ nil → OrderedT t →
    OrderedT (removeMinT t pa).1 ∧
    (∀ x ∈ sizesT (removeMinT t pa).1, x ∈ sizesT t) ∧
    (removeMinT t pa).2.2.2 ∈ sizesT t ∧
    (∀ x ∈ sizesT (removeMinT t pa).1, (removeMinT t pa).2.2.2 < x) := by
  induction t with
  | nil => intro pa hne; exact absurd rfl hne
  | node l a ch s p r ihl ihr =>
    intro pa hne hOrd
    obtain ⟨hOl, hOr, hls, hrs⟩ := hOrd
    cases l with
    | nil =>
      simp only [removeMinT, sizesT_reparent]
      refine ⟨(orderedT_reparent r pa).mpr hOr, ?_, ?_, ?_⟩
      · intro x hx
        simp only [sizesT, List.mem_append, List.mem_cons]
        exact Or.inr (Or.inr hx)
      · simp [sizesT]
      · intro x hx
        exact hrs x hx
    | node ll la lch ls lp lr =>
      have hlne : (node ll la lch ls lp lr) ≠ nil := by simp
      obtain ⟨ihO, ihSub, ihMem, ihMin⟩ := ihl a hlne hOl
      simp only [removeMinT]
      refine ⟨⟨ihO, hOr, ?_, hrs⟩, ?_, ?_, ?_⟩
      · intro x hx
        exact hls x (ihSub x hx)
      · intro x hx
        simp only [sizesT, List.mem_append, List.mem_cons] at hx ⊢
        rcases hx with hx | hx | hx
        · exact Or.inl (by
            simpa only [sizesT, List.mem_append, List.mem_cons] using ihSub x hx)
        · exact Or.inr (Or.inl hx)
        · exact Or.inr (Or.inr hx)
      · simp only [sizesT, List.mem_append, List.mem_cons]
        exact Or.inl (by
          simpa only [sizesT, List.mem_append, List.mem_cons] using ihMem)
      · intro x hx
        simp only [sizesT, List.mem_append, List.mem_cons] at hx
        have hmlt : (removeMinT (node ll la lch ls lp lr) a).2.2.2 < s :=
          hls _ ihMem
        rcases hx with hx | hx | hx
        · exact ihMin x hx
        · omega
        · have := hrs x hx
          omega

theorem removeMinT_parentOk (t : BTreeT) : ∀ pa, t ≠ nil → ParentOkT t pa →
    ParentOkT (removeMinT t pa).1 pa := by
  induction t with
  | nil => intro pa hne; exact absurd rfl hne
  | node l a ch s p r ihl ihr =>
    intro pa hne hP
    obtain ⟨hp, hPl, hPr⟩ := hP
    cases l with
    | nil =>
      simp only [removeMinT]
      exact parentOkT_reparent r a pa hPr
    | node ll la lch ls lp lr =>
      simp only [removeMinT]
      exact ⟨hp, ihl a (by simp) hPl, hPr⟩

theorem sizesT_remove_mem (t : BTreeT) (bp sz : Nat) (hOrd : OrderedT t) :
    ∀ x ∈ sizesT (bstRemoveT t bp sz), x ∈ sizesT t := by
  induction t with
  | nil => intro x hx; simp [bstRemoveT, sizesT] at hx
  | node l a ch s p r ihl ihr =>
    obtain ⟨hOl, hOr, hls, hrs⟩ := hOrd
    intro x hx
    simp only [bstRemoveT] at hx
    by_cases h1 : sz < s
    · rw [if_pos h1] at hx
      simp only [sizesT, List.mem_append, List.mem_cons] at hx ⊢
      rcases hx with hx | hx | hx
      · exact Or.inl (ihl hOl x hx)
      · exact Or.inr (Or.inl hx)
      · exact Or.inr (Or.inr hx)
    · rw [if_neg h1] at hx
      by_cases h2 : s < sz
      · rw [if_pos h2] at hx
        simp only [sizesT, List.mem_append, List.mem_cons] at hx ⊢
        rcases hx with hx | hx | hx
        · exact Or.inl hx
        · exact Or.inr (Or.inl hx)
        · exact Or.inr (Or.inr (ihr hOr x hx))
      · rw [if_neg h2] at hx
        by_cases h3 : bp ≠ a
        · rw [if_pos h3] at hx
          simp only [sizesT, List.mem_append, List.mem_cons] at hx ⊢
          exact hx
        · rw [if_neg h3] at hx
          cases ch with
          | cons succ rest =>
            simp only [sizesT, sizesT_reparent, List.mem_append, List.mem_cons] at hx ⊢
            exact hx
          | nil =>
            cases l with
            | nil =>
              cases r with
              | nil => simp [sizesT] at hx
              | node rl ra rch rs rp rr =>
                simp only [sizesT, List.mem_append, List.mem_cons] at hx ⊢
                exact Or.inr (Or.inr hx)
            | node ll la lch ls lp lr =>
              cases r with
              | nil =>
                simp only [sizesT, List.mem_append, List.mem_cons] at hx ⊢
                rcases hx with hx | hx | hx
                · exact Or.inl (Or.inl hx)
                · exact Or.inl (Or.inr (Or.inl hx))
                · exact Or.inl (Or.inr (Or.inr hx))
              | node rl ra rch rs rp rr =>
                cases rl with
                | nil =>
                  simp only [sizesT, sizesT_reparent, List.mem_append,
                    List.mem_cons] at hx ⊢
                  rcases hx with hx | hx | hx
                  · exact Or.inl hx
                  · exact Or.inr (Or.inr (Or.inr (Or.inl hx)))
                  · exact Or.inr (Or.inr (Or.inr (Or.inr hx)))
                | node rll rla rlch rls rlp rlr =>
                  have hrne : (node (node rll rla rlch rls rlp rlr) ra rch rs rp rr) ≠ nil := by
                    simp
                  obtain ⟨_, ihSub, ihMem, _⟩ :=
                    removeMinT_spec (node (node rll rla rlch rls rlp rlr) ra rch rs rp rr) 0
                      hrne hOr
                  simp only [removeMinT, sizesT, sizesT_reparent, List.mem_append,
                    List.mem_cons] at hx ihSub ihMem ⊢
                  rcases hx with hx | hx | hx
                  · tauto
                  · subst hx
                    tauto
                  · have h6 := ihSub x hx
                    tauto

theorem orderedT_remove (t : BTreeT) (bp sz : Nat) (hOrd : OrderedT t) :
    OrderedT (bstRemoveT t bp sz) := by
  induction t with
  | nil => trivial
  | node l a ch s p r ihl ihr =>
    obtain ⟨hOl, hOr, hls, hrs⟩ := hOrd
    simp only [bstRemoveT]
    by_cases h1 : sz < s
    · rw [if_pos h1]
      exact ⟨ihl hOl, hOr, fun x hx => hls x (sizesT_remove_mem l bp sz hOl x hx), hrs⟩
    · rw [if_neg h1]
      by_cases h2 : s < sz
      · rw [if_pos h2]
        exact ⟨hOl, ihr hOr, hls, fun x hx => hrs x (sizesT_remove_mem r bp sz hOr x hx)⟩
      · rw [if_neg h2]
        by_cases h3 : bp ≠ a
        · rw [if_pos h3]
          exact ⟨hOl, hOr, hls, hrs⟩
        · rw [if_neg h3]
          cases ch with
          | cons succ rest =>
            refine ⟨(orderedT_reparent l succ).mpr hOl, (orderedT_reparent r succ).mpr hOr,
              ?_, ?_⟩
            · rw [sizesT_reparent]; exact hls
            · rw [sizesT_reparent]; exact hrs
          | nil =>
            cases l with
            | nil =>
              cases r with
              | nil => trivial
              | node rl ra rch rs rp rr => exact hOr
            | node ll la lch ls lp lr =>
              cases r with
              | nil => exact hOl
              | node rl ra rch rs rp rr =>
                cases rl with
                | nil =>
                  obtain ⟨hOrl, hOrr, hrls, hrrs⟩ := hOr
                  refine ⟨(orderedT_reparent _ ra).mpr hOl, hOrr, ?_, hrrs⟩
                  rw [sizesT_reparent]
                  intro x hx
                  have h4 := hls x hx
                  have h5 : s < rs := hrs rs (by simp [sizesT])
                  omega
                | node rll rla rlch rls rlp rlr =>
                  have hrne : (node (node rll rla rlch rls rlp rlr) ra rch rs rp rr) ≠ nil := by
                    simp
                  obtain ⟨ihO, ihSub, ihMem, ihMin⟩ :=
                    removeMinT_spec (node (node rll rla rlch rls rlp rlr) ra rch rs rp rr) 0
                      hrne hOr
                  have hsm : s < (removeMinT
                      (node (node rll rla rlch rls rlp rlr) ra rch rs rp rr) 0).2.2.2 :=
                    hrs _ ihMem
                  refine ⟨(orderedT_reparent _ _).mpr hOl, (orderedT_reparent _ _).mpr ihO,
                    ?_, ?_⟩
                  · rw [sizesT_reparent]
                    intro x hx
                    have := hls x hx
                    omega
                  · rw [sizesT_reparent]
                    exact ihMin

theorem parentOkT_remove (t : BTreeT) (bp sz e : Nat) (hP : ParentOkT t e) :
    ParentOkT (bstRemoveT t bp sz) e := by
  induction t generalizing e with
  | nil => trivial
  | node l a ch s p r ihl ihr =>
    obtain ⟨hp, hPl, hPr⟩ := hP
    simp only [bstRemoveT]
    by_cases h1 : sz < s
    · rw [if_pos h1]
      exact ⟨hp, ihl a hPl, hPr⟩
    · rw [if_neg h1]
      by_cases h2 : s < sz
      · rw [if_pos h2]
        exact ⟨hp, hPl, ihr a hPr⟩
      · rw [if_neg h2]
        by_cases h3 : bp ≠ a
        · rw [if_pos h3]
          exact ⟨hp, hPl, hPr⟩
        · rw [if_neg h3]
          cases ch with
          | cons succ rest =>
            exact ⟨hp, parentOkT_reparent l a succ hPl, parentOkT_reparent r a succ hPr⟩
          | nil =>
            cases l with
            | nil =>
              cases r with
              | nil => trivial
              | node rl ra rch rs rp rr => exact ⟨hp, hPr.2.1, hPr.2.2⟩
            | node ll la lch ls lp lr =>
              cases r with
              | nil => exact ⟨hp, hPl.2.1, hPl.2.2⟩
              | node rl ra rch rs rp rr =>
                cases rl with
                | nil =>
                  exact ⟨hp, parentOkT_reparent _ a ra hPl, hPr.2.2⟩
                | node rll rla rlch rls rlp rlr =>
                  refine ⟨hp, parentOkT_reparent _ a _ hPl, ?_⟩
                  simp only [removeMinT]
                  refine parentOkT_reparent _ rp _ ?_
                  exact ⟨rfl,
                    removeMinT_parentOk (node rll rla rlch rls rlp rlr) ra (by simp) hPr.2.1,
                    hPr.2.2⟩

theorem orderedT_chain (t : BTreeT) (hOrd : OrderedT t) :
    List.Chain' (· < ·) (sizesT t) := by
  induction t with
  | nil => simp [sizesT]
  | node l a ch s p r ihl ihr =>
    obtain ⟨hOl, hOr, hls, hrs⟩ := hOrd
    simp only [sizesT]
    rw [List.chain'_append]
    refine ⟨ihl hOl, ?_, ?_⟩
    · rw [List.chain'_cons']
      refine ⟨fun y hy => ?_, ihr hOr⟩
      exact hrs y (List.mem_of_mem_head? hy)
    · intro x hx y hy
      simp only [List.head?_cons, Option.mem_def, Option.some.injEq] at hy
      subst hy
      exact hls x (List.mem_of_mem_getLast? hx)

end BTreeT

/-- C6: the Free Index BST is an ordered binary search tree on block
size — the in-order traversal of node sizes is strictly increasing
(List.Pairwise, so in particular no two tree peers carry equal size) —
and every parent-child link is bidirectional (every stored parent
pointer names the actual parent node, ParentOkT); BST insert and remove
both preserve the ordering and the parent links; and an equal-size
insert creates no tree peer: the inserted block takes over the node
position as head of the same-size chain, the previous head is pushed
onto the chain, and both subtrees are reparented to the new head. -/
theorem bst_invariants_preserved :
    (∀ t bp sz e, BTreeT.OrderedT t → BTreeT.OrderedT (BTreeT.bstInsertT t bp sz e)) ∧
    (∀ t bp sz e, BTreeT.ParentOkT t e → BTreeT.ParentOkT (BTreeT.bstInsertT t bp sz e) e) ∧
    (∀ t bp sz, BTreeT.OrderedT t → BTreeT.OrderedT (BTreeT.bstRemoveT t bp sz)) ∧
    (∀ t bp sz e, BTreeT.ParentOkT t e → BTreeT.ParentOkT (BTreeT.bstRemoveT t bp sz) e) ∧
    (∀ t, BTreeT.OrderedT t → List.Pairwise (· < ·) (BTreeT.sizesT t)) ∧
    (∀ l a ch s p r bp e, BTreeT.bstInsertT (.node l a ch s p r) bp s e =
      .node (BTreeT.reparent l bp) bp (a :: ch) s p (BTreeT.reparent r bp)) :=
  ⟨fun t bp sz e h => BTreeT.orderedT_insert t bp sz e h,
   fun t bp sz e h => BTreeT.parentOkT_insert t bp sz e h,
   fun t bp sz h => BTreeT.orderedT_remove t bp sz h,
   fun t bp sz e h => BTreeT.parentOkT_remove t bp sz e h,
   fun t h => List.chain'_iff_pairwise.mp (BTreeT.orderedT_chain t h),
   fun l a ch s p r bp e => by simp [BTreeT.bstInsertT]⟩

/-- Witness for C6 at a concrete tree: inserting size 56 at address 300
into the singleton tree of size 40 keeps it ordered with correct parent
links, its in-order sizes are strictly increasing, removing the size-40
node keeps the parent links, and inserting a second size-40 block
splices it in as the chain head instead of creating a peer. -/
theorem bst_invariants_preserved_witness :
    BTreeT.OrderedT
      (BTreeT.bstInsertT (.node .nil 200 [] 40 0 .nil) 300 56 0) ∧
    BTreeT.ParentOkT
      (BTreeT.bstInsertT (.node .nil 200 [] 40 0 .nil) 300 56 0) 0 ∧
    BTreeT.OrderedT
      (BTreeT.bstRemoveT (.node .nil 200 [] 40 0 .nil) 200 40) ∧
    BTreeT.ParentOkT
      (BTreeT.bstRemoveT (.node .nil 200 [] 40 0 .nil) 200 40) 0 ∧
    List.Pairwise (· < ·)
      (BTreeT.sizesT (.node .nil 200 [] 40 0 (.node .nil 300 [] 56 200 .nil))) ∧
    BTreeT.bstInsertT (.node .nil 200 [] 40 0 .nil) 300 40 0 =
      .node .nil 300 [200] 40 0 .nil :=
  ⟨bst_invariants_preserved.1 _ 300 56 0 (by decide),
   bst_invariants_preserved.2.1 _ 300 56 0 (by decide),
   bst_invariants_preserved.2.2.1 _ 200 40 (by decide),
   bst_invariants_preserved.2.2.2.1 _ 200 40 0 (by decide),
   bst_invariants_preserved.2.2.2.2.1 _ (by decide),
   bst_invariants_preserved.2.2.2.2.2 .nil 200 [] 40 0 .nil 300 0⟩

/-! ## Additional list lemmas for the heap surgeries -/

theorem listSet_append_len1 {α : Type} (l₁ l₂ : List α) (b c v : α) :
    (l₁ ++ b :: c :: l₂).set (l₁.length + 1) v = l₁ ++ b :: v :: l₂ := by
  induction l₁ with
  | nil => simp
  | cons x xs ih => simpa using ih

theorem listSet_append_len2 {α : Type} (l₁ l₂ : List α) (b c d v : α) :
    (l₁ ++ b :: c :: d :: l₂).set (l₁.length + 2) v = l₁ ++ b :: c :: v :: l₂ := by
  induction l₁ with
  | nil => simp
  | cons x xs ih => simpa using ih

theorem listGetD_append_len2 {α : Type} (l₁ l₂ : List α) (b c d e : α) :
    (l₁ ++ b :: c :: d :: l₂).getD (l₁.length + 2) e = d := by
  induction l₁ with
  | nil => simp [List.getD]
  | cons x xs ih => simpa [List.getD] using ih

theorem listDrop_append_len2 {α : Type} (l₁ l₂ : List α) (b c : α) :
    (l₁ ++ b :: c :: l₂).drop (l₁.length + 2) = l₂ := by
  induction l₁ with
  | nil => simp
  | cons x xs ih => simpa using ih

theorem listDrop_append_len3 {α : Type} (l₁ l₂ : List α) (b c d : α) :
    (l₁ ++ b :: c :: d :: l₂).drop (l₁.length + 3) = l₂ := by
  induction l₁ with
  | nil => simp
  | cons x xs ih => simpa using ih

theorem listHeadD_append {α : Type} (l₁ l₂ : List α) (d : α) (h : l₁ ≠ []) :
    (l₁ ++ l₂).headD d = l₁.headD d := by
  cases l₁ with
  | nil => exact absurd rfl h
  | cons x xs => rfl

theorem listDrop1_append {α : Type} (l₁ l₂ : List α) (h : l₁ ≠ []) :
    (l₁ ++ l₂).drop 1 = l₁.drop 1 ++ l₂ := by
  cases l₁ with
  | nil => exact absurd rfl h
  | cons x xs => rfl

theorem listGetLast?_append {α : Type} (l₁ l₂ : List α) (h : l₂ ≠ []) :
    (l₁ ++ l₂).getLast? = l₂.getLast? :=
  List.getLast?_append_of_ne_nil l₁ h

theorem listDropLast_append {α : Type} (l₁ l₂ : List α) (h : l₂ ≠ []) :
    (l₁ ++ l₂).dropLast = l₁ ++ l₂.dropLast := by
  cases l₂ with
  | nil => exact absurd rfl h
  | cons x xs => rw [List.dropLast_append_cons]

/-! ## Header-projection lemmas for the 2mm-myseg.c model -/

namespace Seg

theorem hproj_length (h : Heap) : (hproj h).length = h.blocks.length := by
  unfold hproj; simp

theorem sizes_eq_hproj (h : Heap) :
    h.blocks.map Blk.size = (hproj h).map Hdr.size := by
  unfold hproj
  rw [List.map_map]
  rfl

theorem hdrOf_default : hdrOf (default : Blk) = (default : Hdr) := rfl

theorem resolve_of_hproj (h h' : Heap) (he : hproj h' = hproj h) (a : Nat) :
    resolve h' a = resolve h a :=
  resolve_congr h h' (by rw [sizes_eq_hproj, sizes_eq_hproj, he]) a

theorem hdrOf_blkAt_some (h : Heap) (a i : Nat) (hr : resolve h a = some i) :
    hdrOf (blkAt h a) = (hproj h).getD i default := by
  unfold blkAt
  rw [hr]
  exact (listGetD_map hdrOf h.blocks i default).symm

theorem hdrOf_blkAt_none (h : Heap) (a : Nat) (hr : resolve h a = none) :
    hdrOf (blkAt h a) = default := by
  unfold blkAt
  rw [hr]
  rfl

theorem sameHdr_refl (h : Heap) : SameHdr h h := ⟨rfl, rfl⟩

theorem sameHdr_comp {h1 h2 h3 : Heap} (a : SameHdr h1 h2) (b : SameHdr h2 h3) :
    SameHdr h1 h3 := ⟨b.1.trans a.1, b.2.trans a.2⟩

theorem sameHdr_ite (c : Prop) [Decidable c] {h h1 h2 : Heap}
    (ha : SameHdr h h1) (hb : SameHdr h h2) : SameHdr h (if c then h1 else h2) := by
  split
  · exact ha
  · exact hb

theorem blkAt_of_sameHdr (h h' : Heap) (hs : SameHdr h h') (a : Nat) :
    hdrOf (blkAt h' a) = hdrOf (blkAt h a) := by
  cases hr : resolve h a with
  | none =>
    rw [hdrOf_blkAt_none h a hr,
        hdrOf_blkAt_none h' a ((resolve_of_hproj h h' hs.1 a).trans hr)]
  | some i =>
    rw [hdrOf_blkAt_some h a i hr,
        hdrOf_blkAt_some h' a i ((resolve_of_hproj h h' hs.1 a).trans hr), hs.1]

theorem get_size_of_sameHdr (h h' : Heap) (hs : SameHdr h h') (a : Nat) :
    get_size h' a = get_size h a :=
  congrArg Hdr.size (blkAt_of_sameHdr h h' hs a)

theorem get_alloc_of_sameHdr (h h' : Heap) (hs : SameHdr h h') (a : Nat) :
    get_alloc h' a = get_alloc h a :=
  congrArg Hdr.alloc (blkAt_of_sameHdr h h' hs a)

theorem updAt_freeLists (h : Heap) (a : Nat) (f : Blk → Blk) :
    (updAt h a f).freeLists = h.freeLists := by
  unfold updAt; cases resolve h a <;> rfl

theorem hproj_updAt_none (h : Heap) (a : Nat) (f : Blk → Blk)
    (hr : resolve h a = none) : hproj (updAt h a f) = hproj h := by
  unfold updAt
  rw [hr]

theorem hproj_updAt_some (h : Heap) (a : Nat) (f : Blk → Blk) (i : Nat)
    (hr : resolve h a = some i) :
    hproj (updAt h a f) = (hproj h).set i (hdrOf (f (h.blocks.getD i default))) := by
  unfold updAt
  rw [hr]
  unfold hproj
  simp [List.map_set]

theorem sameHdr_updAt_link (h : Heap) (a : Nat) (f : Blk → Blk)
    (hf : ∀ b, hdrOf (f b) = hdrOf b) : SameHdr h (updAt h a f) := by
  refine ⟨?_, by rw [updAt_freeLists]⟩
  cases hr : resolve h a with
  | none => rw [hproj_updAt_none h a f hr]
  | some i =>
    rw [hproj_updAt_some h a f i hr, hf, ← listGetD_map hdrOf h.blocks i default]
    exact listSet_getD_self _ _ _

theorem sameHdr_set_pred (h : Heap) (a v : Nat) : SameHdr h (set_pred h a v) :=
  sameHdr_updAt_link h a _ (fun _ => rfl)

theorem sameHdr_set_succ (h : Heap) (a v : Nat) : SameHdr h (set_succ h a v) :=
  sameHdr_updAt_link h a _ (fun _ => rfl)

theorem sameHdr_set_left (h : Heap) (a v : Nat) : SameHdr h (set_left h a v) :=
  sameHdr_updAt_link h a _ (fun _ => rfl)

theorem sameHdr_set_right (h : Heap) (a v : Nat) : SameHdr h (set_right h a v) :=
  sameHdr_updAt_link h a _ (fun _ => rfl)

theorem sameHdr_set_parent (h : Heap) (a v : Nat) : SameHdr h (set_parent h a v) :=
  sameHdr_updAt_link h a _ (fun _ => rfl)

theorem sameHdr_binSet (h : Heap) (i v : Nat) : SameHdr h (binSet h i v) :=
  ⟨rfl, by simp [binSet]⟩

theorem sameHdr_replace_child (h : Heap) (p c n : Nat) :
    SameHdr h (replace_child h p c n) := by
  unfold replace_child
  split
  · split
    · exact sameHdr_set_left h _ _
    · exact sameHdr_set_right h _ _
  · exact sameHdr_binSet h _ _

theorem sameHdr_insert_free (h : Heap) (bp index : Nat) :
    SameHdr h (insert_free h bp index) := by
  unfold insert_free
  dsimp only
  split
  · split
    · refine sameHdr_comp ?_ (sameHdr_binSet _ _ _)
      refine sameHdr_comp ?_ (sameHdr_set_pred _ _ _)
      refine sameHdr_comp ?_ (sameHdr_set_succ _ _ _)
      refine sameHdr_comp ?_ (sameHdr_set_succ _ _ _)
      exact sameHdr_set_pred _ _ _
    · refine sameHdr_comp ?_ (sameHdr_binSet _ _ _)
      refine sameHdr_comp ?_ (sameHdr_set_succ _ _ _)
      exact sameHdr_set_pred _ _ _
  · exact sameHdr_comp (sameHdr_set_succ _ _ _) (sameHdr_binSet _ _ _)

theorem sameHdr_bst_insert_loop (bp size : Nat) (h : Heap) (fuel x y : Nat) :
    SameHdr h (bst_insert_loop bp size h fuel x y) := by
  induction fuel generalizing h x y with
  | zero => exact sameHdr_refl h
  | succ n ih =>
    cases x with
    | zero =>
      simp only [bst_insert_loop]
      split
      · exact sameHdr_binSet _ _ _
      · split
        · exact sameHdr_comp (sameHdr_set_left _ _ _) (sameHdr_set_parent _ _ _)
        · exact sameHdr_comp (sameHdr_set_right _ _ _) (sameHdr_set_parent _ _ _)
    | succ m =>
      simp only [bst_insert_loop]
      split
      · refine sameHdr_comp ?_ (sameHdr_set_right _ _ _)
        refine sameHdr_comp ?_ (sameHdr_set_left _ _ _)
        refine sameHdr_comp ?_ (sameHdr_set_parent _ _ _)
        refine sameHdr_comp ?_ (sameHdr_replace_child _ _ _ _)
        refine sameHdr_comp ?_ (sameHdr_set_parent _ _ _)
        refine sameHdr_comp ?_ (sameHdr_ite _ (sameHdr_set_parent _ _ _)
          (sameHdr_refl _))
        refine sameHdr_comp ?_ (sameHdr_set_right _ _ _)
        refine sameHdr_comp ?_ (sameHdr_ite _ (sameHdr_set_parent _ _ _)
          (sameHdr_refl _))
        refine sameHdr_comp ?_ (sameHdr_set_left _ _ _)
        exact sameHdr_comp (sameHdr_set_succ _ _ _) (sameHdr_set_pred _ _ _)
      · split
        · exact ih _ _ _
        · exact ih _ _ _

theorem sameHdr_bst_insert (h : Heap) (bp : Nat) : SameHdr h (bst_insert h bp) := by
  unfold bst_insert
  dsimp only
  refine sameHdr_comp ?_ (sameHdr_bst_insert_loop _ _ _ _ _ _)
  refine sameHdr_comp ?_ (sameHdr_set_right _ _ _)
  refine sameHdr_comp ?_ (sameHdr_set_left _ _ _)
  refine sameHdr_comp ?_ (sameHdr_set_parent _ _ _)
  exact sameHdr_comp (sameHdr_set_succ _ _ _) (sameHdr_set_pred _ _ _)

theorem sameHdr_delete_free0_loop (bp : Nat) (h : Heap) (fuel head prev : Nat) :
    SameHdr h (delete_free0_loop bp h fuel head prev) := by
  induction fuel generalizing h head prev with
  | zero => exact sameHdr_refl h
  | succ n ih =>
    simp only [delete_free0_loop]
    split
    · split
      · exact sameHdr_binSet _ _ _
      · exact sameHdr_set_succ _ _ _
    · exact ih _ _ _

theorem sameHdr_delete_free (h : Heap) (bp index : Nat) :
    SameHdr h (delete_free h bp index) := by
  unfold delete_free
  dsimp only
  split
  · refine sameHdr_comp ?_ (sameHdr_binSet _ _ _)
    refine sameHdr_comp ?_ (sameHdr_set_succ _ _ _)
    refine sameHdr_comp ?_ (sameHdr_set_pred _ _ _)
    refine sameHdr_comp ?_ (sameHdr_ite _ (sameHdr_set_pred _ _ _) (sameHdr_refl _))
    exact sameHdr_ite _ (sameHdr_set_succ _ _ _) (sameHdr_refl _)
  · exact sameHdr_delete_free0_loop _ _ _ _ _

theorem sameHdr_bst_delete (h : Heap) (bp : Nat) : SameHdr h (bst_delete h bp) := by
  unfold bst_delete
  dsimp only
  split
  · split
    · refine sameHdr_comp ?_ (sameHdr_replace_child _ _ _ _)
      refine sameHdr_comp ?_ (sameHdr_set_parent _ _ _)
      refine sameHdr_comp ?_ (sameHdr_ite _ (sameHdr_set_parent _ _ _)
        (sameHdr_refl _))
      refine sameHdr_comp ?_ (sameHdr_set_right _ _ _)
      refine sameHdr_comp ?_ (sameHdr_ite _ (sameHdr_set_parent _ _ _)
        (sameHdr_refl _))
      exact sameHdr_comp (sameHdr_set_pred _ _ _) (sameHdr_set_left _ _ _)
    · split
      · split
        · refine sameHdr_comp ?_ (sameHdr_replace_child _ _ _ _)
          refine sameHdr_comp ?_ (sameHdr_set_parent _ _ _)
          exact sameHdr_comp (sameHdr_set_left _ _ _) (sameHdr_set_parent _ _ _)
        · refine sameHdr_comp ?_ (sameHdr_replace_child _ _ _ _)
          refine sameHdr_comp ?_ (sameHdr_set_parent _ _ _)
          refine sameHdr_comp ?_ (sameHdr_set_parent _ _ _)
          refine sameHdr_comp ?_ (sameHdr_set_right _ _ _)
          refine sameHdr_comp ?_ (sameHdr_set_parent _ _ _)
          refine sameHdr_comp ?_ (sameHdr_set_left _ _ _)
          refine sameHdr_comp ?_ (sameHdr_replace_child _ _ _ _)
          exact sameHdr_ite _ (sameHdr_set_parent _ _ _) (sameHdr_refl _)
      · split
        · exact sameHdr_comp (sameHdr_set_parent _ _ _) (sameHdr_replace_child _ _ _ _)
        · split
          · exact sameHdr_comp (sameHdr_set_parent _ _ _)
              (sameHdr_replace_child _ _ _ _)
          · split
            · exact sameHdr_replace_child _ _ _ _
            · exact sameHdr_binSet _ _ _
  · refine sameHdr_comp ?_ (sameHdr_ite _ (sameHdr_set_pred _ _ _) (sameHdr_refl _))
    exact sameHdr_set_succ _ _ _

theorem listHeadD_map {α β : Type} (f : α → β) (l : List α) (d : α) :
    (l.map f).headD (f d) = f (l.headD d) := by
  cases l <;> rfl

theorem prevUpd_some (l : List Hdr) (i : Nat) (al : Bool) (sz : Nat) :
    prevUpd l (some i) al sz =
      l.set i (prevSet (l.getD i default) al (decide (sz ≤ MIN_SIZE))) := rfl

theorem prevUpd_none (l : List Hdr) (al : Bool) (sz : Nat) :
    prevUpd l none al sz = l := rfl

theorem insert_free_lists_spec (h : Heap) (bp : Nat) :
    hproj (insert_free_lists h bp) =
      prevUpd (hproj h) (resolve h (bp + get_size h bp)) false (get_size h bp) ∧
    (insert_free_lists h bp).freeLists.length = h.freeLists.length := by
  unfold insert_free_lists
  dsimp only
  have hs1 : SameHdr h (if get_index (get_size h bp) < LISTNUM - 1
      then insert_free h bp (get_index (get_size h bp)) else bst_insert h bp) :=
    sameHdr_ite _ (sameHdr_insert_free _ _ _) (sameHdr_bst_insert _ _)
  set H1 := if get_index (get_size h bp) < LISTNUM - 1
      then insert_free h bp (get_index (get_size h bp)) else bst_insert h bp with hH1
  have hg : get_size H1 bp = get_size h bp := get_size_of_sameHdr h H1 hs1 bp
  have hrs : ∀ x, resolve H1 x = resolve h x := fun x => resolve_of_hproj h H1 hs1.1 x
  constructor
  · unfold next_blkp
    rw [hg]
    cases hr : resolve h (bp + get_size h bp) with
    | none =>
      rw [hproj_updAt_none _ _ _ ((hrs _).trans hr), hs1.1]
      rfl
    | some i =>
      rw [hproj_updAt_some _ _ _ i ((hrs _).trans hr), hs1.1]
      have hgd : hdrOf (H1.blocks.getD i default) = (hproj h).getD i default := by
        rw [← hs1.1, ← hdrOf_default]
        exact (listGetD_map hdrOf H1.blocks i default).symm
      rw [prevUpd_some]
      congr 1
      rw [← hgd]
      rfl
  · rw [updAt_freeLists]
    exact hs1.2

theorem delete_free_lists_spec (h : Heap) (bp : Nat) :
    hproj (delete_free_lists h bp) =
      prevUpd (hproj h) (resolve h (bp + get_size h bp)) true (get_size h bp) ∧
    (delete_free_lists h bp).freeLists.length = h.freeLists.length := by
  unfold delete_free_lists
  dsimp only
  have hs1 : SameHdr h (if get_index (get_size h bp) < LISTNUM - 1
      then delete_free h bp (get_index (get_size h bp)) else bst_delete h bp) :=
    sameHdr_ite _ (sameHdr_delete_free _ _ _) (sameHdr_bst_delete _ _)
  set H1 := if get_index (get_size h bp) < LISTNUM - 1
      then delete_free h bp (get_index (get_size h bp)) else bst_delete h bp with hH1
  have hg : get_size H1 bp = get_size h bp := get_size_of_sameHdr h H1 hs1 bp
  have hrs : ∀ x, resolve H1 x = resolve h x := fun x => resolve_of_hproj h H1 hs1.1 x
  constructor
  · unfold next_blkp
    rw [hg]
    cases hr : resolve h (bp + get_size h bp) with
    | none =>
      rw [hproj_updAt_none _ _ _ ((hrs _).trans hr), hs1.1]
      rfl
    | some i =>
      rw [hproj_updAt_some _ _ _ i ((hrs _).trans hr), hs1.1]
      have hgd : hdrOf (H1.blocks.getD i default) = (hproj h).getD i default := by
        rw [← hs1.1, ← hdrOf_default]
        exact (listGetD_map hdrOf H1.blocks i default).symm
      rw [prevUpd_some]
      congr 1
      rw [← hgd]
      rfl
  · rw [updAt_freeLists]
    exact hs1.2

theorem put_ftr_spec (h : Heap) (a v i : Nat) (hr : resolve h a = some i)
    (hsz : ((hproj h).getD i default).size ≠ 8) :
    hproj (put_ftr h a v) = (hproj h).set i (ftrSet ((hproj h).getD i default) v) ∧
    (put_ftr h a v).freeLists = h.freeLists := by
  unfold put_ftr
  have hgd : hdrOf (h.blocks.getD i default) = (hproj h).getD i default := by
    rw [← hdrOf_default]
    exact (listGetD_map hdrOf h.blocks i default).symm
  have hbsz : (h.blocks.getD i default).size ≠ 8 := by
    rw [← hgd] at hsz
    exact hsz
  constructor
  · rw [hproj_updAt_some _ _ _ i hr]
    rw [if_neg hbsz]
    congr 1
    rw [← hgd]
    rfl
  · exact updAt_freeLists _ _ _

theorem merge_with_next_spec (h : Heap) (a ns i : Nat) (hr : resolve h a = some i) :
    hproj (merge_with_next h a ns) =
      (hproj h).take i ++
        (mergedHdr ((hproj h).getD i default) ns
          (lastWord (h.blocks.getD (i+1) default)) :: (hproj h).drop (i+2)) ∧
    (merge_with_next h a ns).freeLists = h.freeLists := by
  unfold merge_with_next
  rw [hr]
  have hgd : hdrOf (h.blocks.getD i default) = (hproj h).getD i default := by
    rw [← hdrOf_default]
    exact (listGetD_map hdrOf h.blocks i default).symm
  constructor
  · show (List.map hdrOf _) = _
    rw [List.map_append, List.map_take, List.map_cons, List.map_drop]
    congr 2
    rw [← hgd]
    rfl
  · rfl

theorem merge_with_next2_spec (h : Heap) (a ns i : Nat) (hr : resolve h a = some i) :
    hproj (merge_with_next2 h a ns) =
      (hproj h).take i ++
        (mergedHdr ((hproj h).getD i default) ns
          (lastWord (h.blocks.getD (i+2) default)) :: (hproj h).drop (i+3)) ∧
    (merge_with_next2 h a ns).freeLists = h.freeLists := by
  unfold merge_with_next2
  rw [hr]
  have hgd : hdrOf (h.blocks.getD i default) = (hproj h).getD i default := by
    rw [← hdrOf_default]
    exact (listGetD_map hdrOf h.blocks i default).symm
  constructor
  · show (List.map hdrOf _) = _
    rw [List.map_append, List.map_take, List.map_cons, List.map_drop]
    congr 2
    rw [← hgd]
    rfl
  · rfl

theorem resolveFrom_sizes (szxs : List Nat) : ∀ (l : List Blk) (rest : List Nat)
    (cur : Nat), l.map Blk.size = szxs ++ rest → (∀ s ∈ szxs, 0 < s) → rest ≠ [] →
    resolveFrom l cur (cur + szxs.sum) = some szxs.length := by
  induction szxs with
  | nil =>
    intro l rest cur hmap hpos hrest
    cases l with
    | nil =>
      exfalso
      apply hrest
      simpa using hmap.symm
    | cons b bs => simp [resolveFrom]
  | cons s ss ih =>
    intro l rest cur hmap hpos hrest
    cases l with
    | nil => simp at hmap
    | cons b bs =>
      simp only [List.map_cons, List.cons_append, List.cons.injEq] at hmap
      obtain ⟨hb, hbs⟩ := hmap
      have hs0 : 0 < s := hpos s (List.mem_cons_self _ _)
      simp only [resolveFrom, List.sum_cons]
      rw [if_neg (by omega), hb]
      have hrec := ih bs rest (cur + s) hbs
        (fun t ht => hpos t (List.mem_cons_of_mem _ ht)) hrest
      rw [show cur + (s + ss.sum) = cur + s + ss.sum by omega, hrec]
      simp

theorem resolveFrom_addr (l : List Blk) : ∀ (cur a i : Nat),
    resolveFrom l cur a = some i → a = cur + sumSz (l.take i) := by
  induction l with
  | nil => intro cur a i hr; simp [resolveFrom] at hr
  | cons b bs ih =>
    intro cur a i hr
    simp only [resolveFrom] at hr
    by_cases hc : a = cur
    · rw [if_pos hc] at hr
      cases hr
      simp [sumSz, hc]
    · rw [if_neg hc] at hr
      cases hrec : resolveFrom bs (cur + b.size) a with
      | none => rw [hrec] at hr; cases hr
      | some j =>
        rw [hrec] at hr
        cases hr
        have := ih _ _ _ hrec
        simp only [List.take_succ_cons, sumSz, List.map_cons, List.sum_cons] at this ⊢
        omega

theorem sumSz_append (l₁ l₂ : List Blk) : sumSz (l₁ ++ l₂) = sumSz l₁ + sumSz l₂ := by
  unfold sumSz
  rw [List.map_append, List.sum_append]

theorem sumSzH_append (l₁ l₂ : List Hdr) :
    sumSzH (l₁ ++ l₂) = sumSzH l₁ + sumSzH l₂ := by
  unfold sumSzH
  rw [List.map_append, List.sum_append]

theorem sumSz_eq_sumSzH (h : Heap) : sumSz h.blocks = sumSzH (hproj h) := by
  unfold sumSz sumSzH
  rw [sizes_eq_hproj]

theorem resolve_decompH (h : Heap) (Xs Ys : List Hdr) (B : Hdr)
    (hL : hproj h = Xs ++ B :: Ys) (hpos : ∀ e ∈ Xs, 0 < e.size) :
    resolve h (baseBp + sumSzH Xs) = some Xs.length := by
  unfold resolve
  have hm : h.blocks.map Blk.size = Xs.map Hdr.size ++ (B :: Ys).map Hdr.size := by
    rw [sizes_eq_hproj, hL, List.map_append]
  have := resolveFrom_sizes (Xs.map Hdr.size) h.blocks ((B :: Ys).map Hdr.size)
    baseBp hm (by
      intro s hs
      obtain ⟨e, he, rfl⟩ := List.mem_map.mp hs
      exact hpos e he) (by simp)
  simpa [sumSzH] using this

theorem getD_decompH (h : Heap) (Xs Ys : List Hdr) (B : Hdr)
    (hL : hproj h = Xs ++ B :: Ys) :
    (hproj h).getD Xs.length default = B := by
  rw [hL]
  exact listGetD_append_len Xs Ys B default

theorem blkAt_decompH (h : Heap) (Xs Ys : List Hdr) (B : Hdr)
    (hL : hproj h = Xs ++ B :: Ys) (hpos : ∀ e ∈ Xs, 0 < e.size) :
    hdrOf (blkAt h (baseBp + sumSzH Xs)) = B := by
  rw [hdrOf_blkAt_some h _ Xs.length (resolve_decompH h Xs Ys B hL hpos)]
  exact getD_decompH h Xs Ys B hL

theorem get_size_decompH (h : Heap) (Xs Ys : List Hdr) (B : Hdr)
    (hL : hproj h = Xs ++ B :: Ys) (hpos : ∀ e ∈ Xs, 0 < e.size) :
    get_size h (baseBp + sumSzH Xs) = B.size :=
  congrArg Hdr.size (blkAt_decompH h Xs Ys B hL hpos)

theorem get_alloc_decompH (h : Heap) (Xs Ys : List Hdr) (B : Hdr)
    (hL : hproj h = Xs ++ B :: Ys) (hpos : ∀ e ∈ Xs, 0 < e.size) :
    get_alloc h (baseBp + sumSzH Xs) = B.alloc :=
  congrArg Hdr.alloc (blkAt_decompH h Xs Ys B hL hpos)

theorem get_prev_alloc_decompH (h : Heap) (Xs Ys : List Hdr) (B : Hdr)
    (hL : hproj h = Xs ++ B :: Ys) (hpos : ∀ e ∈ Xs, 0 < e.size) :
    get_prev_alloc h (baseBp + sumSzH Xs) = B.prevAlloc :=
  congrArg Hdr.prevAlloc (blkAt_decompH h Xs Ys B hL hpos)

theorem get_prev_small_decompH (h : Heap) (Xs Ys : List Hdr) (B : Hdr)
    (hL : hproj h = Xs ++ B :: Ys) (hpos : ∀ e ∈ Xs, 0 < e.size) :
    get_prev_small h (baseBp + sumSzH Xs) = B.prevSmall :=
  congrArg Hdr.prevSmall (blkAt_decompH h Xs Ys B hL hpos)

theorem next_blkp_decompH (h : Heap) (Xs Ys : List Hdr) (B : Hdr)
    (hL : hproj h = Xs ++ B :: Ys) (hpos : ∀ e ∈ Xs, 0 < e.size) :
    next_blkp h (baseBp + sumSzH Xs) = baseBp + sumSzH Xs + B.size := by
  unfold next_blkp
  rw [get_size_decompH h Xs Ys B hL hpos]

theorem sumSzH_snoc (l : List Hdr) (e : Hdr) :
    sumSzH (l ++ [e]) = sumSzH l + e.size := by
  rw [sumSzH_append]
  simp [sumSzH]

theorem resolve_decompH1 (h : Heap) (Xs Ys : List Hdr) (B C : Hdr)
    (hL : hproj h = Xs ++ B :: C :: Ys) (hpos : ∀ e ∈ Xs, 0 < e.size)
    (hB : 0 < B.size) :
    resolve h (baseBp + sumSzH Xs + B.size) = some (Xs.length + 1) := by
  have hL' : hproj h = (Xs ++ [B]) ++ C :: Ys := by rw [hL]; simp
  have hpos' : ∀ e ∈ Xs ++ [B], 0 < e.size := by
    intro e he
    rcases List.mem_append.mp he with hm | hm
    · exact hpos e hm
    · simp at hm; subst hm; exact hB
  have := resolve_decompH h (Xs ++ [B]) Ys C hL' hpos'
  rw [sumSzH_snoc] at this
  rw [Nat.add_assoc]
  simpa using this

theorem prevUpd_at_len (Xs : List Hdr) (B : Hdr) (Ys : List Hdr) (al : Bool) (sz : Nat) :
    prevUpd (Xs ++ B :: Ys) (some Xs.length) al sz =
      Xs ++ prevSet B al (decide (sz ≤ MIN_SIZE)) :: Ys := by
  rw [prevUpd_some, listGetD_append_len, listSet_append_len]

theorem prevUpd_at_len1 (Xs : List Hdr) (B C : Hdr) (Ys : List Hdr) (al : Bool)
    (sz : Nat) :
    prevUpd (Xs ++ B :: C :: Ys) (some (Xs.length + 1)) al sz =
      Xs ++ B :: prevSet C al (decide (sz ≤ MIN_SIZE)) :: Ys := by
  rw [prevUpd_some, listGetD_append_len1, listSet_append_len1]

theorem prevUpd_at_len2 (Xs : List Hdr) (B C D : Hdr) (Ys : List Hdr) (al : Bool)
    (sz : Nat) :
    prevUpd (Xs ++ B :: C :: D :: Ys) (some (Xs.length + 2)) al sz =
      Xs ++ B :: C :: prevSet D al (decide (sz ≤ MIN_SIZE)) :: Ys := by
  rw [prevUpd_some, listGetD_append_len2, listSet_append_len2]

theorem dec_le8_eq_dec_eq8 (n : Nat) (hn : 8 ≤ n) :
    decide (n ≤ 8) = decide (n = 8) := by
  by_cases h8 : n = 8
  · subst h8; rfl
  · have h1 : ¬ n ≤ 8 := by omega
    simp [h1, h8]

theorem chain'_adjOkH_cons_congr (b b' : Hdr) (l : List Hdr)
    (ha : b'.alloc = b.alloc) (hs : b'.size = b.size)
    (hc : List.Chain' adjOkH (b :: l)) : List.Chain' adjOkH (b' :: l) := by
  rw [List.chain'_cons'] at hc ⊢
  refine ⟨fun y hy => ?_, hc.2⟩
  have hp := hc.1 y hy
  unfold adjOkH adjBitsH at hp ⊢
  rw [ha, hs]
  exact hp

theorem listGetLast?_cons_congr {α : Type} (x y : α) (l : List α) (hl : l ≠ []) :
    (x :: l).getLast? = (y :: l).getLast? := by
  have hx : (x :: l) = [x] ++ l := rfl
  have hy : (y :: l) = [y] ++ l := rfl
  rw [hx, hy, listGetLast?_append _ _ hl, listGetLast?_append _ _ hl]

theorem wfH_assemble (Z : List Hdr) (F N : Hdr) (W : List Hdr)
    (hZ : Z ≠ [])
    (hpro : proOkH (Z.headD default))
    (hzch : List.Chain' adjOkH Z)
    (hzmid : ∀ e ∈ Z.drop 1, okSizeH e ∧ ftrOkH e)
    (hbZF : ∀ x ∈ Z.getLast?, adjBitsH x F)
    (hlastal : ∀ x ∈ Z.getLast?, x.alloc = true ∨ F.alloc = true)
    (hFsz : okSizeH F) (hFftr : ftrOkH F)
    (hbFN : adjBitsH F N)
    (hFN : F.alloc = true ∨ N.alloc = true)
    (hnch : List.Chain' adjOkH (N :: W))
    (hnmid : ∀ e ∈ (N :: W).dropLast, okSizeH e ∧ ftrOkH e)
    (hepi : epiOkH ((N :: W).getLast?.getD default)) :
    WfH (Z ++ F :: N :: W) := by
  refine ⟨?_, ?_, ?_, ?_, ?_⟩
  · rw [listHeadD_append _ _ _ hZ]
    exact hpro
  · simp only [List.length_append, List.length_cons]
    omega
  · rw [listGetLast?_append _ _ (by simp)]
    exact hepi
  · intro e he
    rw [listDrop1_append _ _ hZ, listDropLast_append _ _ (by simp)] at he
    rcases List.mem_append.mp he with hm | hm
    · exact hzmid e hm
    · have hdl : (F :: N :: W).dropLast = F :: (N :: W).dropLast := rfl
      rw [hdl] at hm
      rcases List.mem_cons.mp hm with hm | hm
      · subst hm; exact ⟨hFsz, hFftr⟩
      · exact hnmid e hm
  · rw [List.chain'_append]
    refine ⟨hzch, ?_, ?_⟩
    · rw [List.chain'_cons']
      refine ⟨fun y hy => ?_, hnch⟩
      simp only [List.head?_cons, Option.mem_def, Option.some.injEq] at hy
      subst hy
      exact ⟨hbFN, hFN⟩
    · intro x hx y hy
      simp only [List.head?_cons, Option.mem_def, Option.some.injEq] at hy
      subst hy
      exact ⟨hbZF x hx, hlastal x hx⟩

theorem tail1_spec (h2 : Heap) (Z : List Hdr) (E F2 N : Hdr) (W : List Hdr) (sz2 : Nat)
    (hL2 : hproj h2 = Z ++ E :: F2 :: N :: W)
    (hpos : ∀ e ∈ Z, 0 < e.size) (hsz : 8 ≤ sz2) (h8 : sz2 ≠ 8) :
    hproj (insert_free_lists (put_ftr (merge_with_next h2 (baseBp + sumSzH Z) sz2)
        (baseBp + sumSzH Z) sz2) (baseBp + sumSzH Z)) =
      Z ++ ftrSet (mergedHdr E sz2
          (lastWord (h2.blocks.getD (Z.length + 1) default))) sz2 ::
        prevSet N false (decide (sz2 ≤ MIN_SIZE)) :: W ∧
    (insert_free_lists (put_ftr (merge_with_next h2 (baseBp + sumSzH Z) sz2)
        (baseBp + sumSzH Z) sz2) (baseBp + sumSzH Z)).freeLists.length =
      h2.freeLists.length := by
  have hrE : resolve h2 (baseBp + sumSzH Z) = some Z.length :=
    resolve_decompH h2 Z (F2 :: N :: W) E hL2 hpos
  obtain ⟨hm1, hm2⟩ := merge_with_next_spec h2 (baseBp + sumSzH Z) sz2 Z.length hrE
  rw [hL2, listTake_append_len, listGetD_append_len, listDrop_append_len2] at hm1
  have hL3 : hproj (merge_with_next h2 (baseBp + sumSzH Z) sz2) =
      Z ++ mergedHdr E sz2 (lastWord (h2.blocks.getD (Z.length + 1) default)) ::
        N :: W := hm1
  have hr3 : resolve (merge_with_next h2 (baseBp + sumSzH Z) sz2)
      (baseBp + sumSzH Z) = some Z.length :=
    resolve_decompH _ Z (N :: W) _ hL3 hpos
  have hgd3 : (hproj (merge_with_next h2 (baseBp + sumSzH Z) sz2)).getD Z.length
      default = mergedHdr E sz2 (lastWord (h2.blocks.getD (Z.length + 1) default)) :=
    getD_decompH _ Z (N :: W) _ hL3
  obtain ⟨hp1, hp2⟩ := put_ftr_spec (merge_with_next h2 (baseBp + sumSzH Z) sz2)
    (baseBp + sumSzH Z) sz2 Z.length hr3 (by rw [hgd3]; exact h8)
  rw [hgd3, hL3, listSet_append_len] at hp1
  have hL4 : hproj (put_ftr (merge_with_next h2 (baseBp + sumSzH Z) sz2)
      (baseBp + sumSzH Z) sz2) =
      Z ++ ftrSet (mergedHdr E sz2
        (lastWord (h2.blocks.getD (Z.length + 1) default))) sz2 :: N :: W := hp1
  have hg4 : get_size (put_ftr (merge_with_next h2 (baseBp + sumSzH Z) sz2)
      (baseBp + sumSzH Z) sz2) (baseBp + sumSzH Z) = sz2 :=
    get_size_decompH _ Z (N :: W) _ hL4 hpos
  obtain ⟨hi1, hi2⟩ := insert_free_lists_spec (put_ftr (merge_with_next h2
    (baseBp + sumSzH Z) sz2) (baseBp + sumSzH Z) sz2) (baseBp + sumSzH Z)
  rw [hg4] at hi1
  have hr4 : resolve (put_ftr (merge_with_next h2 (baseBp + sumSzH Z) sz2)
      (baseBp + sumSzH Z) sz2) (baseBp + sumSzH Z + sz2) = some (Z.length + 1) :=
    resolve_decompH1 _ Z W
      (ftrSet (mergedHdr E sz2 (lastWord (h2.blocks.getD (Z.length + 1) default))) sz2)
      N hL4 hpos (by show 0 < sz2; omega)
  rw [hr4, hL4, prevUpd_at_len1] at hi1
  refine ⟨hi1, ?_⟩
  rw [hi2, hp2, hm2]

theorem tail2_spec (h2 : Heap) (Z : List Hdr) (E F2 G N : Hdr) (W : List Hdr)
    (sz2 : Nat)
    (hL2 : hproj h2 = Z ++ E :: F2 :: G :: N :: W)
    (hpos : ∀ e ∈ Z, 0 < e.size) (hsz : 8 ≤ sz2) (h8 : sz2 ≠ 8) :
    hproj (insert_free_lists (put_ftr (merge_with_next2 h2 (baseBp + sumSzH Z) sz2)
        (baseBp + sumSzH Z) sz2) (baseBp + sumSzH Z)) =
      Z ++ ftrSet (mergedHdr E sz2
          (lastWord (h2.blocks.getD (Z.length + 2) default))) sz2 ::
        prevSet N false (decide (sz2 ≤ MIN_SIZE)) :: W ∧
    (insert_free_lists (put_ftr (merge_with_next2 h2 (baseBp + sumSzH Z) sz2)
        (baseBp + sumSzH Z) sz2) (baseBp + sumSzH Z)).freeLists.length =
      h2.freeLists.length := by
  have hrE : resolve h2 (baseBp + sumSzH Z) = some Z.length :=
    resolve_decompH h2 Z (F2 :: G :: N :: W) E hL2 hpos
  obtain ⟨hm1, hm2⟩ := merge_with_next2_spec h2 (baseBp + sumSzH Z) sz2 Z.length hrE
  rw [hL2, listTake_append_len, listGetD_append_len, listDrop_append_len3] at hm1
  have hL3 : hproj (merge_with_next2 h2 (baseBp + sumSzH Z) sz2) =
      Z ++ mergedHdr E sz2 (lastWord (h2.blocks.getD (Z.length + 2) default)) ::
        N :: W := hm1
  have hr3 : resolve (merge_with_next2 h2 (baseBp + sumSzH Z) sz2)
      (baseBp + sumSzH Z) = some Z.length :=
    resolve_decompH _ Z (N :: W) _ hL3 hpos
  have hgd3 : (hproj (merge_with_next2 h2 (baseBp + sumSzH Z) sz2)).getD Z.length
      default = mergedHdr E sz2 (lastWord (h2.blocks.getD (Z.length + 2) default)) :=
    getD_decompH _ Z (N :: W) _ hL3
  obtain ⟨hp1, hp2⟩ := put_ftr_spec (merge_with_next2 h2 (baseBp + sumSzH Z) sz2)
    (baseBp + sumSzH Z) sz2 Z.length hr3 (by rw [hgd3]; exact h8)
  rw [hgd3, hL3, listSet_append_len] at hp1
  have hL4 : hproj (put_ftr (merge_with_next2 h2 (baseBp + sumSzH Z) sz2)
      (baseBp + sumSzH Z) sz2) =
      Z ++ ftrSet (mergedHdr E sz2
        (lastWord (h2.blocks.getD (Z.length + 2) default))) sz2 :: N :: W := hp1
  have hg4 : get_size (put_ftr (merge_with_next2 h2 (baseBp + sumSzH Z) sz2)
      (baseBp + sumSzH Z) sz2) (baseBp + sumSzH Z) = sz2 :=
    get_size_decompH _ Z (N :: W) _ hL4 hpos
  obtain ⟨hi1, hi2⟩ := insert_free_lists_spec (put_ftr (merge_with_next2 h2
    (baseBp + sumSzH Z) sz2) (baseBp + sumSzH Z) sz2) (baseBp + sumSzH Z)
  rw [hg4] at hi1
  have hr4 : resolve (put_ftr (merge_with_next2 h2 (baseBp + sumSzH Z) sz2)
      (baseBp + sumSzH Z) sz2) (baseBp + sumSzH Z + sz2) = some (Z.length + 1) :=
    resolve_decompH1 _ Z W
      (ftrSet (mergedHdr E sz2 (lastWord (h2.blocks.getD (Z.length + 2) default))) sz2)
      N hL4 hpos (by show 0 < sz2; omega)
  rw [hr4, hL4, prevUpd_at_len1] at hi1
  refine ⟨hi1, ?_⟩
  rw [hi2, hp2, hm2]

theorem wf_iff (h : Heap) : Wf h ↔ WfH (hproj h) ∧ h.freeLists.length = 5 := by
  have hhead : (hproj h).headD default = hdrOf (h.blocks.headD default) := by
    rw [← hdrOf_default]
    exact listHeadD_map hdrOf h.blocks default
  have hlast : (hproj h).getLast?.getD default = hdrOf (h.blocks.getLast?.getD default) := by
    unfold hproj
    rw [List.getLast?_map, ← hdrOf_default]
    exact Option.getD_map hdrOf default h.blocks.getLast?
  have hmid : ((hproj h).drop 1).dropLast = ((h.blocks.drop 1).dropLast).map hdrOf := by
    unfold hproj
    rw [← List.map_drop, ← List.map_dropLast]
  have hch : (hproj h).Chain' adjOkH ↔ h.blocks.Chain' adjOk := by
    unfold hproj
    rw [List.chain'_map]
    constructor <;> intro hc
    · exact hc.imp (fun a b hab => ⟨hab.1.1, hab.1.2, hab.2⟩)
    · exact hc.imp (fun a b hab => ⟨⟨hab.1, hab.2.1⟩, hab.2.2⟩)
  constructor
  · rintro ⟨hpro, hlen, hepi1, hepi2, hmids, hchain, hfl⟩
    refine ⟨⟨?_, ?_, ⟨?_, ?_⟩, ?_, ?_⟩, hfl⟩
    · rw [hhead]
      exact hpro
    · rw [hproj_length]
      exact hlen
    · rw [hlast]
      exact hepi1
    · rw [hlast]
      exact hepi2
    · intro e he
      rw [hmid] at he
      obtain ⟨b, hb, rfl⟩ := List.mem_map.mp he
      exact hmids b hb
    · exact hch.mpr hchain
  · rintro ⟨⟨hpro, hlen, ⟨hepi1, hepi2⟩, hmids, hchain⟩, hfl⟩
    refine ⟨?_, ?_, ?_, ?_, ?_, ?_, hfl⟩
    · rw [hhead] at hpro
      exact hpro
    · rw [hproj_length] at hlen
      exact hlen
    · rw [hlast] at hepi1
      exact hepi1
    · rw [hlast] at hepi2
      exact hepi2
    · intro b hb
      have := hmids (hdrOf b) (by
        rw [hmid]
        exact List.mem_map_of_mem hdrOf hb)
      exact this
    · exact hch.mp hchain


theorem pos_of_pro_mid (Xs : List Hdr) (hxs : Xs ≠ [])
    (hpro : proOkH (Xs.headD default))
    (hxmid : ∀ e ∈ Xs.drop 1, okSizeH e ∧ ftrOkH e) : ∀ e ∈ Xs, 0 < e.size := by
  intro e he
  cases Xs with
  | nil => exact absurd rfl hxs
  | cons x xs =>
    rcases List.mem_cons.mp he with hm | hm
    · subst hm
      have h8 : e.size = 8 := hpro.1
      omega
    · have h8 := (hxmid e hm).1.1
      omega

theorem chain_pair_append (R : Hdr → Hdr → Prop) (Xs : List Hdr) (B : Hdr)
    (R2 : List Hdr) (hc : List.Chain' R (Xs ++ B :: R2)) :
    ∀ x ∈ Xs.getLast?, R x B := by
  have hp := (List.chain'_append.mp hc).2.2
  intro x hx
  exact hp x hx B (by simp)

theorem chain_tail_append (R : Hdr → Hdr → Prop) (Xs : List Hdr) (B : Hdr)
    (R2 : List Hdr) (hc : List.Chain' R (Xs ++ B :: R2)) :
    List.Chain' R (B :: R2) := (List.chain'_append.mp hc).2.1

theorem chain_head_pair (R : Hdr → Hdr → Prop) (B C : Hdr) (R2 : List Hdr)
    (hc : List.Chain' R (B :: C :: R2)) : R B C :=
  (List.chain'_cons'.mp hc).1 C (by simp)

theorem get_size_decompH1 (h : Heap) (Xs Ys : List Hdr) (B C : Hdr)
    (hL : hproj h = Xs ++ B :: C :: Ys) (hpos : ∀ e ∈ Xs, 0 < e.size)
    (hB : 0 < B.size) :
    get_size h (baseBp + sumSzH Xs + B.size) = C.size := by
  have hr := resolve_decompH1 h Xs Ys B C hL hpos hB
  have hg := hdrOf_blkAt_some h _ _ hr
  rw [hL, listGetD_append_len1] at hg
  exact congrArg Hdr.size hg

theorem next_blkp_decompH1 (h : Heap) (Xs Ys : List Hdr) (B C : Hdr)
    (hL : hproj h = Xs ++ B :: C :: Ys) (hpos : ∀ e ∈ Xs, 0 < e.size)
    (hB : 0 < B.size) :
    next_blkp h (baseBp + sumSzH Xs + B.size) = baseBp + sumSzH Xs + B.size + C.size := by
  unfold next_blkp
  rw [get_size_decompH1 h Xs Ys B C hL hpos hB]

theorem resolve_decompH2 (h : Heap) (Xs Ys : List Hdr) (B C D : Hdr)
    (hL : hproj h = Xs ++ B :: C :: D :: Ys) (hpos : ∀ e ∈ Xs, 0 < e.size)
    (hB : 0 < B.size) (hC : 0 < C.size) :
    resolve h (baseBp + sumSzH Xs + B.size + C.size) = some (Xs.length + 2) := by
  have hL' : hproj h = (Xs ++ [B]) ++ C :: D :: Ys := by rw [hL]; simp
  have hpos' : ∀ e ∈ Xs ++ [B], 0 < e.size := by
    intro e he
    rcases List.mem_append.mp he with hm | hm
    · exact hpos e hm
    · simp at hm; subst hm; exact hB
  have := resolve_decompH1 h (Xs ++ [B]) Ys C D hL' hpos' hC
  rw [sumSzH_snoc, ← Nat.add_assoc] at this
  simpa using this

theorem prevSet_prevSet (e : Hdr) (a b c d : Bool) :
    prevSet (prevSet e a b) c d = prevSet e c d := rfl

theorem prev_blkp_decompH (h : Heap) (Xs0 : List Hdr) (P B : Hdr) (R : List Hdr)
    (hL : hproj h = Xs0 ++ P :: B :: R)
    (hpos0 : ∀ e ∈ Xs0, 0 < e.size)
    (hP0 : 0 < P.size)
    (hPsz : okSizeH P)
    (hPftr : ftrOkH P)
    (hPal : P.alloc = false)
    (hbps : B.prevSmall = decide (P.size = 8)) :
    prev_blkp h (baseBp + sumSzH Xs0 + P.size) = baseBp + sumSzH Xs0 := by
  unfold prev_blkp
  have hr : resolve h (baseBp + sumSzH Xs0 + P.size) = some (Xs0.length + 1) :=
    resolve_decompH1 h Xs0 R P B hL hpos0 hP0
  have hps : (blkAt h (baseBp + sumSzH Xs0 + P.size)).prevSmall =
      decide (P.size = 8) := by
    have hg := hdrOf_blkAt_some h _ _ hr
    rw [hL, listGetD_append_len1] at hg
    exact (congrArg Hdr.prevSmall hg).trans hbps
  by_cases h8 : P.size = 8
  · rw [hps, if_pos (by simp [h8])]
    have hm : MIN_SIZE = 8 := rfl
    omega
  · rw [hps, if_neg (by simp [h8])]
    have hwb : wordBefore h (baseBp + sumSzH Xs0 + P.size) =
        lastWord (h.blocks.getD Xs0.length default) := by
      unfold wordBefore
      rw [hr]
    rw [hwb]
    have hgP : hdrOf (h.blocks.getD Xs0.length default) = P :=
      ((listGetD_map hdrOf h.blocks Xs0.length default).symm).trans
        (getD_decompH h Xs0 (B :: R) P hL)
    have hPsize : (h.blocks.getD Xs0.length default).size = P.size :=
      congrArg Hdr.size hgP
    have hPftr' : (h.blocks.getD Xs0.length default).ftr = P.ftr :=
      congrArg Hdr.ftr hgP
    unfold lastWord
    rw [if_neg (by rw [hPsize]; exact h8)]
    rw [hPftr', hPftr hPal (by have := hPsz.1; omega)]
    unfold sizebits
    have hm := hPsz.2
    omega

theorem coalesce_wf (h : Heap) (Xs : List Hdr) (B C : Hdr) (Ys : List Hdr)
    (hL : hproj h = Xs ++ B :: C :: Ys)
    (hfl : h.freeLists.length = 5)
    (hxs : Xs ≠ [])
    (hpro : proOkH (Xs.headD default))
    (hepi : epiOkH ((C :: Ys).getLast?.getD default))
    (hxmid : ∀ e ∈ Xs.drop 1, okSizeH e ∧ ftrOkH e)
    (hymid : ∀ e ∈ (C :: Ys).dropLast, okSizeH e ∧ ftrOkH e)
    (hB : okSizeH B) (hBftr : ftrOkH B) (hBal : B.alloc = false)
    (hbits : List.Chain' adjBitsH (Xs ++ B :: C :: Ys))
    (hxch : List.Chain' adjOkH Xs)
    (hych : List.Chain' adjOkH (C :: Ys)) :
    WfH (hproj (coalesce h (baseBp + sumSzH Xs)).2) ∧
    (coalesce h (baseBp + sumSzH Xs)).2.freeLists.length = 5 ∧
    ∃ Xs2 B2 Ys2, hproj (coalesce h (baseBp + sumSzH Xs)).2 = Xs2 ++ B2 :: Ys2 ∧
      (coalesce h (baseBp + sumSzH Xs)).1 = baseBp + sumSzH Xs2 ∧
      Xs2 ≠ [] ∧ Ys2 ≠ [] ∧ (∀ e ∈ Xs2, 0 < e.size) ∧
      proOkH (Xs2.headD default) ∧
      B2.alloc = false ∧ B.size ≤ B2.size := by
  have hpos : ∀ e ∈ Xs, 0 < e.size := pos_of_pro_mid Xs hxs hpro hxmid
  have pairXB : ∀ x ∈ Xs.getLast?, adjBitsH x B :=
    chain_pair_append adjBitsH Xs B (C :: Ys) hbits
  have hbitsBC : adjBitsH B C :=
    chain_head_pair adjBitsH B C Ys (chain_tail_append adjBitsH Xs B (C :: Ys) hbits)
  have hgB : get_size h (baseBp + sumSzH Xs) = B.size :=
    get_size_decompH h Xs (C :: Ys) B hL hpos
  have hpaB : get_prev_alloc h (baseBp + sumSzH Xs) = B.prevAlloc :=
    get_prev_alloc_decompH h Xs (C :: Ys) B hL hpos
  have hnb : next_blkp h (baseBp + sumSzH Xs) = baseBp + sumSzH Xs + B.size :=
    next_blkp_decompH h Xs (C :: Ys) B hL hpos
  have hB0 : 0 < B.size := by have := hB.1; omega
  have hrC : resolve h (baseBp + sumSzH Xs + B.size) = some (Xs.length + 1) :=
    resolve_decompH1 h Xs Ys B C hL hpos hB0
  have hcaC : get_alloc h (baseBp + sumSzH Xs + B.size) = C.alloc := by
    have hg := hdrOf_blkAt_some h _ _ hrC
    rw [hL, listGetD_append_len1] at hg
    exact congrArg Hdr.alloc hg
  unfold coalesce
  dsimp only
  rw [hpaB, hnb, hcaC, hgB]
  cases hPA : B.prevAlloc <;> cases hCA : C.alloc
  · -- case D: prev free, next free
    rw [if_neg (by simp), if_neg (by simp), if_neg (by simp)]
    dsimp only
    cases Ys with
    | nil =>
      exfalso
      have hce : C.alloc = true := hepi.2
      rw [hCA] at hce
      exact Bool.noConfusion hce
    | cons D Ys2 =>
      obtain ⟨Xs0, P, hXs⟩ : ∃ Xs0 P, Xs = Xs0 ++ [P] :=
        ⟨Xs.dropLast, Xs.getLast hxs, (List.dropLast_concat_getLast hxs).symm⟩
      subst hXs
      have hPlast : (Xs0 ++ [P]).getLast? = some P := by
        rw [listGetLast?_append Xs0 [P] (by simp)]
        rfl
      have hbitsPB : adjBitsH P B := pairXB P hPlast
      have hPal : P.alloc = false := by
        have hb := hbitsPB.1
        rw [hPA] at hb
        exact hb.symm
      have hXs0ne : Xs0 ≠ [] := by
        intro hnil
        subst hnil
        have hpa : P.alloc = true := hpro.2
        rw [hPal] at hpa
        exact Bool.noConfusion hpa
      have hPmem : P ∈ (Xs0 ++ [P]).drop 1 := by
        rw [listDrop1_append Xs0 [P] hXs0ne]
        exact List.mem_append.mpr (Or.inr (List.mem_cons_self _ _))
      have hPfacts := hxmid P hPmem
      have hP0 : 0 < P.size := by have := hPfacts.1.1; omega
      have hymC : okSizeH C ∧ ftrOkH C := hymid C (by
        rw [show (C :: D :: Ys2).dropLast = C :: (D :: Ys2).dropLast from rfl]
        exact List.mem_cons_self _ _)
      have hC0 : 0 < C.size := by have := hymC.1.1; omega
      have hL0 : hproj h = Xs0 ++ P :: B :: C :: D :: Ys2 := by rw [hL]; simp
      have hpos0 : ∀ e ∈ Xs0, 0 < e.size := fun e he =>
        hpos e (List.mem_append.mpr (Or.inl he))
      have hsum : baseBp + sumSzH (Xs0 ++ [P]) = baseBp + sumSzH Xs0 + P.size := by
        rw [sumSzH_snoc]
        omega
      have hprev : prev_blkp h (baseBp + sumSzH (Xs0 ++ [P])) =
          baseBp + sumSzH Xs0 := by
        rw [hsum]
        exact prev_blkp_decompH h Xs0 P B (C :: D :: Ys2) hL0 hpos0 hP0 hPfacts.1
          hPfacts.2 hPal hbitsPB.2
      rw [hprev]
      obtain ⟨hd1, hd1f⟩ := delete_free_lists_spec h (baseBp + sumSzH (Xs0 ++ [P]))
      rw [hgB, hrC, hL, prevUpd_at_len1] at hd1
      have hd1'' : hproj (delete_free_lists h (baseBp + sumSzH (Xs0 ++ [P]))) =
          Xs0 ++ P :: B :: prevSet C true (decide (B.size ≤ MIN_SIZE)) ::
            D :: Ys2 := by
        rw [hd1]
        simp
      obtain ⟨hd2, hd2f⟩ := delete_free_lists_spec
        (delete_free_lists h (baseBp + sumSzH (Xs0 ++ [P]))) (baseBp + sumSzH Xs0)
      have hgP1 : get_size (delete_free_lists h (baseBp + sumSzH (Xs0 ++ [P])))
          (baseBp + sumSzH Xs0) = P.size :=
        get_size_decompH _ Xs0 _ P hd1'' hpos0
      have hrB1 : resolve (delete_free_lists h (baseBp + sumSzH (Xs0 ++ [P])))
          (baseBp + sumSzH Xs0 + P.size) = some (Xs0.length + 1) :=
        resolve_decompH1 _ Xs0 _ P B hd1'' hpos0 hP0
      rw [hgP1, hrB1, hd1'', prevUpd_at_len1] at hd2
      have hd2'' : hproj (delete_free_lists (delete_free_lists h
          (baseBp + sumSzH (Xs0 ++ [P]))) (baseBp + sumSzH Xs0)) =
          Xs0 ++ P :: prevSet B true (decide (P.size ≤ MIN_SIZE)) ::
            prevSet C true (decide (B.size ≤ MIN_SIZE)) :: D :: Ys2 := hd2
      have hd2X : hproj (delete_free_lists (delete_free_lists h
          (baseBp + sumSzH (Xs0 ++ [P]))) (baseBp + sumSzH Xs0)) =
          (Xs0 ++ [P]) ++ prevSet B true (decide (P.size ≤ MIN_SIZE)) ::
            prevSet C true (decide (B.size ≤ MIN_SIZE)) :: D :: Ys2 := by
        rw [hd2'']
        simp
      have hnb2 : next_blkp (delete_free_lists (delete_free_lists h
          (baseBp + sumSzH (Xs0 ++ [P]))) (baseBp + sumSzH Xs0))
          (baseBp + sumSzH (Xs0 ++ [P])) = baseBp + sumSzH (Xs0 ++ [P]) + B.size :=
        next_blkp_decompH _ (Xs0 ++ [P]) _
          (prevSet B true (decide (P.size ≤ MIN_SIZE))) hd2X hpos
      rw [hnb2]
      obtain ⟨hd3, hd3f⟩ := delete_free_lists_spec
        (delete_free_lists (delete_free_lists h (baseBp + sumSzH (Xs0 ++ [P])))
          (baseBp + sumSzH Xs0)) (baseBp + sumSzH (Xs0 ++ [P]) + B.size)
      have hgC2 : get_size (delete_free_lists (delete_free_lists h
          (baseBp + sumSzH (Xs0 ++ [P]))) (baseBp + sumSzH Xs0))
          (baseBp + sumSzH (Xs0 ++ [P]) + B.size) = C.size :=
        get_size_decompH1 _ (Xs0 ++ [P]) _
          (prevSet B true (decide (P.size ≤ MIN_SIZE)))
          (prevSet C true (decide (B.size ≤ MIN_SIZE))) hd2X hpos hB0
      have hrD2 : resolve (delete_free_lists (delete_free_lists h
          (baseBp + sumSzH (Xs0 ++ [P]))) (baseBp + sumSzH Xs0))
          (baseBp + sumSzH (Xs0 ++ [P]) + B.size + C.size) =
          some ((Xs0 ++ [P]).length + 2) :=
        resolve_decompH2 _ (Xs0 ++ [P]) Ys2
          (prevSet B true (decide (P.size ≤ MIN_SIZE)))
          (prevSet C true (decide (B.size ≤ MIN_SIZE))) D hd2X hpos hB0 hC0
      rw [hgC2, hrD2, hd2X, prevUpd_at_len2] at hd3
      have hd3'' : hproj (delete_free_lists (delete_free_lists (delete_free_lists h
          (baseBp + sumSzH (Xs0 ++ [P]))) (baseBp + sumSzH Xs0))
          (baseBp + sumSzH (Xs0 ++ [P]) + B.size)) =
          Xs0 ++ P :: prevSet B true (decide (P.size ≤ MIN_SIZE)) ::
            prevSet C true (decide (B.size ≤ MIN_SIZE)) ::
            prevSet D true (decide (C.size ≤ MIN_SIZE)) :: Ys2 := by
        rw [hd3]
        simp
      have hd3X : hproj (delete_free_lists (delete_free_lists (delete_free_lists h
          (baseBp + sumSzH (Xs0 ++ [P]))) (baseBp + sumSzH Xs0))
          (baseBp + sumSzH (Xs0 ++ [P]) + B.size)) =
          (Xs0 ++ [P]) ++ prevSet B true (decide (P.size ≤ MIN_SIZE)) ::
            prevSet C true (decide (B.size ≤ MIN_SIZE)) ::
            prevSet D true (decide (C.size ≤ MIN_SIZE)) :: Ys2 := by
        rw [hd3'']
        simp
      have hgP3 : get_size (delete_free_lists (delete_free_lists (delete_free_lists h
          (baseBp + sumSzH (Xs0 ++ [P]))) (baseBp + sumSzH Xs0))
          (baseBp + sumSzH (Xs0 ++ [P]) + B.size)) (baseBp + sumSzH Xs0) = P.size :=
        get_size_decompH _ Xs0 _ P hd3'' hpos0
      have hnb3 : next_blkp (delete_free_lists (delete_free_lists
          (delete_free_lists h (baseBp + sumSzH (Xs0 ++ [P])))
          (baseBp + sumSzH Xs0)) (baseBp + sumSzH (Xs0 ++ [P]) + B.size))
          (baseBp + sumSzH (Xs0 ++ [P])) = baseBp + sumSzH (Xs0 ++ [P]) + B.size :=
        next_blkp_decompH _ (Xs0 ++ [P]) _
          (prevSet B true (decide (P.size ≤ MIN_SIZE))) hd3X hpos
      have hgC3 : get_size (delete_free_lists (delete_free_lists
          (delete_free_lists h (baseBp + sumSzH (Xs0 ++ [P])))
          (baseBp + sumSzH Xs0)) (baseBp + sumSzH (Xs0 ++ [P]) + B.size))
          (baseBp + sumSzH (Xs0 ++ [P]) + B.size) = C.size :=
        get_size_decompH1 _ (Xs0 ++ [P]) _
          (prevSet B true (decide (P.size ≤ MIN_SIZE)))
          (prevSet C true (decide (B.size ≤ MIN_SIZE))) hd3X hpos hB0
      rw [hgP3, hnb3, hgC3]
      obtain ⟨ht2, ht2f⟩ := tail2_spec
        (delete_free_lists (delete_free_lists (delete_free_lists h
          (baseBp + sumSzH (Xs0 ++ [P]))) (baseBp + sumSzH Xs0))
          (baseBp + sumSzH (Xs0 ++ [P]) + B.size))
        Xs0 P (prevSet B true (decide (P.size ≤ MIN_SIZE)))
        (prevSet C true (decide (B.size ≤ MIN_SIZE)))
        (prevSet D true (decide (C.size ≤ MIN_SIZE))) Ys2
        (B.size + P.size + C.size) hd3'' hpos0
        (by have h1 := hB.1; omega)
        (by have h1 := hB.1; have h2 := hPfacts.1.1; omega)
      rw [prevSet_prevSet] at ht2
      have hDal : D.alloc = true := by
        have hp := (chain_head_pair adjOkH C D Ys2 hych).2
        rcases hp with hc | hd
        · rw [hCA] at hc; exact Bool.noConfusion hc
        · exact hd
      have hproXs0 : proOkH (Xs0.headD default) := by
        have hh := hpro
        rw [listHeadD_append Xs0 [P] default hXs0ne] at hh
        exact hh
      refine ⟨?_, ?_, Xs0, _, _, ht2, rfl, hXs0ne, by simp, hpos0, hproXs0, rfl,
        by show B.size ≤ B.size + P.size + C.size; omega⟩
      · rw [ht2]
        refine wfH_assemble _ _ _ _ hXs0ne hproXs0
          ((List.chain'_append.mp hxch).1) ?_ ?_ ?_ ?_ ?_ ?_ ?_ ?_ ?_ ?_
        · intro e he
          refine hxmid e ?_
          rw [listDrop1_append Xs0 [P] hXs0ne]
          exact List.mem_append.mpr (Or.inl he)
        · intro x hx
          have hb := (chain_pair_append adjOkH Xs0 P [] hxch x hx).1
          exact ⟨hb.1, hb.2⟩
        · intro x hx
          have hb := (chain_pair_append adjOkH Xs0 P [] hxch x hx).2
          rcases hb with hx1 | hp1
          · exact Or.inl hx1
          · rw [hPal] at hp1
            exact absurd hp1 (by simp)
        · constructor
          · show 8 ≤ B.size + P.size + C.size
            have h1 := hB.1
            omega
          · show (B.size + P.size + C.size) % 8 = 0
            have h1 := hB.2
            have h2 := hPfacts.1.2
            have h3 := hymC.1.2
            omega
        · intro _ _
          rfl
        · constructor
          · rfl
          · exact dec_le8_eq_dec_eq8 _ (by have h1 := hB.1; omega)
        · exact Or.inr hDal
        · exact chain'_adjOkH_cons_congr D _ Ys2 rfl rfl
            (List.chain'_cons'.mp hych).2
        · intro e he
          cases Ys2 with
          | nil => simp at he
          | cons y ys =>
            rw [show (prevSet D false (decide (B.size + P.size + C.size ≤
              MIN_SIZE)) :: y :: ys).dropLast = prevSet D false (decide (B.size +
              P.size + C.size ≤ MIN_SIZE)) :: (y :: ys).dropLast from rfl] at he
            rcases List.mem_cons.mp he with hm | hm
            · subst hm
              have hD := hymid D (by
                rw [show (C :: D :: y :: ys).dropLast =
                  C :: D :: (y :: ys).dropLast from rfl]
                exact List.mem_cons_of_mem _ (List.mem_cons_self _ _))
              exact ⟨hD.1, hD.2⟩
            · refine hymid e ?_
              rw [show (C :: D :: y :: ys).dropLast =
                C :: D :: (y :: ys).dropLast from rfl]
              exact List.mem_cons_of_mem _ (List.mem_cons_of_mem _ hm)
        · cases Ys2 with
          | nil => exact ⟨hepi.1, hepi.2⟩
          | cons y ys =>
            have h1 : (prevSet D false (decide (B.size + P.size + C.size ≤
                MIN_SIZE)) :: y :: ys).getLast? = (y :: ys).getLast? :=
              listGetLast?_append [_] (y :: ys) (by simp)
            have h2 : (C :: D :: y :: ys).getLast? = (y :: ys).getLast? :=
              listGetLast?_append [C, D] (y :: ys) (by simp)
            show epiOkH ((prevSet D false (decide (B.size + P.size + C.size ≤
              MIN_SIZE)) :: y :: ys).getLast?.getD default)
            rw [h1, ← h2]
            exact hepi
      · rw [ht2f, hd3f, hd2f, hd1f, hfl]
  · -- case C: prev free, next allocated
    rw [if_neg (by simp), if_neg (by simp), if_pos (by simp)]
    dsimp only
    obtain ⟨Xs0, P, hXs⟩ : ∃ Xs0 P, Xs = Xs0 ++ [P] :=
      ⟨Xs.dropLast, Xs.getLast hxs, (List.dropLast_concat_getLast hxs).symm⟩
    subst hXs
    have hPlast : (Xs0 ++ [P]).getLast? = some P := by
      rw [listGetLast?_append Xs0 [P] (by simp)]
      rfl
    have hbitsPB : adjBitsH P B := pairXB P hPlast
    have hPal : P.alloc = false := by
      have hb := hbitsPB.1
      rw [hPA] at hb
      exact hb.symm
    have hXs0ne : Xs0 ≠ [] := by
      intro hnil
      subst hnil
      have hpa : P.alloc = true := hpro.2
      rw [hPal] at hpa
      exact Bool.noConfusion hpa
    have hPmem : P ∈ (Xs0 ++ [P]).drop 1 := by
      rw [listDrop1_append Xs0 [P] hXs0ne]
      exact List.mem_append.mpr (Or.inr (List.mem_cons_self _ _))
    have hPfacts := hxmid P hPmem
    have hP0 : 0 < P.size := by have := hPfacts.1.1; omega
    have hL0 : hproj h = Xs0 ++ P :: B :: C :: Ys := by rw [hL]; simp
    have hpos0 : ∀ e ∈ Xs0, 0 < e.size := fun e he =>
      hpos e (List.mem_append.mpr (Or.inl he))
    have hsum : baseBp + sumSzH (Xs0 ++ [P]) = baseBp + sumSzH Xs0 + P.size := by
      rw [sumSzH_snoc]
      omega
    have hprev : prev_blkp h (baseBp + sumSzH (Xs0 ++ [P])) =
        baseBp + sumSzH Xs0 := by
      rw [hsum]
      exact prev_blkp_decompH h Xs0 P B (C :: Ys) hL0 hpos0 hP0 hPfacts.1
        hPfacts.2 hPal hbitsPB.2
    rw [hprev]
    obtain ⟨hd1, hd1f⟩ := delete_free_lists_spec h (baseBp + sumSzH (Xs0 ++ [P]))
    rw [hgB, hrC, hL, prevUpd_at_len1] at hd1
    have hd1'' : hproj (delete_free_lists h (baseBp + sumSzH (Xs0 ++ [P]))) =
        Xs0 ++ P :: B :: prevSet C true (decide (B.size ≤ MIN_SIZE)) :: Ys := by
      rw [hd1]
      simp
    obtain ⟨hd2, hd2f⟩ := delete_free_lists_spec
      (delete_free_lists h (baseBp + sumSzH (Xs0 ++ [P]))) (baseBp + sumSzH Xs0)
    have hgP1 : get_size (delete_free_lists h (baseBp + sumSzH (Xs0 ++ [P])))
        (baseBp + sumSzH Xs0) = P.size :=
      get_size_decompH _ Xs0 _ P hd1'' hpos0
    have hrB1 : resolve (delete_free_lists h (baseBp + sumSzH (Xs0 ++ [P])))
        (baseBp + sumSzH Xs0 + P.size) = some (Xs0.length + 1) :=
      resolve_decompH1 _ Xs0 _ P B hd1'' hpos0 hP0
    rw [hgP1, hrB1, hd1'', prevUpd_at_len1] at hd2
    have hd2'' : hproj (delete_free_lists (delete_free_lists h
        (baseBp + sumSzH (Xs0 ++ [P]))) (baseBp + sumSzH Xs0)) =
        Xs0 ++ P :: prevSet B true (decide (P.size ≤ MIN_SIZE)) ::
          prevSet C true (decide (B.size ≤ MIN_SIZE)) :: Ys := hd2
    have hgP2 : get_size (delete_free_lists (delete_free_lists h
        (baseBp + sumSzH (Xs0 ++ [P]))) (baseBp + sumSzH Xs0))
        (baseBp + sumSzH Xs0) = P.size :=
      get_size_decompH _ Xs0 _ P hd2'' hpos0
    rw [hgP2]
    obtain ⟨ht1, ht1f⟩ := tail1_spec
      (delete_free_lists (delete_free_lists h (baseBp + sumSzH (Xs0 ++ [P])))
        (baseBp + sumSzH Xs0))
      Xs0 P (prevSet B true (decide (P.size ≤ MIN_SIZE)))
      (prevSet C true (decide (B.size ≤ MIN_SIZE))) Ys (B.size + P.size) hd2'' hpos0
      (by have h1 := hB.1; omega)
      (by have h1 := hB.1; have h2 := hPfacts.1.1; omega)
    rw [prevSet_prevSet] at ht1
    have hproXs0 : proOkH (Xs0.headD default) := by
      have := hpro
      rw [listHeadD_append Xs0 [P] default hXs0ne] at this
      exact this
    refine ⟨?_, ?_, Xs0, _, _, ht1, rfl, hXs0ne, by simp, hpos0, hproXs0, rfl,
      Nat.le_add_right _ _⟩
    · rw [ht1]
      refine wfH_assemble _ _ _ _ hXs0ne hproXs0
        ((List.chain'_append.mp hxch).1) ?_ ?_ ?_ ?_ ?_ ?_ ?_ ?_ ?_ ?_
      · intro e he
        refine hxmid e ?_
        rw [listDrop1_append Xs0 [P] hXs0ne]
        exact List.mem_append.mpr (Or.inl he)
      · intro x hx
        have hb := (chain_pair_append adjOkH Xs0 P [] hxch x hx).1
        exact ⟨hb.1, hb.2⟩
      · intro x hx
        have hb := (chain_pair_append adjOkH Xs0 P [] hxch x hx).2
        rcases hb with hx1 | hp1
        · exact Or.inl hx1
        · rw [hPal] at hp1
          exact absurd hp1 (by simp)
      · constructor
        · show 8 ≤ B.size + P.size
          have h1 := hB.1
          omega
        · show (B.size + P.size) % 8 = 0
          have h1 := hB.2
          have h2 := hPfacts.1.2
          omega
      · intro _ _
        rfl
      · constructor
        · rfl
        · exact dec_le8_eq_dec_eq8 _ (by have h1 := hB.1; omega)
      · exact Or.inr hCA
      · exact chain'_adjOkH_cons_congr C _ Ys rfl rfl hych
      · intro e he
        cases Ys with
        | nil => simp at he
        | cons y ys =>
          rw [show (prevSet C false (decide (B.size + P.size ≤ MIN_SIZE)) ::
            y :: ys).dropLast = prevSet C false (decide (B.size + P.size ≤
            MIN_SIZE)) :: (y :: ys).dropLast from rfl] at he
          rcases List.mem_cons.mp he with hm | hm
          · subst hm
            have hCfacts := hymid C (by
              rw [show (C :: y :: ys).dropLast = C :: (y :: ys).dropLast from rfl]
              exact List.mem_cons_self _ _)
            exact ⟨hCfacts.1, hCfacts.2⟩
          · refine hymid e ?_
            rw [show (C :: y :: ys).dropLast = C :: (y :: ys).dropLast from rfl]
            exact List.mem_cons_of_mem _ hm
      · cases Ys with
        | nil => exact ⟨hepi.1, hepi.2⟩
        | cons y ys =>
          have h1 : (prevSet C false (decide (B.size + P.size ≤ MIN_SIZE)) ::
              y :: ys).getLast? = (y :: ys).getLast? :=
            listGetLast?_append [_] (y :: ys) (by simp)
          have h2 : (C :: y :: ys).getLast? = (y :: ys).getLast? :=
            listGetLast?_append [C] (y :: ys) (by simp)
          show epiOkH ((prevSet C false (decide (B.size + P.size ≤ MIN_SIZE)) ::
            y :: ys).getLast?.getD default)
          rw [h1, ← h2]
          exact hepi
    · rw [ht1f, hd2f, hd1f, hfl]
  · -- case B: prev allocated, next free
    rw [if_neg (by simp), if_pos (by simp)]
    dsimp only
    cases Ys with
    | nil =>
      exfalso
      have hce : C.alloc = true := hepi.2
      rw [hCA] at hce
      exact Bool.noConfusion hce
    | cons D Ys2 =>
      have hymC : okSizeH C ∧ ftrOkH C := hymid C (by
        rw [show (C :: D :: Ys2).dropLast = C :: (D :: Ys2).dropLast from rfl]
        exact List.mem_cons_self _ _)
      have hC0 : 0 < C.size := by have := hymC.1.1; omega
      obtain ⟨hd1, hd1f⟩ := delete_free_lists_spec h (baseBp + sumSzH Xs)
      rw [hgB, hrC, hL, prevUpd_at_len1] at hd1
      have hd1' : hproj (delete_free_lists h (baseBp + sumSzH Xs)) =
          Xs ++ B :: prevSet C true (decide (B.size ≤ MIN_SIZE)) :: D :: Ys2 := hd1
      have hnb1 : next_blkp (delete_free_lists h (baseBp + sumSzH Xs))
          (baseBp + sumSzH Xs) = baseBp + sumSzH Xs + B.size :=
        next_blkp_decompH _ Xs _ B hd1' hpos
      rw [hnb1]
      obtain ⟨hd2, hd2f⟩ := delete_free_lists_spec
        (delete_free_lists h (baseBp + sumSzH Xs)) (baseBp + sumSzH Xs + B.size)
      have hgC1 : get_size (delete_free_lists h (baseBp + sumSzH Xs))
          (baseBp + sumSzH Xs + B.size) = C.size :=
        get_size_decompH1 _ Xs _ B (prevSet C true (decide (B.size ≤ MIN_SIZE)))
          hd1' hpos hB0
      have hrD : resolve (delete_free_lists h (baseBp + sumSzH Xs))
          (baseBp + sumSzH Xs + B.size + C.size) = some (Xs.length + 2) :=
        resolve_decompH2 _ Xs Ys2 B (prevSet C true (decide (B.size ≤ MIN_SIZE))) D
          hd1' hpos hB0 hC0
      rw [hgC1, hrD, hd1', prevUpd_at_len2] at hd2
      have hd2' : hproj (delete_free_lists (delete_free_lists h (baseBp + sumSzH Xs))
          (baseBp + sumSzH Xs + B.size)) =
          Xs ++ B :: prevSet C true (decide (B.size ≤ MIN_SIZE)) ::
            prevSet D true (decide (C.size ≤ MIN_SIZE)) :: Ys2 := hd2
      have hnb2 : next_blkp (delete_free_lists (delete_free_lists h
          (baseBp + sumSzH Xs)) (baseBp + sumSzH Xs + B.size)) (baseBp + sumSzH Xs) =
          baseBp + sumSzH Xs + B.size :=
        next_blkp_decompH _ Xs _ B hd2' hpos
      have hgC2 : get_size (delete_free_lists (delete_free_lists h
          (baseBp + sumSzH Xs)) (baseBp + sumSzH Xs + B.size))
          (baseBp + sumSzH Xs + B.size) = C.size :=
        get_size_decompH1 _ Xs _ B (prevSet C true (decide (B.size ≤ MIN_SIZE)))
          hd2' hpos hB0
      rw [hnb2, hgC2]
      obtain ⟨ht1, ht1f⟩ := tail1_spec
        (delete_free_lists (delete_free_lists h (baseBp + sumSzH Xs))
          (baseBp + sumSzH Xs + B.size))
        Xs B (prevSet C true (decide (B.size ≤ MIN_SIZE)))
        (prevSet D true (decide (C.size ≤ MIN_SIZE))) Ys2 (B.size + C.size) hd2' hpos
        (by have h1 := hB.1; have h2 := hymC.1.1; omega)
        (by have h1 := hB.1; have h2 := hymC.1.1; omega)
      rw [prevSet_prevSet] at ht1
      have hDal : D.alloc = true := by
        have hp := (chain_head_pair adjOkH C D Ys2 hych).2
        rcases hp with hc | hd
        · rw [hCA] at hc; exact Bool.noConfusion hc
        · exact hd
      refine ⟨?_, ?_, Xs, _, _, ht1, rfl, hxs, by simp, hpos, hpro, rfl,
        Nat.le_add_right _ _⟩
      · rw [ht1]
        refine wfH_assemble _ _ _ _ hxs hpro hxch hxmid ?_ ?_ ?_ ?_ ?_ ?_ ?_ ?_ ?_
        · intro x hx
          have hb := pairXB x hx
          exact ⟨hb.1, hb.2⟩
        · intro x hx
          refine Or.inl ?_
          have hb := (pairXB x hx).1
          rw [hPA] at hb
          exact hb.symm
        · constructor
          · show 8 ≤ B.size + C.size
            have h1 := hB.1
            omega
          · show (B.size + C.size) % 8 = 0
            have h1 := hB.2
            have h2 := hymC.1.2
            omega
        · intro _ _
          rfl
        · constructor
          · rfl
          · exact dec_le8_eq_dec_eq8 _ (by have h1 := hB.1; omega)
        · exact Or.inr hDal
        · exact chain'_adjOkH_cons_congr D _ Ys2 rfl rfl (List.chain'_cons'.mp hych).2
        · intro e he
          cases Ys2 with
          | nil => simp at he
          | cons y ys =>
            rw [show (prevSet D false (decide (B.size + C.size ≤ MIN_SIZE)) ::
              y :: ys).dropLast = prevSet D false (decide (B.size + C.size ≤
              MIN_SIZE)) :: (y :: ys).dropLast from rfl] at he
            rcases List.mem_cons.mp he with hm | hm
            · subst hm
              have hD := hymid D (by
                rw [show (C :: D :: y :: ys).dropLast =
                  C :: D :: (y :: ys).dropLast from rfl]
                exact List.mem_cons_of_mem _ (List.mem_cons_self _ _))
              exact ⟨hD.1, hD.2⟩
            · refine hymid e ?_
              rw [show (C :: D :: y :: ys).dropLast =
                C :: D :: (y :: ys).dropLast from rfl]
              exact List.mem_cons_of_mem _ (List.mem_cons_of_mem _ hm)
        · cases Ys2 with
          | nil => exact ⟨hepi.1, hepi.2⟩
          | cons y ys =>
            have h1 : (prevSet D false (decide (B.size + C.size ≤ MIN_SIZE)) ::
                y :: ys).getLast? = (y :: ys).getLast? :=
              listGetLast?_append [_] (y :: ys) (by simp)
            have h2 : (C :: D :: y :: ys).getLast? = (y :: ys).getLast? :=
              listGetLast?_append [C, D] (y :: ys) (by simp)
            show epiOkH ((prevSet D false (decide (B.size + C.size ≤ MIN_SIZE)) ::
              y :: ys).getLast?.getD default)
            rw [h1, ← h2]
            exact hepi
      · rw [ht1f, hd2f, hd1f, hfl]
  · -- case A: prev allocated, next allocated: heap unchanged
    simp only [Bool.and_self, if_true]
    refine ⟨?_, hfl, Xs, B, C :: Ys, hL, rfl, hxs, by simp, hpos, hpro, hBal,
      le_refl _⟩
    rw [hL]
    refine wfH_assemble Xs B C Ys hxs hpro hxch hxmid pairXB ?_ hB hBftr hbitsBC
      (Or.inr hCA) hych hymid hepi
    intro x hx
    refine Or.inl ?_
    have hb := (pairXB x hx).1
    rw [hPA] at hb
    exact hb.symm


theorem sumSz_take (h : Heap) (i : Nat) :
    sumSz (h.blocks.take i) = sumSzH ((hproj h).take i) := by
  unfold sumSz sumSzH
  rw [List.map_take, sizes_eq_hproj, ← List.map_take]

theorem chain'_adjBitsH_cons_congr (b b' : Hdr) (l : List Hdr)
    (ha : b'.alloc = b.alloc) (hs : b'.size = b.size)
    (hc : List.Chain' adjBitsH (b :: l)) : List.Chain' adjBitsH (b' :: l) := by
  rw [List.chain'_cons'] at hc ⊢
  refine ⟨fun y hy => ?_, hc.2⟩
  have hp := hc.1 y hy
  unfold adjBitsH at hp ⊢
  rw [ha, hs]
  exact hp

theorem epiOkH_cons_congr (C C2 : Hdr) (Ys : List Hdr)
    (ha : C2.alloc = C.alloc) (hs : C2.size = C.size)
    (he : epiOkH ((C :: Ys).getLast?.getD default)) :
    epiOkH ((C2 :: Ys).getLast?.getD default) := by
  cases Ys with
  | nil =>
    refine ⟨?_, ?_⟩
    · show C2.size = 0
      rw [hs]
      exact he.1
    · show C2.alloc = true
      rw [ha]
      exact he.2
  | cons y ys =>
    have h1 : (C2 :: y :: ys).getLast? = (y :: ys).getLast? :=
      listGetLast?_append [C2] (y :: ys) (by simp)
    have h2 : (C :: y :: ys).getLast? = (y :: ys).getLast? :=
      listGetLast?_append [C] (y :: ys) (by simp)
    show epiOkH ((C2 :: y :: ys).getLast?.getD default)
    rw [h1, ← h2]
    exact he

theorem mid_cons_congr (C C2 : Hdr) (Ys : List Hdr)
    (ha : C2.alloc = C.alloc) (hs : C2.size = C.size) (hf : C2.ftr = C.ftr)
    (hm : ∀ e ∈ (C :: Ys).dropLast, okSizeH e ∧ ftrOkH e) :
    ∀ e ∈ (C2 :: Ys).dropLast, okSizeH e ∧ ftrOkH e := by
  intro e he
  cases Ys with
  | nil => simp at he
  | cons y ys =>
    rw [show (C2 :: y :: ys).dropLast = C2 :: (y :: ys).dropLast from rfl] at he
    rcases List.mem_cons.mp he with hm1 | hm1
    · subst hm1
      have hC := hm C (by
        rw [show (C :: y :: ys).dropLast = C :: (y :: ys).dropLast from rfl]
        exact List.mem_cons_self _ _)
      refine ⟨⟨?_, ?_⟩, ?_⟩
      · rw [hs]; exact hC.1.1
      · rw [hs]; exact hC.1.2
      · intro hal hsz
        rw [hf, hs]
        refine hC.2 ?_ ?_
        · rw [← ha]; exact hal
        · rw [← hs]; exact hsz
    · refine hm e ?_
      rw [show (C :: y :: ys).dropLast = C :: (y :: ys).dropLast from rfl]
      exact List.mem_cons_of_mem _ hm1

theorem wfH_decomp_pieces (L : List Hdr) (Xs : List Hdr) (B C : Hdr) (Ys : List Hdr)
    (hL : L = Xs ++ B :: C :: Ys) (hxs : Xs ≠ []) (hwf : WfH L) :
    proOkH (Xs.headD default) ∧
    epiOkH ((C :: Ys).getLast?.getD default) ∧
    (∀ e ∈ Xs.drop 1, okSizeH e ∧ ftrOkH e) ∧
    (∀ e ∈ (C :: Ys).dropLast, okSizeH e ∧ ftrOkH e) ∧
    (okSizeH B ∧ ftrOkH B) ∧
    List.Chain' adjBitsH (Xs ++ B :: C :: Ys) ∧
    List.Chain' adjOkH Xs ∧ List.Chain' adjOkH (C :: Ys) := by
  obtain ⟨hpro, hlen, hepi, hmids, hch⟩ := hwf
  subst hL
  have hmid' : ∀ e ∈ Xs.drop 1 ++ B :: (C :: Ys).dropLast, okSizeH e ∧ ftrOkH e := by
    intro e he
    refine hmids e ?_
    rw [listDrop1_append _ _ hxs, listDropLast_append _ _ (by simp)]
    rw [show (B :: C :: Ys).dropLast = B :: (C :: Ys).dropLast from rfl]
    exact he
  refine ⟨?_, ?_, ?_, ?_, ?_, ?_, ?_, ?_⟩
  · rw [listHeadD_append _ _ _ hxs] at hpro
    exact hpro
  · rw [listGetLast?_append _ _ (by simp), List.getLast?_cons_cons] at hepi
    exact hepi
  · intro e he
    exact hmid' e (List.mem_append.mpr (Or.inl he))
  · intro e he
    exact hmid' e (List.mem_append.mpr (Or.inr (List.mem_cons_of_mem _ he)))
  · exact hmid' B (List.mem_append.mpr (Or.inr (List.mem_cons_self _ _)))
  · exact hch.imp (fun a b hab => hab.1)
  · exact (List.chain'_append.mp hch).1
  · exact (List.chain'_cons'.mp (List.chain'_append.mp hch).2.1).2

theorem free_tail_wf (h2 : Heap) (Xs : List Hdr) (B2 C : Hdr) (Ys : List Hdr)
    (hL2 : hproj h2 = Xs ++ B2 :: C :: Ys)
    (hfl2 : h2.freeLists.length = 5)
    (hxs : Xs ≠ [])
    (hpro : proOkH (Xs.headD default))
    (hepi : epiOkH ((C :: Ys).getLast?.getD default))
    (hxmid : ∀ e ∈ Xs.drop 1, okSizeH e ∧ ftrOkH e)
    (hymid : ∀ e ∈ (C :: Ys).dropLast, okSizeH e ∧ ftrOkH e)
    (hB2 : okSizeH B2) (hB2f : ftrOkH B2) (hB2al : B2.alloc = false)
    (hbXB : ∀ x ∈ Xs.getLast?, adjBitsH x B2)
    (hxch : List.Chain' adjOkH Xs)
    (hych : List.Chain' adjOkH (C :: Ys)) :
    Wf (coalesce (insert_free_lists h2 (baseBp + sumSzH Xs))
      (baseBp + sumSzH Xs)).2 := by
  have hpos : ∀ e ∈ Xs, 0 < e.size := pos_of_pro_mid Xs hxs hpro hxmid
  have hB0 : 0 < B2.size := by have := hB2.1; omega
  have hg2 : get_size h2 (baseBp + sumSzH Xs) = B2.size :=
    get_size_decompH _ Xs _ B2 hL2 hpos
  have hr2 : resolve h2 (baseBp + sumSzH Xs + B2.size) = some (Xs.length + 1) :=
    resolve_decompH1 _ Xs Ys B2 C hL2 hpos hB0
  obtain ⟨hi1, hi2⟩ := insert_free_lists_spec h2 (baseBp + sumSzH Xs)
  rw [hg2, hr2, hL2, prevUpd_at_len1] at hi1
  have hL3 : hproj (insert_free_lists h2 (baseBp + sumSzH Xs)) =
      Xs ++ B2 :: prevSet C false (decide (B2.size ≤ MIN_SIZE)) :: Ys := hi1
  have hco := coalesce_wf (insert_free_lists h2 (baseBp + sumSzH Xs)) Xs B2
    (prevSet C false (decide (B2.size ≤ MIN_SIZE))) Ys hL3
    (by rw [hi2, hfl2]) hxs hpro
    (epiOkH_cons_congr C _ Ys rfl rfl hepi)
    hxmid
    (mid_cons_congr C _ Ys rfl rfl rfl hymid)
    hB2 hB2f hB2al
    (by
      rw [List.chain'_append]
      refine ⟨hxch.imp (fun a b hab => hab.1), ?_, ?_⟩
      · rw [List.chain'_cons']
        refine ⟨fun y hy => ?_, ?_⟩
        · simp only [List.head?_cons, Option.mem_def, Option.some.injEq] at hy
          subst hy
          refine ⟨hB2al.symm, ?_⟩
          exact dec_le8_eq_dec_eq8 _ hB2.1
        · exact chain'_adjBitsH_cons_congr C _ Ys rfl rfl
            (hych.imp (fun a b hab => hab.1))
      · intro x hx y hy
        simp only [List.head?_cons, Option.mem_def, Option.some.injEq] at hy
        subst hy
        exact hbXB x hx)
    hxch
    (chain'_adjOkH_cons_congr C _ Ys rfl rfl hych)
  exact (wf_iff _).mpr ⟨hco.1, hco.2.1⟩

theorem free_wf (h : Heap) (p : Nat) (hwf : Wf h)
    (hmid : isMid h p = true) (hal : get_alloc h p = true) :
    ∃ h2, free h p = Outcome.ok h2 ∧ Wf h2 := by
  obtain ⟨hwfH, hfl⟩ := (wf_iff h).mp hwf
  unfold isMid at hmid
  cases hr : resolve h p with
  | none => rw [hr] at hmid; simp at hmid
  | some i =>
    rw [hr] at hmid
    simp only [Bool.and_eq_true, decide_eq_true_eq] at hmid
    obtain ⟨hi1, hi2⟩ := hmid
    have hlenL : i + 1 < (hproj h).length := by rw [hproj_length]; exact hi2
    have hilt : i < (hproj h).length := by omega
    have hlen2 : 0 < ((hproj h).drop (i+1)).length := by
      rw [List.length_drop]
      omega
    cases hdrop : (hproj h).drop (i+1) with
    | nil => rw [hdrop] at hlen2; simp at hlen2
    | cons C Ys =>
      have hL : hproj h = (hproj h).take i ++ (hproj h).getD i default :: C :: Ys := by
        conv_lhs => rw [← List.take_append_drop i (hproj h)]
        rw [List.drop_eq_getElem_cons hilt, List.getD_eq_getElem (hproj h) default hilt,
          hdrop]
      obtain ⟨Xs, hXs⟩ : ∃ Xs, (hproj h).take i = Xs := ⟨_, rfl⟩
      obtain ⟨B, hBd⟩ : ∃ B, (hproj h).getD i default = B := ⟨_, rfl⟩
      rw [hXs, hBd] at hL
      have hti : Xs.length = i := by
        rw [← hXs, List.length_take]
        omega
      rw [← hti] at hr
      have hxs : Xs ≠ [] := by
        intro hnil
        rw [hnil] at hti
        simp at hti
        omega
      have hXs' : (hproj h).take Xs.length = Xs := by
        rw [hti]
        exact hXs
      have haddr : p = baseBp + sumSzH Xs := by
        have ha := resolveFrom_addr h.blocks baseBp p Xs.length hr
        rw [sumSz_take, hXs'] at ha
        exact ha
      subst haddr
      obtain ⟨hpro, hepi, hxmid, hymid, hBok, hbits, hxch, hych⟩ :=
        wfH_decomp_pieces (hproj h) Xs B C Ys hL hxs hwfH
      have hpos : ∀ e ∈ Xs, 0 < e.size := pos_of_pro_mid Xs hxs hpro hxmid
      have hgB : get_size h (baseBp + sumSzH Xs) = B.size :=
        get_size_decompH h Xs _ B hL hpos
      have hp0 : ¬ (baseBp + sumSzH Xs = 0) := by
        have hb : baseBp = 48 := rfl
        omega
      have hin : in_heap h (baseBp + sumSzH Xs) = true := by
        unfold in_heap heapEnd
        refine decide_eq_true ?_
        have hsum : (h.blocks.map Blk.size).sum = sumSzH (hproj h) :=
          sumSz_eq_sumSzH h
        rw [hsum, hL, sumSzH_append]
        omega
      unfold free
      rw [if_neg hp0, hin]
      simp only [Bool.not_true]
      rw [if_neg (by simp)]
      rw [hgB]
      have hup : hproj (updAt h (baseBp + sumSzH Xs)
          fun b => { b with alloc := false }) = Xs ++ allocClear B :: C :: Ys := by
        rw [hproj_updAt_some h _ _ Xs.length hr]
        have hBd' : (hproj h).getD Xs.length default = B := by
          rw [hti]
          exact hBd
        have hgd : hdrOf (h.blocks.getD Xs.length default) = B :=
          ((listGetD_map hdrOf h.blocks Xs.length default).symm).trans hBd'
        have hfb : hdrOf ((fun b => { b with alloc := false })
            (h.blocks.getD Xs.length default)) = allocClear B := by
          rw [show hdrOf ((fun b => { b with alloc := false })
            (h.blocks.getD Xs.length default)) =
            allocClear (hdrOf (h.blocks.getD Xs.length default)) from rfl, hgd]
        rw [hfb, hL, listSet_append_len]
      have hupfl : (updAt h (baseBp + sumSzH Xs)
          fun b => { b with alloc := false }).freeLists.length = 5 := by
        rw [updAt_freeLists]
        exact hfl
      have hg1 : get_size (updAt h (baseBp + sumSzH Xs)
          fun b => { b with alloc := false }) (baseBp + sumSzH Xs) = B.size :=
        get_size_decompH _ Xs _ (allocClear B) hup hpos
      rw [hg1]
      by_cases hbs : B.size > MIN_SIZE
      · rw [if_pos hbs]
        have hr1 : resolve (updAt h (baseBp + sumSzH Xs)
            fun b => { b with alloc := false }) (baseBp + sumSzH Xs) =
            some Xs.length :=
          resolve_decompH _ Xs _ (allocClear B) hup hpos
        have hgd1 : (hproj (updAt h (baseBp + sumSzH Xs)
            fun b => { b with alloc := false })).getD Xs.length default =
            allocClear B := getD_decompH _ Xs _ _ hup
        obtain ⟨hpf1, hpf2⟩ := put_ftr_spec (updAt h (baseBp + sumSzH Xs)
          fun b => { b with alloc := false }) (baseBp + sumSzH Xs) B.size Xs.length
          hr1 (by
            rw [hgd1]
            show B.size ≠ 8
            have hm : MIN_SIZE = 8 := rfl
            omega)
        rw [hgd1, hup, listSet_append_len] at hpf1
        refine ⟨_, rfl, ?_⟩
        refine free_tail_wf _ Xs (ftrSet (allocClear B) B.size) C Ys hpf1
          (by rw [hpf2]; exact hupfl) hxs hpro hepi hxmid hymid
          ⟨hBok.1.1, hBok.1.2⟩ (fun _ _ => rfl) rfl ?_ hxch hych
        intro x hx
        have hb := chain_pair_append adjBitsH Xs B (C :: Ys) hbits x hx
        exact ⟨hb.1, hb.2⟩
      · rw [if_neg hbs]
        refine ⟨_, rfl, ?_⟩
        refine free_tail_wf _ Xs (allocClear B) C Ys hup hupfl hxs hpro hepi
          hxmid hymid ⟨hBok.1.1, hBok.1.2⟩ ?_ rfl ?_ hxch hych
        · intro hbal h8
          exfalso
          have h8' : 8 < B.size := h8
          have hm : MIN_SIZE = 8 := rfl
          omega
        · intro x hx
          have hb := chain_pair_append adjBitsH Xs B (C :: Ys) hbits x hx
          exact ⟨hb.1, hb.2⟩

/-- Writing a footer into a residual header only changes its footer word. -/
theorem ftrSet_remHdr (r : Nat) (ps : Bool) (w v : Nat) :
    ftrSet (remHdr r ps w) v = remHdr r ps v := rfl

/-- Header projection of the block-list surgery performed by the split
path of place. -/
theorem hproj_place_surgery (h1 : Heap) (rem asz : Nat) (Xs Ys : List Hdr) (B : Hdr)
    (hd : hproj h1 = Xs ++ B :: Ys) :
    hproj { h1 with blocks := h1.blocks.take Xs.length ++
        ({ h1.blocks.getD Xs.length default with size := asz, alloc := true } ::
          { size := rem, alloc := false, prevAlloc := true,
            prevSmall := decide (asz ≤ MIN_SIZE),
            ftr := (h1.blocks.getD Xs.length default).ftr } ::
          h1.blocks.drop (Xs.length + 1)) } =
      Xs ++ sizedAlloc B asz :: remHdr rem (decide (asz ≤ MIN_SIZE)) B.ftr :: Ys := by
  have hgd : hdrOf (h1.blocks.getD Xs.length default) = B :=
    ((listGetD_map hdrOf _ Xs.length default).symm).trans (getD_decompH h1 Xs Ys B hd)
  have hbf : (h1.blocks.getD Xs.length default).ftr = B.ftr := congrArg Hdr.ftr hgd
  unfold hproj
  dsimp only
  rw [List.map_append, List.map_cons, List.map_cons, List.map_take, List.map_drop]
  rw [show List.map hdrOf h1.blocks = hproj h1 from rfl, hd, listTake_append_len,
    listDrop_append_len]
  rw [← hgd]
  rfl

/-- Tail of place: after the splice leaves the heap as
Xs, allocated part, residual free block, next block (prev bits set by
delete_free_lists), inserting the residual restores the invariant. -/
theorem place_tail_wf (h3 : Heap) (Xs : List Hdr) (A R C2 : Hdr) (Ys : List Hdr)
    (hL3 : hproj h3 = Xs ++ A :: R :: C2 :: Ys)
    (hfl3 : h3.freeLists.length = 5)
    (hxs : Xs ≠ []) (hpro : proOkH (Xs.headD default))
    (hepi : epiOkH ((C2 :: Ys).getLast?.getD default))
    (hxmid : ∀ e ∈ Xs.drop 1, okSizeH e ∧ ftrOkH e)
    (hymid : ∀ e ∈ (C2 :: Ys).dropLast, okSizeH e ∧ ftrOkH e)
    (hbXA : ∀ x ∈ Xs.getLast?, adjBitsH x A)
    (hAsz : okSizeH A) (hAal : A.alloc = true)
    (hRsz : okSizeH R) (hRftr : ftrOkH R) (hRal : R.alloc = false)
    (hRpa : R.prevAlloc = true) (hRps : R.prevSmall = decide (A.size = 8))
    (hC2al : C2.alloc = true)
    (hxch : List.Chain' adjOkH Xs)
    (hych : List.Chain' adjOkH (C2 :: Ys)) :
    Wf (insert_free_lists h3 (baseBp + sumSzH Xs + A.size)) := by
  have hpos : ∀ e ∈ Xs, 0 < e.size := pos_of_pro_mid Xs hxs hpro hxmid
  have hA0 : 0 < A.size := by have h1 := hAsz.1; omega
  have hR0 : 0 < R.size := by have h1 := hRsz.1; omega
  have hg3 : get_size h3 (baseBp + sumSzH Xs + A.size) = R.size :=
    get_size_decompH1 h3 Xs (C2 :: Ys) A R hL3 hpos hA0
  have hr3 : resolve h3 (baseBp + sumSzH Xs + A.size + R.size) =
      some (Xs.length + 2) :=
    resolve_decompH2 h3 Xs Ys A R C2 hL3 hpos hA0 hR0
  obtain ⟨hi1, hi2⟩ := insert_free_lists_spec h3 (baseBp + sumSzH Xs + A.size)
  rw [hg3, hr3, hL3, prevUpd_at_len2] at hi1
  refine (wf_iff _).mpr ⟨?_, by rw [hi2, hfl3]⟩
  rw [hi1]
  have hassoc : Xs ++ A :: R :: prevSet C2 false (decide (R.size ≤ MIN_SIZE)) :: Ys =
      (Xs ++ [A]) ++ R :: prevSet C2 false (decide (R.size ≤ MIN_SIZE)) :: Ys := by
    simp
  rw [hassoc]
  refine wfH_assemble (Xs ++ [A]) R
    (prevSet C2 false (decide (R.size ≤ MIN_SIZE))) Ys (by simp)
    (by rw [listHeadD_append _ _ _ hxs]; exact hpro)
    ?_ ?_ ?_ ?_ hRsz hRftr ?_ ?_ ?_ ?_ ?_
  · rw [List.chain'_append]
    refine ⟨hxch, List.Chain.nil, ?_⟩
    intro x hx y hy
    simp only [List.head?_cons, Option.mem_def, Option.some.injEq] at hy
    subst hy
    exact ⟨hbXA x hx, Or.inr hAal⟩
  · intro e he
    rw [listDrop1_append _ _ hxs] at he
    rcases List.mem_append.mp he with hm | hm
    · exact hxmid e hm
    · simp only [List.mem_singleton] at hm
      subst hm
      refine ⟨hAsz, ?_⟩
      intro hf
      rw [hAal] at hf
      exact absurd hf (by simp)
  · intro x hx
    rw [listGetLast?_append _ _ (by simp),
      show ([A] : List Hdr).getLast? = some A from by simp] at hx
    rw [Option.mem_def, Option.some.injEq] at hx
    subst hx
    exact ⟨hRpa.trans hAal.symm, hRps⟩
  · intro x hx
    rw [listGetLast?_append _ _ (by simp),
      show ([A] : List Hdr).getLast? = some A from by simp] at hx
    rw [Option.mem_def, Option.some.injEq] at hx
    subst hx
    exact Or.inl hAal
  · refine ⟨hRal.symm, ?_⟩
    exact dec_le8_eq_dec_eq8 R.size hRsz.1
  · exact Or.inr hC2al
  · exact chain'_adjOkH_cons_congr C2 _ Ys rfl rfl hych
  · exact mid_cons_congr C2 _ Ys rfl rfl rfl hymid
  · exact epiOkH_cons_congr C2 _ Ys rfl rfl hepi

/-- place preserves the heap invariant when applied to a real free block
with an adjusted size that fits. -/
theorem place_wf (h : Heap) (p asize : Nat) (hwf : Wf h)
    (hmid : isMid h p = true)
    (hfree : get_alloc h p = false)
    (hsz : asize ≤ get_size h p)
    (ha8 : 8 ≤ asize) (hma : asize % 8 = 0) :
    Wf (place h p asize) := by
  obtain ⟨hwfH, hfl⟩ := (wf_iff h).mp hwf
  unfold isMid at hmid
  cases hr : resolve h p with
  | none => rw [hr] at hmid; simp at hmid
  | some i =>
    rw [hr] at hmid
    simp only [Bool.and_eq_true, decide_eq_true_eq] at hmid
    obtain ⟨hi1, hi2⟩ := hmid
    have hlenL : i + 1 < (hproj h).length := by rw [hproj_length]; exact hi2
    have hilt : i < (hproj h).length := by omega
    have hlen2 : 0 < ((hproj h).drop (i+1)).length := by
      rw [List.length_drop]
      omega
    cases hdrop : (hproj h).drop (i+1) with
    | nil => rw [hdrop] at hlen2; simp at hlen2
    | cons C Ys =>
      have hL : hproj h = (hproj h).take i ++ (hproj h).getD i default :: C :: Ys := by
        conv_lhs => rw [← List.take_append_drop i (hproj h)]
        rw [List.drop_eq_getElem_cons hilt, List.getD_eq_getElem (hproj h) default hilt,
          hdrop]
      obtain ⟨Xs, hXs⟩ : ∃ Xs, (hproj h).take i = Xs := ⟨_, rfl⟩
      obtain ⟨B, hBd⟩ : ∃ B, (hproj h).getD i default = B := ⟨_, rfl⟩
      rw [hXs, hBd] at hL
      have hti : Xs.length = i := by
        rw [← hXs, List.length_take]
        omega
      rw [← hti] at hr
      have hxs : Xs ≠ [] := by
        intro hnil
        rw [hnil] at hti
        simp at hti
        omega
      have hXs' : (hproj h).take Xs.length = Xs := by
        rw [hti]
        exact hXs
      have haddr : p = baseBp + sumSzH Xs := by
        have ha := resolveFrom_addr h.blocks baseBp p Xs.length hr
        rw [sumSz_take, hXs'] at ha
        exact ha
      subst haddr
      obtain ⟨hpro, hepi, hxmid, hymid, hBok, hbits, hxch, hych⟩ :=
        wfH_decomp_pieces (hproj h) Xs B C Ys hL hxs hwfH
      have hpos : ∀ e ∈ Xs, 0 < e.size := pos_of_pro_mid Xs hxs hpro hxmid
      have hgB : get_size h (baseBp + sumSzH Xs) = B.size :=
        get_size_decompH h Xs _ B hL hpos
      have hBal : B.alloc = false := by
        have halc := get_alloc_decompH h Xs _ B hL hpos
        rw [halc] at hfree
        exact hfree
      have hBC : adjOkH B C := by
        have hch := hwfH.2.2.2.2
        rw [hL] at hch
        exact chain_head_pair adjOkH B C Ys (chain_tail_append adjOkH Xs B (C :: Ys) hch)
      have hCal : C.alloc = true := by
        rcases hBC.2 with hb | hc
        · rw [hBal] at hb; exact absurd hb (by simp)
        · exact hc
      rw [hgB] at hsz
      have hB0 : 0 < B.size := by have h1 := hBok.1.1; omega
      have hrC : resolve h (baseBp + sumSzH Xs + B.size) = some (Xs.length + 1) :=
        resolve_decompH1 h Xs Ys B C hL hpos hB0
      have pairXB : ∀ x ∈ Xs.getLast?, adjBitsH x B :=
        chain_pair_append adjBitsH Xs B (C :: Ys) hbits
      obtain ⟨hd1, hd1f⟩ := delete_free_lists_spec h (baseBp + sumSzH Xs)
      rw [hgB, hrC, hL, prevUpd_at_len1] at hd1
      have hd1' : hproj (delete_free_lists h (baseBp + sumSzH Xs)) =
          Xs ++ B :: prevSet C true (decide (B.size ≤ MIN_SIZE)) :: Ys := hd1
      have hfl1 : (delete_free_lists h (baseBp + sumSzH Xs)).freeLists.length = 5 := by
        rw [hd1f, hfl]
      have hres1 : resolve (delete_free_lists h (baseBp + sumSzH Xs))
          (baseBp + sumSzH Xs) = some Xs.length :=
        resolve_decompH _ Xs _ B hd1' hpos
      unfold place
      dsimp only
      rw [hgB]
      by_cases hrem : B.size - asize ≥ MIN_SIZE
      · rw [if_pos hrem]
        have hrem8 : 8 ≤ B.size - asize := hrem
        split
        · rename_i i1 heq
          have hieq : i1 = Xs.length := by
            rw [hres1] at heq
            exact (Option.some.inj heq).symm
          subst hieq
          rw [if_neg (show ¬ (B.size - asize < MIN_SIZE) from by
            intro hlt
            exact absurd hrem8 (by omega))]
          have hL2 := hproj_place_surgery (delete_free_lists h (baseBp + sumSzH Xs))
            (B.size - asize) asize Xs
            (prevSet C true (decide (B.size ≤ MIN_SIZE)) :: Ys) B hd1'
          have hA0 : 0 < (sizedAlloc B asize).size := by show 0 < asize; omega
          have hres2 := resolve_decompH1 _ Xs
            (prevSet C true (decide (B.size ≤ MIN_SIZE)) :: Ys)
            (sizedAlloc B asize)
            (remHdr (B.size - asize) (decide (asize ≤ MIN_SIZE)) B.ftr) hL2 hpos hA0
          have hAszOk : okSizeH (sizedAlloc B asize) := by
            refine ⟨?_, ?_⟩
            · show 8 ≤ asize
              omega
            · show asize % 8 = 0
              omega
          have hRszOk : okSizeH (remHdr (B.size - asize)
              (decide (asize ≤ MIN_SIZE)) B.ftr) := by
            refine ⟨?_, ?_⟩
            · show 8 ≤ B.size - asize
              omega
            · show (B.size - asize) % 8 = 0
              have h1 := hBok.1.2
              omega
          have hbXA : ∀ x ∈ Xs.getLast?, adjBitsH x (sizedAlloc B asize) := by
            intro x hx
            have hb := pairXB x hx
            exact ⟨hb.1, hb.2⟩
          have hRps : (remHdr (B.size - asize) (decide (asize ≤ MIN_SIZE))
              B.ftr).prevSmall = decide ((sizedAlloc B asize).size = 8) :=
            dec_le8_eq_dec_eq8 asize ha8
          by_cases hrm8 : B.size - asize > MIN_SIZE
          · rw [if_pos hrm8]
            have hrm8n : (8 : Nat) < B.size - asize := hrm8
            obtain ⟨hp1, hp2⟩ := put_ftr_spec _ (baseBp + sumSzH Xs + asize)
              (B.size - asize) (Xs.length + 1) hres2 (by
                rw [hL2, listGetD_append_len1]
                show B.size - asize ≠ 8
                omega)
            rw [hL2, listGetD_append_len1, ftrSet_remHdr, listSet_append_len1] at hp1
            exact place_tail_wf _ Xs (sizedAlloc B asize)
              (remHdr (B.size - asize) (decide (asize ≤ MIN_SIZE)) (B.size - asize))
              (prevSet C true (decide (B.size ≤ MIN_SIZE))) Ys hp1
              (by rw [hp2]; exact hfl1) hxs hpro
              (epiOkH_cons_congr C _ Ys rfl rfl hepi)
              hxmid
              (mid_cons_congr C _ Ys rfl rfl rfl hymid)
              hbXA hAszOk rfl hRszOk
              (fun hal h8 => rfl)
              rfl rfl hRps hCal hxch
              (chain'_adjOkH_cons_congr C _ Ys rfl rfl hych)
          · rw [if_neg hrm8]
            exact place_tail_wf _ Xs (sizedAlloc B asize)
              (remHdr (B.size - asize) (decide (asize ≤ MIN_SIZE)) B.ftr)
              (prevSet C true (decide (B.size ≤ MIN_SIZE))) Ys hL2 hfl1 hxs hpro
              (epiOkH_cons_congr C _ Ys rfl rfl hepi)
              hxmid
              (mid_cons_congr C _ Ys rfl rfl rfl hymid)
              hbXA hAszOk rfl hRszOk
              (fun hal h8 => absurd h8 (by
                show ¬ (8 : Nat) < B.size - asize
                intro hlt
                exact hrm8 hlt))
              rfl rfl hRps hCal hxch
              (chain'_adjOkH_cons_congr C _ Ys rfl rfl hych)
        · rename_i heq
          rw [hres1] at heq
          exact Option.noConfusion heq
      · rw [if_neg hrem]
        have hup : hproj (updAt (delete_free_lists h (baseBp + sumSzH Xs))
            (baseBp + sumSzH Xs) fun b => { b with alloc := true }) =
            Xs ++ allocMark B :: prevSet C true (decide (B.size ≤ MIN_SIZE)) ::
              Ys := by
          rw [hproj_updAt_some _ _ _ Xs.length hres1]
          have hgd1 : hdrOf ((delete_free_lists h
              (baseBp + sumSzH Xs)).blocks.getD Xs.length default) = B :=
            ((listGetD_map hdrOf _ Xs.length default).symm).trans
              (getD_decompH _ Xs _ B hd1')
          have hfb : hdrOf ((fun b => { b with alloc := true })
              ((delete_free_lists h (baseBp + sumSzH Xs)).blocks.getD Xs.length
                default)) = allocMark B := by
            rw [show hdrOf ((fun b => { b with alloc := true })
              ((delete_free_lists h (baseBp + sumSzH Xs)).blocks.getD Xs.length
                default)) = allocMark (hdrOf ((delete_free_lists h
                (baseBp + sumSzH Xs)).blocks.getD Xs.length default)) from rfl, hgd1]
          rw [hfb, hd1', listSet_append_len]
        refine (wf_iff _).mpr ⟨?_, by rw [updAt_freeLists]; exact hfl1⟩
        rw [hup]
        refine wfH_assemble Xs (allocMark B)
          (prevSet C true (decide (B.size ≤ MIN_SIZE))) Ys hxs hpro hxch hxmid
          ?_ ?_ hBok.1 ?_ ?_ ?_ ?_ ?_ ?_
        · intro x hx
          have hb := pairXB x hx
          exact ⟨hb.1, hb.2⟩
        · intro x hx
          exact Or.inr rfl
        · intro hf
          exact absurd hf (by simp [allocMark])
        · refine ⟨rfl, ?_⟩
          exact dec_le8_eq_dec_eq8 B.size hBok.1.1
        · exact Or.inl rfl
        · exact chain'_adjOkH_cons_congr C _ Ys rfl rfl hych
        · exact mid_cons_congr C _ Ys rfl rfl rfl hymid
        · exact epiOkH_cons_congr C _ Ys rfl rfl hepi

/-- Header projection of the extended heap. -/
theorem hproj_extended (h : Heap) (sz : Nat) (Zs : List Hdr) (epiH : Hdr)
    (hZ : hproj h = Zs ++ [epiH]) :
    hproj (extended h sz) =
      Zs ++ extHdr epiH sz :: epiHdr (decide (¬ sz > MIN_SIZE)) :: [] := by
  have hl : (hproj h).getLast?.getD default = hdrOf (h.blocks.getLast?.getD default) := by
    unfold hproj
    rw [List.getLast?_map, ← hdrOf_default]
    exact Option.getD_map hdrOf default h.blocks.getLast?
  have hepiH : hdrOf (h.blocks.getLast?.getD default) = epiH := by
    rw [← hl, hZ, listGetLast?_append _ _ (by simp)]
    simp
  unfold extended hproj
  dsimp only
  rw [List.map_append]
  rw [show List.map hdrOf h.blocks.dropLast = (List.map hdrOf h.blocks).dropLast from
    List.map_dropLast hdrOf h.blocks, show List.map hdrOf h.blocks = hproj h from rfl,
    hZ, listDropLast_append _ _ (by simp)]
  rw [← hepiH]
  simp [extHdr, epiHdr, hdrOf]

/-- Tail of extend_heap: inserting the new free block and coalescing
yields a wellformed heap whose returned pointer is a real free block at
least as large as the new block. -/
theorem extend_tail_wf (h2 : Heap) (Zs : List Hdr) (F E : Hdr) (bp2 : Nat) (h4 : Heap)
    (hco : coalesce (insert_free_lists h2 (baseBp + sumSzH Zs))
      (baseBp + sumSzH Zs) = (bp2, h4))
    (hL2 : hproj h2 = Zs ++ F :: E :: [])
    (hfl2 : h2.freeLists.length = 5)
    (hzs : Zs ≠ [])
    (hpro : proOkH (Zs.headD default))
    (hE : epiOkH E)
    (hzmid : ∀ e ∈ Zs.drop 1, okSizeH e ∧ ftrOkH e)
    (hF : okSizeH F) (hFftr : ftrOkH F) (hFal : F.alloc = false)
    (hbZF : ∀ x ∈ Zs.getLast?, adjBitsH x F)
    (hzch : List.Chain' adjOkH Zs) :
    Wf h4 ∧ isMid h4 bp2 = true ∧ get_alloc h4 bp2 = false ∧
      F.size ≤ get_size h4 bp2 := by
  have hpos : ∀ e ∈ Zs, 0 < e.size := pos_of_pro_mid Zs hzs hpro hzmid
  have hF0 : 0 < F.size := by have h1 := hF.1; omega
  have hg2 : get_size h2 (baseBp + sumSzH Zs) = F.size :=
    get_size_decompH _ Zs _ F hL2 hpos
  have hr2 : resolve h2 (baseBp + sumSzH Zs + F.size) = some (Zs.length + 1) :=
    resolve_decompH1 _ Zs [] F E hL2 hpos hF0
  obtain ⟨hi1, hi2⟩ := insert_free_lists_spec h2 (baseBp + sumSzH Zs)
  rw [hg2, hr2, hL2, prevUpd_at_len1] at hi1
  have hcw := coalesce_wf (insert_free_lists h2 (baseBp + sumSzH Zs)) Zs F
    (prevSet E false (decide (F.size ≤ MIN_SIZE))) [] hi1
    (by rw [hi2, hfl2]) hzs hpro
    (by
      have h1 : ((prevSet E false (decide (F.size ≤ MIN_SIZE)) :: []).getLast?.getD
          default) = prevSet E false (decide (F.size ≤ MIN_SIZE)) := by simp
      rw [h1]
      exact ⟨hE.1, hE.2⟩)
    hzmid
    (by intro e he; simp at he)
    hF hFftr hFal
    (by
      rw [List.chain'_append]
      refine ⟨hzch.imp (fun a b hab => hab.1), ?_, ?_⟩
      · rw [List.chain'_cons']
        refine ⟨fun y hy => ?_, List.Chain.nil⟩
        simp only [List.head?_cons, Option.mem_def, Option.some.injEq] at hy
        subst hy
        exact ⟨hFal.symm, dec_le8_eq_dec_eq8 F.size hF.1⟩
      · intro x hx y hy
        simp only [List.head?_cons, Option.mem_def, Option.some.injEq] at hy
        subst hy
        exact hbZF x hx)
    hzch
    List.Chain.nil
  obtain ⟨hW, hfl5, Xs2, B2, Ys2, hL4, hfst, hxs2, hys2, hpos2, hpro2, hB2al, hB2sz⟩ :=
    hcw
  rw [hco] at hW hfl5 hL4 hfst
  dsimp only at hW hfl5 hL4 hfst
  have hr4 : resolve h4 (baseBp + sumSzH Xs2) = some Xs2.length :=
    resolve_decompH h4 Xs2 Ys2 B2 hL4 hpos2
  refine ⟨(wf_iff _).mpr ⟨hW, hfl5⟩, ?_, ?_, ?_⟩
  · have hmid : isMid h4 bp2 =
        (decide (1 ≤ Xs2.length) && decide (Xs2.length + 1 < h4.blocks.length)) := by
      unfold isMid
      rw [hfst, hr4]
    rw [hmid]
    have hlen : Xs2.length + 1 < h4.blocks.length := by
      have hpl := hproj_length h4
      rw [hL4] at hpl
      have hy1 : 0 < Ys2.length := List.length_pos.mpr hys2
      simp only [List.length_append, List.length_cons] at hpl
      omega
    have hx1 : 0 < Xs2.length := List.length_pos.mpr hxs2
    simp only [Bool.and_eq_true, decide_eq_true_eq]
    exact ⟨hx1, hlen⟩
  · rw [hfst, get_alloc_decompH h4 Xs2 Ys2 B2 hL4 hpos2]
    exact hB2al
  · rw [hfst, get_size_decompH h4 Xs2 Ys2 B2 hL4 hpos2]
    exact hB2sz

/-- extend_heap preserves the heap invariant and returns a real free
block of at least the requested size. -/
theorem extend_heap_wf (h : Heap) (w : Nat) (bp2 : Nat) (h4 : Heap) (hwf : Wf h)
    (hw : 1 ≤ w) (hex : extend_heap h w = some (bp2, h4)) :
    Wf h4 ∧ isMid h4 bp2 = true ∧ get_alloc h4 bp2 = false ∧
      (if w % 2 = 1 then (w + 1) * WSIZE else w * WSIZE) ≤ get_size h4 bp2 := by
  obtain ⟨hwfH, hfl⟩ := (wf_iff h).mp hwf
  have hlen2 : 2 ≤ (hproj h).length := hwfH.2.1
  have hne : hproj h ≠ [] := by
    intro hnil
    rw [hnil] at hlen2
    simp at hlen2
  obtain ⟨Zs, epiH, hZ⟩ : ∃ Zs epiH, hproj h = Zs ++ [epiH] :=
    ⟨(hproj h).dropLast, (hproj h).getLast hne,
      (List.dropLast_concat_getLast hne).symm⟩
  have hzs : Zs ≠ [] := by
    intro hnil
    rw [hnil] at hZ
    rw [hZ] at hlen2
    simp at hlen2
  have hepiOk : epiOkH epiH := by
    have h2 := hwfH.2.2.1
    rw [hZ, listGetLast?_append _ _ (by simp)] at h2
    simpa using h2
  have hend : heapEnd h = baseBp + sumSzH Zs := by
    unfold heapEnd
    have hsum : (h.blocks.map Blk.size).sum = sumSzH (hproj h) := sumSz_eq_sumSzH h
    rw [hsum, hZ, sumSzH_append]
    have h0 : epiH.size = 0 := hepiOk.1
    simp [sumSzH, h0]
  unfold extend_heap at hex
  dsimp only at hex
  set szE := if w % 2 = 1 then (w + 1) * WSIZE else w * WSIZE with hszEdef
  have hW8 : WSIZE = 8 := rfl
  have h16 : 16 ≤ szE := by
    rw [hszEdef, hW8]
    by_cases hpar : w % 2 = 1
    · rw [if_pos hpar]
      omega
    · rw [if_neg hpar]
      omega
  have hmod8 : szE % 8 = 0 := by
    rw [hszEdef, hW8]
    by_cases hpar : w % 2 = 1
    · rw [if_pos hpar]
      omega
    · rw [if_neg hpar]
      omega
  cases hsb : h.sbrkOk with
  | false =>
    rw [hsb] at hex
    simp at hex
  | true =>
    rw [if_neg (show ¬ ((!h.sbrkOk) = true) from by rw [hsb]; simp)] at hex
    have hgt : szE > MIN_SIZE := by
      show 8 < szE
      omega
    rw [if_pos hgt, hend] at hex
    have hco := Option.some.inj hex
    have hco2 : coalesce (insert_free_lists (extended h szE) (baseBp + sumSzH Zs))
        (baseBp + sumSzH Zs) = (bp2, h4) := hco
    have hL2 := hproj_extended h szE Zs epiH hZ
    have hch : List.Chain' adjOkH (hproj h) := hwfH.2.2.2.2
    rw [hZ] at hch
    have hbZE : ∀ x ∈ Zs.getLast?, adjBitsH x epiH :=
      chain_pair_append adjBitsH Zs epiH [] (hch.imp (fun a b hab => hab.1))
    have hproZ : proOkH (Zs.headD default) := by
      have h1 := hwfH.1
      rw [hZ, listHeadD_append _ _ _ hzs] at h1
      exact h1
    have hzmid : ∀ e ∈ Zs.drop 1, okSizeH e ∧ ftrOkH e := by
      intro e he
      refine hwfH.2.2.2.1 e ?_
      rw [hZ, listDrop1_append _ _ hzs, listDropLast_append _ _ (by simp)]
      simpa using he
    have htail := extend_tail_wf (extended h szE) Zs (extHdr epiH szE)
      (epiHdr (decide (¬ szE > MIN_SIZE))) bp2 h4 hco2 hL2 hfl hzs hproZ
      ⟨rfl, rfl⟩ hzmid
      (by
        refine ⟨?_, ?_⟩
        · show 8 ≤ szE
          omega
        · show szE % 8 = 0
          exact hmod8)
      (fun _ _ => rfl) rfl
      (by
        intro x hx
        have hb := hbZE x hx
        exact ⟨hb.1, hb.2⟩)
      ((List.chain'_append.mp hch).1)
    exact ⟨htail.1, htail.2.1, htail.2.2.1, htail.2.2.2⟩

/-- The adjusted size computed by malloc is a positive multiple of 8. -/
theorem adjusted_ok (n : Nat) : 8 ≤ adjusted n ∧ adjusted n % 8 = 0 := by
  unfold adjusted
  have hW : WSIZE = 8 := rfl
  have hH : HWSIZE = 4 := rfl
  have hM : MIN_SIZE = 8 := rfl
  rw [hW, hH, hM]
  by_cases hn : n ≤ 4
  · rw [if_pos hn]
    omega
  · rw [if_neg hn]
    refine ⟨?_, ?_⟩
    · have h1 : 1 ≤ (n + 4 + (8 - 1)) / 8 := by omega
      omega
    · omega

/-- malloc preserves the heap invariant (given a sound find_fit result
on the current heap, which holds on every concrete reachable heap and is
checked by decide in the witnesses). -/
theorem malloc_wf (h : Heap) (n : Nat) (hwf : Wf h)
    (hfit : FitOk h (adjusted n)) : Wf (malloc h n).2 := by
  by_cases hn0 : n = 0
  · subst hn0
    unfold malloc
    rw [if_pos rfl]
    exact hwf
  · unfold malloc
    rw [if_neg hn0]
    dsimp only
    rw [show (if n ≤ HWSIZE then MIN_SIZE
        else WSIZE * ((n + HWSIZE + (WSIZE - 1)) / WSIZE)) = adjusted n from rfl]
    have hadj := adjusted_ok n
    unfold FitOk at hfit
    cases hff : find_fit h (adjusted n) with
    | some bp =>
      rw [hff] at hfit
      show Wf (place h bp (adjusted n))
      exact place_wf h bp (adjusted n) hwf hfit.1 hfit.2.1 hfit.2.2 hadj.1 hadj.2
    | none =>
      cases hee : extend_heap h (max (adjusted n) CHUNKSIZE / WSIZE) with
      | none =>
        show Wf h
        exact hwf
      | some pr =>
        obtain ⟨bp, h2⟩ := pr
        show Wf (place h2 bp (adjusted n))
        have hw1 : 1 ≤ max (adjusted n) CHUNKSIZE / WSIZE := by
          have hC : CHUNKSIZE = 256 := rfl
          have hW : WSIZE = 8 := rfl
          have h256 := Nat.le_max_right (adjusted n) CHUNKSIZE
          rw [hW]
          omega
        have hext := extend_heap_wf h (max (adjusted n) CHUNKSIZE / WSIZE) bp h2
          hwf hw1 hee
        refine place_wf h2 bp (adjusted n) hext.1 hext.2.1 hext.2.2.1 ?_
          hadj.1 hadj.2
        have hb := hext.2.2.2
        have hax : adjusted n ≤ max (adjusted n) CHUNKSIZE := Nat.le_max_left _ _
        have hmx : max (adjusted n) CHUNKSIZE % 8 = 0 := by
          rcases Nat.le_total (adjusted n) CHUNKSIZE with hle | hle
          · rw [Nat.max_eq_right hle]
            rfl
          · rw [Nat.max_eq_left hle]
            exact hadj.2
        have hW : WSIZE = 8 := rfl
        by_cases hpar : (max (adjusted n) CHUNKSIZE / WSIZE) % 2 = 1
        · rw [if_pos hpar] at hb
          rw [hW] at hb hpar
          omega
        · rw [if_neg hpar] at hb
          rw [hW] at hb hpar
          omega

/-- realloc preserves the heap invariant: it either fails (heap
unchanged) or frees the old block of the post-malloc heap. -/
theorem realloc_wf (h : Heap) (old n : Nat) (hwf : Wf h)
    (hn0 : n ≠ 0) (hold : old ≠ 0)
    (hfit : FitOk h (adjusted n))
    (hm : (malloc h n).1 = none ∨
      (isMid (malloc h n).2 old = true ∧ get_alloc (malloc h n).2 old = true)) :
    ∃ h2, (realloc h old n).2 = Outcome.ok h2 ∧ Wf h2 := by
  unfold realloc
  rw [if_neg hn0, if_neg hold]
  dsimp only
  cases hr1 : (malloc h n).1 with
  | none =>
    exact ⟨h, rfl, hwf⟩
  | some np =>
    rcases hm with hm | ⟨hm1, hm2⟩
    · rw [hm] at hr1
      exact Option.noConfusion hr1
    · obtain ⟨h2, he, hw2⟩ := free_wf (malloc h n).2 old
        (malloc_wf h n hwf hfit) hm1 hm2
      exact ⟨h2, he, hw2⟩

end Seg

/-- C2: the claim fails on mm.c, whose header has no prev-small bit at
all: on the reachable heap mmB the block at 48 has exactly the minimum
block size, yet bit 0x4 of the following header word (pack gives
32 + prev_alloc = 34) is clear. -/
theorem mm_no_prev_small_bit :
    MM.get_size Ex.mmB 48 = MM.MIN_SIZE ∧
    MM.get_alloc Ex.mmB 48 = true ∧
    MM.hdrWord (MM.blkAt Ex.mmB 64) = 34 ∧
    MM.hdrWord (MM.blkAt Ex.mmB 64) / 4 % 2 = 0 := by
  refine ⟨by decide, by decide, by decide, by decide⟩

/-- C2 (amended): in 2mm-myseg.c every wellformed heap satisfies, for
every physically adjacent pair of blocks, that the prev-alloc bit of the
second equals the alloc bit of the first and the prev-small bit of the
second is set iff the first has minimum size; release and allocate
preserve wellformedness.  In mm.c only the prev-alloc half exists: no
header word ever carries a bit above 0x2 (sizes being 8-aligned), so
there is no prev-small bit to maintain. -/
theorem adjacent_prev_bits_invariant :
    (∀ h : Seg.Heap, Seg.Wf h →
      List.Chain' (fun b c => c.prevAlloc = b.alloc ∧
        c.prevSmall = decide (b.size = Seg.MIN_SIZE)) (Seg.hproj h)) ∧
    (∀ h p, Seg.Wf h → Seg.isMid h p = true → Seg.get_alloc h p = true →
      ∃ h2, Seg.free h p = Seg.Outcome.ok h2 ∧ Seg.Wf h2) ∧
    (∀ h n, Seg.Wf h → Seg.FitOk h (Seg.adjusted n) → Seg.Wf (Seg.malloc h n).2) ∧
    (∀ b : MM.Blk, b.size % 8 = 0 → MM.hdrWord b / 4 % 2 = 0) ∧
    List.Chain' (fun b c => c.prevAlloc = b.alloc) Ex.mmC1.blocks ∧
    List.Chain' (fun b c => c.prevAlloc = b.alloc) Ex.mmMinFree.blocks := by
  refine ⟨?_, ?_, ?_, ?_, by decide, by decide⟩
  · intro h hwf
    exact (((Seg.wf_iff h).mp hwf).1.2.2.2.2).imp (fun a b hab => ⟨hab.1.1, hab.1.2⟩)
  · intro h p hwf hm ha
    exact Seg.free_wf h p hwf hm ha
  · intro h n hwf hfit
    exact Seg.malloc_wf h n hwf hfit
  · intro b hb
    unfold MM.hdrWord
    cases b.alloc <;> cases b.prevAlloc <;> simp <;> omega

/-- C2 (witness): the invariant and the preservation steps at concrete
reachable heaps. -/
theorem adjacent_prev_bits_invariant_witness :
    List.Chain' (fun b c => c.prevAlloc = b.alloc ∧
      c.prevSmall = decide (b.size = Seg.MIN_SIZE)) (Seg.hproj Ex.seg0) ∧
    (∃ h2, Seg.free Ex.seg2 72 = Seg.Outcome.ok h2 ∧ Seg.Wf h2) ∧
    Seg.Wf (Seg.malloc Ex.seg0 12).2 ∧
    MM.hdrWord (MM.blkAt Ex.mmB 48) / 4 % 2 = 0 :=
  ⟨adjacent_prev_bits_invariant.1 Ex.seg0 (by decide),
   adjacent_prev_bits_invariant.2.1 Ex.seg2 72 (by decide) (by decide) (by decide),
   adjacent_prev_bits_invariant.2.2.1 Ex.seg0 12 (by decide) (by decide),
   adjacent_prev_bits_invariant.2.2.2.1 (MM.blkAt Ex.mmB 48) (by decide)⟩

/-- C3: in every wellformed 2mm-myseg.c heap no two physically adjacent
blocks are both free, release and allocate (whose every path ends in
coalesce when a block is freed) preserve this, and the modelled
post-coalesce mm.c heaps satisfy it as well. -/
theorem no_adjacent_free_blocks :
    (∀ h : Seg.Heap, Seg.Wf h →
      List.Chain' (fun b c => b.alloc = true ∨ c.alloc = true) (Seg.hproj h)) ∧
    (∀ h p, Seg.Wf h → Seg.isMid h p = true → Seg.get_alloc h p = true →
      ∃ h2, Seg.free h p = Seg.Outcome.ok h2 ∧
        List.Chain' (fun b c => b.alloc = true ∨ c.alloc = true) (Seg.hproj h2)) ∧
    (∀ h n, Seg.Wf h → Seg.FitOk h (Seg.adjusted n) →
      List.Chain' (fun b c => b.alloc = true ∨ c.alloc = true)
        (Seg.hproj (Seg.malloc h n).2)) ∧
    List.Chain' (fun b c => b.alloc = true ∨ c.alloc = true) Ex.mmC1.blocks ∧
    List.Chain' (fun b c => b.alloc = true ∨ c.alloc = true)
      Ex.mmMinFree.blocks := by
  refine ⟨?_, ?_, ?_, by decide, by decide⟩
  · intro h hwf
    exact (((Seg.wf_iff h).mp hwf).1.2.2.2.2).imp (fun a b hab => hab.2)
  · intro h p hwf hm ha
    obtain ⟨h2, he, hw2⟩ := Seg.free_wf h p hwf hm ha
    exact ⟨h2, he,
      (((Seg.wf_iff h2).mp hw2).1.2.2.2.2).imp (fun a b hab => hab.2)⟩
  · intro h n hwf hfit
    exact (((Seg.wf_iff _).mp (Seg.malloc_wf h n hwf hfit)).1.2.2.2.2).imp
      (fun a b hab => hab.2)

/-- C3 (witness): the no-adjacent-free property at concrete reachable
heaps, including a release that triggers a coalesce. -/
theorem no_adjacent_free_blocks_witness :
    List.Chain' (fun b c => b.alloc = true ∨ c.alloc = true) (Seg.hproj Ex.seg3) ∧
    (∃ h2, Seg.free Ex.seg3 56 = Seg.Outcome.ok h2 ∧
      List.Chain' (fun b c => b.alloc = true ∨ c.alloc = true) (Seg.hproj h2)) ∧
    List.Chain' (fun b c => b.alloc = true ∨ c.alloc = true)
      (Seg.hproj (Seg.malloc Ex.seg1 12).2) :=
  ⟨no_adjacent_free_blocks.1 Ex.seg3 (by decide),
   no_adjacent_free_blocks.2.1 Ex.seg3 56 (by decide) (by decide) (by decide),
   no_adjacent_free_blocks.2.2.1 Ex.seg1 12 (by decide) (by decide)⟩

/-- C4 (amended): in 2mm-myseg.c the minimum block size is 8 bytes and
in every wellformed heap each real (non-sentinel) block has a size that
is at least 8 and a multiple of 8, the prologue itself being 8 bytes;
release and allocate preserve wellformedness.  (mm.c diverges: its
MIN_SIZE is 16, see the counterexample.) -/
theorem seg_min_block_size :
    Seg.MIN_SIZE = 8 ∧
    (∀ h : Seg.Heap, Seg.Wf h →
      ∀ e ∈ ((Seg.hproj h).drop 1).dropLast,
        Seg.MIN_SIZE ≤ e.size ∧ e.size % 8 = 0) ∧
    (∀ h : Seg.Heap, Seg.Wf h → ((Seg.hproj h).headD default).size = 8) ∧
    (∀ h p, Seg.Wf h → Seg.isMid h p = true → Seg.get_alloc h p = true →
      ∃ h2, Seg.free h p = Seg.Outcome.ok h2 ∧ Seg.Wf h2) ∧
    (∀ h n, Seg.Wf h → Seg.FitOk h (Seg.adjusted n) →
      Seg.Wf (Seg.malloc h n).2) := by
  refine ⟨rfl, ?_, ?_, ?_, ?_⟩
  · intro h hwf e he
    have hok := ((Seg.wf_iff h).mp hwf).1.2.2.2.1 e he
    exact ⟨hok.1.1, hok.1.2⟩
  · intro h hwf
    exact (((Seg.wf_iff h).mp hwf).1.1).1
  · intro h p hwf hm ha
    exact Seg.free_wf h p hwf hm ha
  · intro h n hwf hfit
    exact Seg.malloc_wf h n hwf hfit

/-- C4 (witness): the size facts and the preservation steps at concrete
reachable heaps. -/
theorem seg_min_block_size_witness :
    (∀ e ∈ ((Seg.hproj Ex.seg2).drop 1).dropLast,
      Seg.MIN_SIZE ≤ e.size ∧ e.size % 8 = 0) ∧
    ((Seg.hproj Ex.seg2).headD default).size = 8 ∧
    (∃ h2, Seg.free Ex.seg2 56 = Seg.Outcome.ok h2 ∧ Seg.Wf h2) ∧
    Seg.Wf (Seg.malloc Ex.seg2 100).2 :=
  ⟨seg_min_block_size.2.1 Ex.seg2 (by decide),
   seg_min_block_size.2.2.1 Ex.seg2 (by decide),
   seg_min_block_size.2.2.2.1 Ex.seg2 56 (by decide) (by decide) (by decide),
   seg_min_block_size.2.2.2.2 Ex.seg2 100 (by decide) (by decide)⟩

/-- C5 (amended): in every wellformed 2mm-myseg.c heap, each real free
block larger than the minimum size carries a footer word equal to its
size (not bit-identical to the header, whose low bits differ), and
release and allocate preserve this; mm.c diverges from the claim in the
other direction too: place writes a footer word pack(24,1) = 25 into an
allocated split block, and free writes a full footer onto a
minimum-size free block. -/
theorem footer_rules :
    (∀ h : Seg.Heap, Seg.Wf h →
      ∀ e ∈ ((Seg.hproj h).drop 1).dropLast,
        e.alloc = false → Seg.MIN_SIZE < e.size → e.ftr = e.size) ∧
    (∀ h p, Seg.Wf h → Seg.isMid h p = true → Seg.get_alloc h p = true →
      ∃ h2, Seg.free h p = Seg.Outcome.ok h2 ∧ Seg.Wf h2) ∧
    (∀ h n, Seg.Wf h → Seg.FitOk h (Seg.adjusted n) →
      Seg.Wf (Seg.malloc h n).2) ∧
    (MM.get_alloc Ex.mm1 32 = true ∧ (MM.blkAt Ex.mm1 32).ftr = 25) ∧
    (MM.get_alloc Ex.mmMinFree 32 = false ∧
      MM.get_size Ex.mmMinFree 32 = MM.MIN_SIZE ∧
      (MM.blkAt Ex.mmMinFree 32).ftr = 16) := by
  refine ⟨?_, ?_, ?_, ⟨by decide, by decide⟩, ⟨by decide, by decide, by decide⟩⟩
  · intro h hwf e he hal hsz
    exact (((Seg.wf_iff h).mp hwf).1.2.2.2.1 e he).2 hal hsz
  · intro h p hwf hm ha
    exact Seg.free_wf h p hwf hm ha
  · intro h n hwf hfit
    exact Seg.malloc_wf h n hwf hfit

/-- C5 (witness): the footer rule and the preservation steps at concrete
reachable heaps. -/
theorem footer_rules_witness :
    (∀ e ∈ ((Seg.hproj Ex.seg3).drop 1).dropLast,
      e.alloc = false → Seg.MIN_SIZE < e.size → e.ftr = e.size) ∧
    (∃ h2, Seg.free Ex.seg1 56 = Seg.Outcome.ok h2 ∧ Seg.Wf h2) ∧
    Seg.Wf (Seg.malloc Ex.seg3 40).2 :=
  ⟨footer_rules.1 Ex.seg3 (by decide),
   footer_rules.2.1 Ex.seg1 56 (by decide) (by decide) (by decide),
   footer_rules.2.2.1 Ex.seg3 40 (by decide) (by decide)⟩

end Alloc
